import Mathlib

/-!
C_Shell: a shallow embedding of the command-line core.

The development follows the C sources `parser.c`, `exec.c`, `intrinsics.c` and `main.c`.

Conventions of the embedding

* A NUL-terminated C string is the list of its characters before the terminator (`CStr`).
* A `char *` cursor into a string (`s + pos`, `p`) is the unread suffix of that string.
* `malloc`, `strdup` and `realloc` are taken to succeed.
* A C `while` loop whose trip count is not structural is iterated under a step budget
  (`fuel`); every caller passes a budget derived from the length of its input, and the
  theorems show that this budget is never exhausted.
-/

namespace CShell

/-- A C string: the characters before the terminating NUL. -/
abbrev CStr := List Char

/-! ## parser.c : tokens and lexer -/

/-- The `Token` of parser.c: `TokenType` together with the text carried by `TOK_NAME`. -/
inductive Token where
  | TOK_NONE
  | TOK_NAME (text : CStr)
  | TOK_PIPE
  | TOK_SEMI
  | TOK_AMP
  | TOK_LT
  | TOK_GT
  | TOK_GTGT
  | TOK_EOF
  | TOK_ERROR
  deriving DecidableEq, Repr

open Token

/-- The blank test written out in `lexer_next` and in both `tokenize_special` functions:
space, tab, carriage return, line feed. -/
def is_blank (c : Char) : Bool :=
  c == ' ' || c == '\t' || c == '\r' || c == '\n'

/-- `is_name_char` of parser.c. -/
def is_name_char (c : Char) : Bool :=
  if c == '|' || c == '&' || c == '>' || c == '<' || c == ';' then false
  else if c == ' ' || c == '\t' || c == '\r' || c == '\n' then false
  else true

/-- The `Lexer` of parser.c; `rest` is the cursor `s + pos`. -/
structure Lexer where
  rest : CStr
  cur : Token
  deriving DecidableEq, Repr

/-- `lexer_init` of parser.c. -/
def lexer_init (s : CStr) : Lexer := ⟨s, TOK_NONE⟩

/-- `lexer_next` of parser.c. -/
def lexer_next (lx : Lexer) : Lexer :=
  match lx.rest.dropWhile is_blank with
  | [] => ⟨[], TOK_EOF⟩
  | c :: tl =>
    if c = '|' then ⟨tl, TOK_PIPE⟩
    else if c = ';' then ⟨tl, TOK_SEMI⟩
    else if c = '&' then ⟨tl, TOK_AMP⟩
    else if c = '<' then ⟨tl, TOK_LT⟩
    else if c = '>' then
      match tl with
      | '>' :: tl2 => ⟨tl2, TOK_GTGT⟩
      | _ => ⟨tl, TOK_GT⟩
    else
      ⟨(c :: tl).dropWhile is_name_char, TOK_NAME ((c :: tl).takeWhile is_name_char)⟩

/-! ## parser.c : the recursive-descent validator -/

/-- The `while (1)` loop of `parse_atomic`; the result is the returned flag and the lexer
as the loop leaves it. -/
def parse_atomic_loop : Nat → Lexer → Bool × Lexer
  | 0, lx => (false, lx)
  | fuel + 1, lx =>
    match lx.cur with
    | TOK_NAME _ => parse_atomic_loop fuel (lexer_next lx)
    | TOK_LT =>
      let lx1 := lexer_next lx
      match lx1.cur with
      | TOK_NAME _ => parse_atomic_loop fuel (lexer_next lx1)
      | _ => (false, lx1)
    | TOK_GT =>
      let lx1 := lexer_next lx
      match lx1.cur with
      | TOK_NAME _ => parse_atomic_loop fuel (lexer_next lx1)
      | _ => (false, lx1)
    | TOK_GTGT =>
      let lx1 := lexer_next lx
      match lx1.cur with
      | TOK_NAME _ => parse_atomic_loop fuel (lexer_next lx1)
      | _ => (false, lx1)
    | _ => (true, lx)

/-- `parse_atomic` of parser.c. -/
def parse_atomic (fuel : Nat) (lx : Lexer) : Bool × Lexer :=
  match lx.cur with
  | TOK_NAME _ => parse_atomic_loop fuel (lexer_next lx)
  | _ => (false, lx)

/-- The `while (lx->cur.type == TOK_PIPE)` loop of `parse_cmd_group`. -/
def parse_cmd_group_loop : Nat → Lexer → Bool × Lexer
  | 0, lx => (false, lx)
  | fuel + 1, lx =>
    match lx.cur with
    | TOK_PIPE =>
      match parse_atomic fuel (lexer_next lx) with
      | (false, lx1) => (false, lx1)
      | (true, lx1) => parse_cmd_group_loop fuel lx1
    | _ => (true, lx)

/-- `parse_cmd_group` of parser.c. -/
def parse_cmd_group (fuel : Nat) (lx : Lexer) : Bool × Lexer :=
  match parse_atomic fuel lx with
  | (false, lx1) => (false, lx1)
  | (true, lx1) =>
    match parse_cmd_group_loop fuel lx1 with
    | (false, lx2) => (false, lx2)
    | (true, lx2) =>
      match lx2.cur with
      | TOK_AMP => (true, lexer_next lx2)
      | _ => (true, lx2)

/-- The `while (lx.cur.type == TOK_SEMI)` loop of `validate_syntax`, ending with the test
`lx.cur.type == TOK_EOF`. -/
def validate_loop : Nat → Lexer → Bool
  | 0, _ => false
  | fuel + 1, lx =>
    match lx.cur with
    | TOK_SEMI =>
      match parse_cmd_group fuel (lexer_next lx) with
      | (false, _) => false
      | (true, lx1) => validate_loop fuel lx1
    | TOK_EOF => true
    | _ => false

/-- `validate_syntax` of parser.c.  No loop of the validator runs more often than the line
has tokens, so `line.length + 2` steps are enough for each of them. -/
def validate_syntax (line : CStr) : Bool :=
  let lx := lexer_next (lexer_init line)
  match parse_cmd_group (line.length + 2) lx with
  | (false, _) => false
  | (true, lx1) => validate_loop (line.length + 2) lx1

/-- The tokens that repeated calls of `lexer_next` deliver from the cursor `s`, up to and
without `TOK_EOF`. -/
def lex_all : Nat → CStr → List Token
  | 0, _ => []
  | fuel + 1, s =>
    let lx := lexer_next ⟨s, TOK_NONE⟩
    if lx.cur = TOK_EOF then [] else lx.cur :: lex_all fuel lx.rest

/-- The token sequence of a line, as `lexer_next` produces it. -/
def tokens (line : CStr) : List Token := lex_all (line.length + 1) line

/-- The tokens still ahead of a lexer: the current one and those `lexer_next` will deliver. -/
def strm (lx : Lexer) : List Token :=
  if lx.cur = TOK_EOF then [] else lx.cur :: tokens lx.rest

/-- Whether the next token continues an atomic: a name or a redirection operator. -/
def continues_atomic : List Token → Bool
  | TOK_NAME _ :: _ => true
  | TOK_LT :: _ => true
  | TOK_GT :: _ => true
  | TOK_GTGT :: _ => true
  | _ => false

/-- Whether the next token is `|`. -/
def starts_pipe : List Token → Bool
  | TOK_PIPE :: _ => true
  | _ => false

/-! ## The grammar of the specification

```
line      := cmd_group (';' cmd_group)*
cmd_group := atomic ('|' atomic)* ['&']
atomic    := name (name | '<' name | '>' name | '>>' name)*
```
-/

/-- A name: a non-empty run of characters other than blanks and `| & ; < >`. -/
def IsName (n : CStr) : Prop := n ≠ [] ∧ ∀ c ∈ n, is_name_char c = true

instance (n : CStr) : Decidable (IsName n) := by
  unfold IsName; infer_instance

/-- The repetition `(name | '<' name | '>' name | '>>' name)*`. -/
inductive AtomicTail : List Token → Prop where
  | done : AtomicTail []
  | arg {n : CStr} {ts : List Token} :
      IsName n → AtomicTail ts → AtomicTail (TOK_NAME n :: ts)
  | input {n : CStr} {ts : List Token} :
      IsName n → AtomicTail ts → AtomicTail (TOK_LT :: TOK_NAME n :: ts)
  | output {n : CStr} {ts : List Token} :
      IsName n → AtomicTail ts → AtomicTail (TOK_GT :: TOK_NAME n :: ts)
  | append {n : CStr} {ts : List Token} :
      IsName n → AtomicTail ts → AtomicTail (TOK_GTGT :: TOK_NAME n :: ts)

/-- The rule `atomic := name (...)*`. -/
inductive Atomic : List Token → Prop where
  | mk {n : CStr} {ts : List Token} : IsName n → AtomicTail ts → Atomic (TOK_NAME n :: ts)

/-- The sequence `atomic ('|' atomic)*`. -/
inductive PipeSeq : List Token → Prop where
  | one {a : List Token} : Atomic a → PipeSeq a
  | pipe {a r : List Token} : Atomic a → PipeSeq r → PipeSeq (a ++ TOK_PIPE :: r)

/-- The rule `cmd_group := atomic ('|' atomic)* ['&']`. -/
inductive CmdGroup : List Token → Prop where
  | fg {p : List Token} : PipeSeq p → CmdGroup p
  | bg {p : List Token} : PipeSeq p → CmdGroup (p ++ [TOK_AMP])

/-- The rule `line := cmd_group (';' cmd_group)*`. -/
inductive Line : List Token → Prop where
  | one {g : List Token} : CmdGroup g → Line g
  | semi {g r : List Token} : CmdGroup g → Line r → Line (g ++ TOK_SEMI :: r)

/-- The token sequence of a line as the specification describes it: blanks separate
tokens, each operator is a token of its own (`>>` before `>`), and a name is a maximal run
of characters other than blanks and `| & ; < >`. -/
inductive Tokenises : CStr → List Token → Prop where
  | done : Tokenises [] []
  | blank {c : Char} {s : CStr} {ts : List Token} :
      is_blank c = true → Tokenises s ts → Tokenises (c :: s) ts
  | pipe {s : CStr} {ts : List Token} : Tokenises s ts → Tokenises ('|' :: s) (TOK_PIPE :: ts)
  | semi {s : CStr} {ts : List Token} : Tokenises s ts → Tokenises (';' :: s) (TOK_SEMI :: ts)
  | amp {s : CStr} {ts : List Token} : Tokenises s ts → Tokenises ('&' :: s) (TOK_AMP :: ts)
  | lt {s : CStr} {ts : List Token} : Tokenises s ts → Tokenises ('<' :: s) (TOK_LT :: ts)
  | gtgt {s : CStr} {ts : List Token} :
      Tokenises s ts → Tokenises ('>' :: '>' :: s) (TOK_GTGT :: ts)
  | gt {s : CStr} {ts : List Token} :
      s.head? ≠ some '>' → Tokenises s ts → Tokenises ('>' :: s) (TOK_GT :: ts)
  | name {n s : CStr} {ts : List Token} :
      IsName n → (∀ c, s.head? = some c → is_name_char c = false) → Tokenises s ts →
      Tokenises (n ++ s) (TOK_NAME n :: ts)

/-- The states of the finite automaton that recognises the grammar token by token. -/
inductive GState where
  | needName
  | inAtomic
  | needTarget
  | afterAmp
  deriving DecidableEq, Repr

/-- The automaton of the grammar: `needName` at the start of an atomic, `inAtomic` after
one of its names, `needTarget` after a redirection operator, `afterAmp` after `&`. -/
def accepts : GState → List Token → Bool
  | .needName, TOK_NAME _ :: ts => accepts .inAtomic ts
  | .needName, _ => false
  | .inAtomic, [] => true
  | .inAtomic, TOK_NAME _ :: ts => accepts .inAtomic ts
  | .inAtomic, TOK_LT :: ts => accepts .needTarget ts
  | .inAtomic, TOK_GT :: ts => accepts .needTarget ts
  | .inAtomic, TOK_GTGT :: ts => accepts .needTarget ts
  | .inAtomic, TOK_PIPE :: ts => accepts .needName ts
  | .inAtomic, TOK_SEMI :: ts => accepts .needName ts
  | .inAtomic, TOK_AMP :: ts => accepts .afterAmp ts
  | .inAtomic, _ => false
  | .needTarget, TOK_NAME _ :: ts => accepts .inAtomic ts
  | .needTarget, _ => false
  | .afterAmp, [] => true
  | .afterAmp, TOK_SEMI :: ts => accepts .needName ts
  | .afterAmp, _ => false

/-- Every `TOK_NAME` of the list carries a name of the grammar. -/
def NamesOK (ts : List Token) : Prop := ∀ n, TOK_NAME n ∈ ts → IsName n

/-- The operator tokens `| ; & < > >>`. -/
def is_operator : Token → Bool
  | TOK_PIPE | TOK_SEMI | TOK_AMP | TOK_LT | TOK_GT | TOK_GTGT => true
  | _ => false

/-- The operators after which the grammar requires a name: `| ; < > >>`. -/
def requires_name : Token → Bool
  | TOK_PIPE | TOK_SEMI | TOK_LT | TOK_GT | TOK_GTGT => true
  | _ => false

/-! ## exec.c : tokenizer, pipeline builder, command groups -/

/-- `is_delim_char` of exec.c. -/
def is_delim_char (c : Char) : Bool :=
  c == ' ' || c == '\t' || c == '\r' || c == '\n' ||
  c == '|' || c == '<' || c == '>' || c == ';' || c == '&'

/-- The `while (*p)` loop of `tokenize_special` in exec.c; the result is the token array. -/
def tokenize_special_loop : Nat → CStr → List CStr
  | 0, _ => []
  | fuel + 1, p =>
    match p.dropWhile is_blank with
    | [] => []
    | c :: tl =>
      if c = '|' then ['|'] :: tokenize_special_loop fuel tl
      else if c = '<' then ['<'] :: tokenize_special_loop fuel tl
      else if c = '>' then
        match tl with
        | '>' :: tl2 => ['>', '>'] :: tokenize_special_loop fuel tl2
        | _ => ['>'] :: tokenize_special_loop fuel tl
      else if c = ';' then [';'] :: tokenize_special_loop fuel tl
      else if c = '&' then ['&'] :: tokenize_special_loop fuel tl
      else
        (c :: tl).takeWhile (fun x => !is_delim_char x) ::
          tokenize_special_loop fuel ((c :: tl).dropWhile (fun x => !is_delim_char x))

/-- `tokenize_special` of exec.c.  Every iteration reads at least one character, so
`line.length + 1` steps are enough. -/
def tokenize_special (line : CStr) : List CStr :=
  tokenize_special_loop (line.length + 1) line

/-- `CmdNode` of exec.c. -/
structure CmdNode where
  argv : List CStr
  infile : Option CStr
  outfile : Option CStr
  append : Int
  deriving DecidableEq, Repr

/-- The second pass of `build_pipeline_from_tokens` over the tokens `[i, end)` of one stage:
`none` is the `goto fail_nodes` of a redirection operator without a following token.  (The
first pass only counts the arguments to size the `argv` allocation.) -/
def fill_node : List CStr → CmdNode → Option CmdNode
  | [], node => some node
  | t :: rest, node =>
    if t = ['<'] then
      match rest with
      | [] => none
      | f :: rest2 => fill_node rest2 { node with infile := some f }
    else if t = ['>'] then
      match rest with
      | [] => none
      | f :: rest2 => fill_node rest2 { node with outfile := some f, append := 0 }
    else if t = ['>', '>'] then
      match rest with
      | [] => none
      | f :: rest2 => fill_node rest2 { node with outfile := some f, append := 1 }
    else fill_node rest { node with argv := node.argv ++ [t] }

/-- The `while (start < limit)` loop of `build_pipeline_from_tokens`: `toks` are the tokens
from `start` on, `cmds` the nodes stored so far. -/
def build_loop : Nat → List CStr → List CmdNode → Option (List CmdNode)
  | 0, _, _ => none
  | fuel + 1, toks, cmds =>
    match toks with
    | [] => some cmds
    | _ :: _ =>
      match fill_node (toks.takeWhile (fun t => t != ['|'])) ⟨[], none, none, 0⟩ with
      | none => none
      | some node =>
        build_loop fuel ((toks.dropWhile (fun t => t != ['|'])).drop 1) (cmds ++ [node])

/-- `build_pipeline_from_tokens` of exec.c: `some cmds` for the return value 0 with
`*out_cmds = cmds`, `none` for -1.  Every iteration passes at least one token, so
`toks.length + 1` steps are enough. -/
def build_pipeline_from_tokens (toks : List CStr) : Option (List CmdNode) :=
  build_loop (toks.length + 1) toks []

/-- What `exec_run_line` hands on for one command group: the token slice
`toks + start, end - start`, the background flag and the display text `cmd`. -/
structure GroupRun where
  toks : List CStr
  is_background : Bool
  cmd : CStr
  deriving DecidableEq, Repr

/-- The text `exec_run_line` builds with `strcat`: the tokens joined by single blanks. -/
def join_tokens : List CStr → CStr
  | [] => []
  | [t] => t
  | t :: rest => t ++ ' ' :: join_tokens rest

/-- The `while (start < ntoks)` loop of `exec_run_line`: `toks` are the tokens from `start`
on.  The slice up to the next `;` loses a final `&`, which sets the background flag, and
the loop goes on after the `;`. -/
def group_loop : Nat → List CStr → List GroupRun
  | 0, _ => []
  | fuel + 1, toks =>
    match toks with
    | [] => []
    | _ :: _ =>
      let g := toks.takeWhile (fun t => t != [';'])
      let is_background := g.getLast? == some ['&']
      let g1 := if is_background then g.dropLast else g
      ⟨g1, is_background, join_tokens g1⟩ ::
        group_loop fuel ((toks.dropWhile (fun t => t != [';'])).drop 1)

/-- The command groups `exec_run_line` extracts from a line and passes to
`build_pipeline_from_tokens`: none when the line is taken by the `activities`, `ping`,
`fg` or `bg` branch, which return before the loop. -/
def exec_run_line_groups (line : CStr) : List GroupRun :=
  let toks := tokenize_special line
  if toks = ["activities".toList] then []
  else if toks.head? = some "ping".toList then []
  else if toks.head? = some "fg".toList ∨ toks.head? = some "bg".toList then []
  else group_loop (toks.length + 1) toks

/-- The command groups of a line as the loop of `exec_run_line` cuts them, whether or not
one of the early branches takes the line. -/
def command_groups (line : CStr) : List GroupRun :=
  group_loop ((tokenize_special line).length + 1) (tokenize_special line)

/-- The text of a token as `tokenize_special` stores it. -/
def token_text : Token → CStr
  | TOK_NAME n => n
  | TOK_PIPE => ['|']
  | TOK_SEMI => [';']
  | TOK_AMP => ['&']
  | TOK_LT => ['<']
  | TOK_GT => ['>']
  | TOK_GTGT => ['>', '>']
  | _ => []

/-! ### What the specification says of a stage -/

/-- A redirection operator: `<`, `>` or `>>`. -/
def is_redirection (t : CStr) : Bool := t == ['<'] || t == ['>'] || t == ['>', '>']

/-- An output redirection operator: `>` or `>>`. -/
def is_output_redirection (t : CStr) : Bool := t == ['>'] || t == ['>', '>']

/-- The sub-slices of a token slice that `|` separates. -/
def pipe_slices : List CStr → List (List CStr)
  | [] => [[]]
  | t :: ts =>
    if t = ['|'] then [] :: pipe_slices ts
    else
      match pipe_slices ts with
      | [] => [[t]]
      | s :: ss => (t :: s) :: ss

/-- The tokens that are neither a redirection operator nor the token following one;
`after` tells whether the token before the slice is a redirection operator. -/
def plain_tokens (after : Bool) : List CStr → List CStr
  | [] => []
  | t :: ts =>
    if is_redirection t || after then plain_tokens (is_redirection t) ts
    else t :: plain_tokens (is_redirection t) ts

/-- The token after the last token that satisfies `p`. -/
def token_after_last (p : CStr → Bool) : List CStr → Option CStr
  | [] => none
  | t :: ts =>
    if ts.any p then token_after_last p ts
    else if p t then ts.head? else none

/-- The last output redirection operator of a slice. -/
def last_output_redirection (seg : List CStr) : Option CStr :=
  (seg.filter is_output_redirection).getLast?

/-- The stage the specification describes for one `|`-separated sub-slice. -/
def stage_of_slice (seg : List CStr) : CmdNode :=
  { argv := plain_tokens false seg
    infile := token_after_last (fun t => t == ['<']) seg
    outfile := token_after_last is_output_redirection seg
    append := if last_output_redirection seg = some ['>', '>'] then 1 else 0 }

/-! ## intrinsics.c : history -/

/-- `HIST_MAX` of intrinsics.c. -/
def HIST_MAX : Nat := 15

/-- `isspace` of `<ctype.h>` in the "C" locale, which the shell never changes: blank,
`\t`, `\n`, `\v`, `\f`, `\r`. -/
def isspace (c : Char) : Bool :=
  c == ' ' || c == '\t' || c == '\n' || c == '\x0b' || c == '\x0c' || c == '\r'

/-- The test that ends the name scan of `line_contains_atomic_log`:
`isspace(c) || c == '|' || c == ';' || c == '&' || c == '<' || c == '>'`. -/
def ends_log_name (c : Char) : Bool :=
  isspace c || c == '|' || c == ';' || c == '&' || c == '<' || c == '>'

/-- The separators of `line_contains_atomic_log`: `|`, `;`, `&`. -/
def is_separator (c : Char) : Bool := c == '|' || c == ';' || c == '&'

/-- The `while (*s)` loop of `line_contains_atomic_log`; `true` is the return value 1. -/
def line_contains_atomic_log_loop : Nat → CStr → Bool
  | 0, _ => false
  | fuel + 1, s =>
    match s.dropWhile isspace with
    | [] => false
    | c :: tl =>
      if is_separator c then line_contains_atomic_log_loop fuel tl
      else if (c :: tl).takeWhile (fun x => !ends_log_name x) = ['l', 'o', 'g'] then true
      else
        line_contains_atomic_log_loop fuel
          (((c :: tl).dropWhile (fun x => !ends_log_name x)).dropWhile
            (fun x => !is_separator x))

/-- `line_contains_atomic_log` of intrinsics.c.  Every iteration reads at least one
character, so `line.length + 1` steps are enough. -/
def line_contains_atomic_log (line : CStr) : Bool :=
  line_contains_atomic_log_loop (line.length + 1) line

/-- `intrinsics_record_command` of intrinsics.c on the buffer `history_buf[0 .. history_count)`
(oldest first): the return value and the buffer afterwards.  `List.erase` is the loop that
removes the first entry equal to `line` and breaks.  The write to the history file does
not change the result. -/
def intrinsics_record_command (h : List CStr) (line : CStr) : Int × List CStr :=
  if line_contains_atomic_log line then (0, h)
  else if h.getLast? = some line then (0, h)
  else
    let h1 := h.erase line
    if h1.length = HIST_MAX then (1, h1.tail ++ [line])
    else (1, h1 ++ [line])

/-- `free_history_in_memory` of intrinsics.c: the buffer afterwards. -/
def free_history_in_memory (_h : List CStr) : List CStr := []

/-- A mutation of the history: a call of `intrinsics_record_command` or `log purge`. -/
inductive HistoryOp where
  | record (line : CStr)
  | purge
  deriving DecidableEq, Repr

/-- The buffer after a sequence of history mutations. -/
def apply_history_ops : List HistoryOp → List CStr → List CStr
  | [], h => h
  | HistoryOp.record line :: ops, h => apply_history_ops ops (intrinsics_record_command h line).2
  | HistoryOp.purge :: ops, h => apply_history_ops ops (free_history_in_memory h)

/-- The invariant of the history buffer: at most `HIST_MAX` entries, pairwise distinct. -/
def HistoryInv (h : List CStr) : Prop := h.length ≤ HIST_MAX ∧ h.Nodup

/-- The last `n` elements of a list. -/
def newest (n : Nat) (l : List CStr) : List CStr := l.drop (l.length - n)

/-! ## intrinsics.c : `log`, dispatch -/

/-- `tokenize_whitespace` loop of intrinsics.c: the words between `isspace` characters. -/
def tokenize_whitespace_loop : Nat → CStr → List CStr
  | 0, _ => []
  | fuel + 1, p =>
    match p.dropWhile isspace with
    | [] => []
    | c :: tl =>
      (c :: tl).takeWhile (fun x => !isspace x) ::
        tokenize_whitespace_loop fuel ((c :: tl).dropWhile (fun x => !isspace x))

/-- `tokenize_whitespace` of intrinsics.c.  Every iteration reads at least one character,
so `line.length + 1` steps are enough. -/
def tokenize_whitespace (line : CStr) : List CStr :=
  tokenize_whitespace_loop (line.length + 1) line

/-- `LONG_MAX` for the 64-bit `long` of the LP64 platforms the shell is built for. -/
def LONG_MAX : Int := 9223372036854775807

/-- `LONG_MIN`, see `LONG_MAX`. -/
def LONG_MIN : Int := -9223372036854775808

/-- The value of a string of decimal digits. -/
def digits_value (ds : List Char) : Nat :=
  ds.foldl (fun acc d => 10 * acc + (d.toNat - '0'.toNat)) 0

/-- What `strtol(nptr, &endptr, 10)` delivers: the value, the text at `endptr`, and
whether `endptr` differs from `nptr` (a conversion was performed). -/
structure StrtolResult where
  val : Int
  endptr : CStr
  converted : Bool
  deriving DecidableEq, Repr

/-- Whether the text starts with the sign `-`. -/
def is_negative (s : CStr) : Bool := s.head? == some '-'

/-- The text after one optional sign `+` or `-`. -/
def after_sign (s : CStr) : CStr :=
  if s.head? == some '-' || s.head? == some '+' then s.tail else s

/-- `strtol` of the C library in base 10: leading `isspace` characters are skipped, one
sign is optional, the digits that follow are converted and the value is clamped to the
range of `long`; without a digit no conversion is performed and `endptr` is `nptr`. -/
def strtol (nptr : CStr) : StrtolResult :=
  let s1 := nptr.dropWhile isspace
  let s2 := after_sign s1
  let ds := s2.takeWhile Char.isDigit
  if ds = [] then ⟨0, nptr, false⟩
  else
    let v : Int := if is_negative s1 then -(digits_value ds : Int) else (digits_value ds : Int)
    ⟨max LONG_MIN (min LONG_MAX v), s2.dropWhile Char.isDigit, true⟩

/-- What a call of `handle_log_args` leaves: the return value, `*out_reexec_cmd` when it
was set, the history buffer and the lines printed. -/
structure LogResult where
  ret : Int
  reexec : Option CStr
  history : List CStr
  output : List CStr
  deriving DecidableEq, Repr

/-- The message of `handle_log_args` for every malformed call. -/
def log_invalid (h : List CStr) : LogResult :=
  ⟨1, none, h, ["log: Invalid Syntax!".toList]⟩

/-- The replay command built by the `strcat` loop: the stored command, then a blank and
the token for each trailing token. -/
def append_tokens (stored : CStr) : List CStr → CStr
  | [] => stored
  | t :: rest => append_tokens (stored ++ ' ' :: t) rest

/-- `handle_log_args` of intrinsics.c on the buffer `h` (oldest first). -/
def handle_log_args (h : List CStr) (args : List CStr) : LogResult :=
  match args with
  | [] => ⟨1, none, h, h⟩
  | [a] =>
    if a = "purge".toList then ⟨1, none, free_history_in_memory h, []⟩
    else log_invalid h
  | a :: k :: extra =>
    if a = "execute".toList then
      let r := strtol k
      if !r.converted || r.endptr ≠ [] || r.val ≤ 0 then log_invalid h
      else if h.length = 0 then log_invalid h
      else if r.val > (h.length : Int) then log_invalid h
      else
        match h.get? (h.length - r.val.toNat) with
        | none => log_invalid h
        | some stored =>
          match extra with
          | [] => ⟨2, some stored, h, []⟩
          | _ :: _ => ⟨2, some (append_tokens stored extra), h, []⟩
    else log_invalid h

/-- The in-process handler `intrinsics_handle` calls, with the arguments it passes. -/
inductive IntrinsicCall where
  | hop (args : List CStr)
  | reveal (args : List CStr)
  | log (args : List CStr)
  deriving DecidableEq, Repr

/-- What a call of `intrinsics_handle` leaves: the return value, `*out_reexec_cmd` when it
was set, the history buffer, the handler called and the lines `log` printed. -/
structure HandleResult where
  ret : Int
  reexec : Option CStr
  history : List CStr
  call : Option IntrinsicCall
  output : List CStr
  deriving DecidableEq, Repr

/-- `intrinsics_handle` of intrinsics.c, as far as the history and the dispatch go: the
line is cut into words at `isspace` characters, the first word selects the handler and all
the other words are its arguments.  `handle_hop_args` returns 1 and `handle_reveal_args`
0 or 1, which `intrinsics_handle` both turns into 1; neither touches the history. -/
def intrinsics_handle (h : List CStr) (line : CStr) : HandleResult :=
  match tokenize_whitespace line with
  | [] => ⟨0, none, h, none, []⟩
  | cmd :: args =>
    if cmd = "hop".toList then ⟨1, none, h, some (IntrinsicCall.hop args), []⟩
    else if cmd = "reveal".toList then ⟨1, none, h, some (IntrinsicCall.reveal args), []⟩
    else if cmd = "log".toList then
      let r := handle_log_args h args
      ⟨r.ret, r.reexec, r.history, some (IntrinsicCall.log args), r.output⟩
    else ⟨0, none, h, none, []⟩

/-! ## main.c : one turn of the read loop -/

/-- What one turn of the loop of `main` did: the history buffer afterwards, the arguments
of the calls of `intrinsics_record_command`, the in-process handlers called, the replay
commands the `while (current)` loop examined, and the lines passed to `exec_run_line`. -/
structure Outcome where
  history : List CStr
  recorded : List CStr
  calls : List IntrinsicCall
  replayed : List CStr
  executed : List CStr
  deriving DecidableEq, Repr

/-- The `while (current)` loop of `main` that follows a chain of replay commands.  The
chain may be endless; `fuel` bounds the commands examined, and running out of it leaves
the state reached so far.  `exec_run_line` runs every builtin in a forked child and does
not touch the history buffer of the shell. -/
def replay_loop : Nat → CStr → Outcome → Outcome
  | 0, _, acc => acc
  | fuel + 1, current, acc =>
    let acc1 := { acc with replayed := acc.replayed ++ [current] }
    if validate_syntax current = false then acc1
    else
      let r := intrinsics_handle acc1.history current
      let acc2 := { acc1 with history := r.history, calls := acc1.calls ++ r.call.toList }
      if r.ret = 1 then acc2
      else if r.ret = 2 then
        match r.reexec with
        | some next => replay_loop fuel next acc2
        | none => acc2
      else if r.ret = 0 then { acc2 with executed := acc2.executed ++ [current] }
      else acc2

/-- The body of the `while (1)` loop of `main` for one line read. -/
def main_turn (fuel : Nat) (h : List CStr) (line : CStr) : Outcome :=
  if line.all is_blank then ⟨h, [], [], [], []⟩
  else if validate_syntax line = false then ⟨h, [], [], [], []⟩
  else
    let h1 := (intrinsics_record_command h line).2
    let r := intrinsics_handle h1 line
    if r.ret = 0 then ⟨r.history, [line], r.call.toList, [], [line]⟩
    else if r.ret = 1 then ⟨r.history, [line], r.call.toList, [], []⟩
    else if r.ret = 2 then
      match r.reexec with
      | some cmd => replay_loop fuel cmd ⟨r.history, [line], r.call.toList, [], []⟩
      | none => ⟨r.history, [line], r.call.toList, [], []⟩
    else ⟨r.history, [line], r.call.toList, [], []⟩

/-- An optionally signed decimal integer: one sign at most, then digits only, at least
one; its value. -/
def decimal_integer (s : CStr) : Option Int :=
  let ds := after_sign s
  if ds ≠ [] ∧ ds.all Char.isDigit then
    some (if is_negative s then -(digits_value ds : Int) else (digits_value ds : Int))
  else none

/-- The first names of the atomics of a token sequence, the atomics being what `|`, `;`
and `&` separate; `at_start` tells whether the next token starts an atomic. -/
def atomic_heads : Bool → List Token → List CStr
  | _, [] => []
  | _, TOK_PIPE :: ts => atomic_heads true ts
  | _, TOK_SEMI :: ts => atomic_heads true ts
  | _, TOK_AMP :: ts => atomic_heads true ts
  | true, TOK_NAME n :: ts => n :: atomic_heads false ts
  | _, _ :: ts => atomic_heads false ts

/-- The token sequence from its first `|`, `;` or `&` on. -/
def from_separator : List Token → List Token
  | [] => []
  | TOK_PIPE :: ts => TOK_PIPE :: ts
  | TOK_SEMI :: ts => TOK_SEMI :: ts
  | TOK_AMP :: ts => TOK_AMP :: ts
  | _ :: ts => from_separator ts

/-- A string without vertical tab and form feed: on it `isspace` is the lexer's blank
test. -/
def PlainBlanks (s : CStr) : Prop := ∀ c ∈ s, isspace c = is_blank c


/-! ### The history file -/

/-- The files the shell can see: whether `fopen(path, "w")` succeeds, and the content of
each existing file (`none`: `fopen(path, "r")` fails). -/
structure FileSys where
  writable : CStr → Bool
  content : CStr → Option CStr

/-- The name of the history file within `$HOME`. -/
def HIST_FILENAME : CStr := ".osh_history".toList

/-- `join_path_home` of intrinsics.c: `$HOME/name`, `none` when `HOME` is not set. -/
def join_path_home (home : Option CStr) (name : CStr) : Option CStr :=
  match home with
  | none => none
  | some hm => some (hm ++ '/' :: name)

/-- What `fprintf(f, "%s\n", entry)` writes for each entry in turn. -/
def history_lines : List CStr → CStr
  | [] => []
  | e :: rest => e ++ '\n' :: history_lines rest

/-- `save_history_to_file` of intrinsics.c on the buffer `h`: the return value and the
files afterwards. Opening with mode `"w"` truncates the file, so on success its content
is exactly the lines written. -/
def save_history_to_file (home : Option CStr) (fs : FileSys) (h : List CStr) :
    Int × FileSys :=
  match join_path_home home HIST_FILENAME with
  | none => (-1, fs)
  | some path =>
    if fs.writable path then
      (0, { fs with content := fun p => if p = path then some (history_lines h) else fs.content p })
    else (-1, fs)

/-- `handle_log_args` together with the files: the `purge` branch, after
`free_history_in_memory`, calls `save_history_to_file` and ignores what it returns; no
other branch touches a file. -/
def handle_log_args_fs (home : Option CStr) (fs : FileSys) (h : List CStr)
    (args : List CStr) : LogResult × FileSys :=
  match args with
  | [a] =>
    if a = "purge".toList then
      (⟨1, none, free_history_in_memory h, []⟩,
        (save_history_to_file home fs (free_history_in_memory h)).2)
    else (log_invalid h, fs)
  | _ => (handle_log_args h args, fs)

/-- A file system in which the history file of `/root` holds `text` and no file can be
opened for writing. -/
def read_only_history (text : CStr) : FileSys :=
  ⟨fun _ => false, fun p => if p = "/root/.osh_history".toList then some text else none⟩

/-- Files in which every path can be opened for writing and no file exists yet. -/
def writable_files : FileSys :=
  ⟨fun _ => true, fun _ => none⟩

/-! ### The job table -/

def INT_MAX : Int := 2147483647

def INT_MIN : Int := -2147483648

/-- Conversion to a C `int` (32 bits, two's complement): what the cast `(int)v` gives for
a `long`, and the value `++` leaves in an `int` variable (at `INT_MAX`, where C leaves
the overflow undefined, the value the machine wraps to). -/
def to_int (v : Int) : Int := (v + 2147483648) % 4294967296 - 2147483648

/-- What `printf("%d")` writes. -/
def fmt_d (n : Int) : CStr :=
  if n < 0 then '-' :: Nat.toDigits 10 n.natAbs else Nat.toDigits 10 n.toNat

/-- `strcmp`: negative, zero or positive as `a` is below, equal to or above `b` in
byte-wise lexicographic order (the terminating NUL, which is not part of a `CStr`, is
below every character of a string). -/
def strcmp : CStr → CStr → Int
  | [], [] => 0
  | [], _ :: _ => -1
  | _ :: _, [] => 1
  | a :: as, b :: bs => if a = b then strcmp as bs else (a.toNat : Int) - (b.toNat : Int)

/-- A node of the job list (`bg_job` of exec.h); `next` is the rest of the list. -/
structure bg_job where
  pid : Int
  job_id : Int
  command : CStr
  stopped : Bool
deriving DecidableEq

/-- The globals of exec.c that the job functions use, and what they have written to
standard output. -/
structure JobState where
  job_list : List bg_job
  next_job_id : Int
  fg_pgid : Int
  out : CStr
deriving DecidableEq

/-- `init_job_list` of exec.c (the signal handlers and the exit hook it installs are not
part of the job table). -/
def init_job_list (σ : JobState) : JobState :=
  { σ with job_list := [], next_job_id := 1 }

/-- `add_background_job` of exec.c: the new node takes the counter's value, goes to the
head of the list, and `[job_id] pid` is printed. -/
def add_background_job (σ : JobState) (pid : Int) (cmd : CStr) : JobState :=
  { σ with
    job_list := ⟨pid, σ.next_job_id, cmd, false⟩ :: σ.job_list
    next_job_id := to_int (σ.next_job_id + 1)
    out := σ.out ++ ('[' :: fmt_d σ.next_job_id ++ "] ".toList ++ fmt_d pid ++ ['\n']) }

/-- `add_stopped_job` of exec.c: as `add_background_job`, with the flag set and
`[job_id] Stopped command` printed. -/
def add_stopped_job (σ : JobState) (pid : Int) (cmd : CStr) : JobState :=
  { σ with
    job_list := ⟨pid, σ.next_job_id, cmd, true⟩ :: σ.job_list
    next_job_id := to_int (σ.next_job_id + 1)
    out := σ.out ++ ('[' :: fmt_d σ.next_job_id ++ "] Stopped ".toList ++ cmd ++ ['\n']) }

/-- The status `waitpid` stores. -/
inductive WaitStatus where
  | exited (code : Nat)
  | signaled
  | stopped
  | continued
deriving DecidableEq

/-- What a call of `waitpid` returns: 0 (`none`, nothing to report under `WNOHANG`), -1
(`error`), or the pid of a child together with its status. -/
inductive WaitResult where
  | none
  | error
  | changed (st : WaitStatus)
deriving DecidableEq

/-- What `kill` returns: 0, or -1 with `errno` being `ESRCH` or something else. -/
inductive KillResult where
  | ok
  | esrch
  | failed
deriving DecidableEq

/-- The loop of `check_background_jobs`: `poll i` is what `waitpid(job->pid, &status,
WNOHANG)` returns for the node at position `i` of the list the loop started with. Gives
the nodes kept and the messages printed. -/
def check_background_jobs_loop (poll : Nat → WaitResult) : Nat → List bg_job → List bg_job × CStr
  | _, [] => ([], [])
  | i, job :: rest =>
    let r := check_background_jobs_loop poll (i + 1) rest
    match poll i with
    | WaitResult.changed st =>
      (r.1, '\n' :: job.command ++ " with pid ".toList ++ fmt_d job.pid ++
        (if st = WaitStatus.exited 0 then " exited normally\n".toList
         else " exited abnormally\n".toList) ++ r.2)
    | _ => (job :: r.1, r.2)

/-- `check_background_jobs` of exec.c; a final newline is printed when some job was
removed (`job_finished`). -/
def check_background_jobs (poll : Nat → WaitResult) (σ : JobState) : JobState :=
  let r := check_background_jobs_loop poll 0 σ.job_list
  { σ with
    job_list := r.1
    out := σ.out ++ r.2 ++ (if r.1.length < σ.job_list.length then ['\n'] else []) }

/-- The reaping loop of `print_activities`: a node is removed when `waitpid` fails or
reports an exit or a killing signal; its `stopped` flag is never written. -/
def print_activities_reap (poll : Nat → WaitResult) : Nat → List bg_job → List bg_job
  | _, [] => []
  | i, cur :: rest =>
    match poll i with
    | WaitResult.none => cur :: print_activities_reap poll (i + 1) rest
    | WaitResult.error => print_activities_reap poll (i + 1) rest
    | WaitResult.changed (WaitStatus.exited _) => print_activities_reap poll (i + 1) rest
    | WaitResult.changed WaitStatus.signaled => print_activities_reap poll (i + 1) rest
    | WaitResult.changed _ => cur :: print_activities_reap poll (i + 1) rest

/-- The comparator `print_activities` gives to `qsort`. -/
def cmp_bg_job (a b : bg_job) : Int := strcmp a.command b.command

/-- The line `print_activities` prints for a job: `"[%d] : %s - %s\n"`. -/
def activity_line (j : bg_job) : CStr :=
  '[' :: fmt_d j.pid ++ "] : ".toList ++ j.command ++ " - ".toList ++
    (if j.stopped then "Stopped".toList else "Running".toList) ++ ['\n']

/-- `print_activities` of exec.c. `qsort` is the library function, applied to the array
of the nodes that remain; the list itself is not reordered. -/
def print_activities (qsort : (bg_job → bg_job → Int) → List bg_job → List bg_job)
    (poll : Nat → WaitResult) (σ : JobState) : JobState :=
  let remaining := print_activities_reap poll 0 σ.job_list
  { σ with
    job_list := remaining
    out := σ.out ++ ((qsort cmp_bg_job remaining).map activity_line).flatten }

/-- `find_job_by_id`: the position of the first node with that id (the node the returned
pointer points to). -/
def find_job_by_id : List bg_job → Int → Option Nat
  | [], _ => none
  | it :: rest, id =>
    if it.job_id = id then some 0 else (find_job_by_id rest id).map (fun i => i + 1)

/-- `unlink_job`: the list without the node at position `i` (unchanged when there is no
such node). -/
def unlink_job (l : List bg_job) (i : Nat) : List bg_job := l.eraseIdx i

/-- The job number `fg`/`bg` look for (exec_run_line, top level), or the message printed
instead: the id of the head of the list without argument, `(int)strtol(arg)` with one. -/
def fg_bg_job_num (toks : List CStr) (σ : JobState) : Except CStr Int :=
  match toks with
  | [] => Except.error "Invalid syntax!\n".toList
  | [_] =>
    match σ.job_list with
    | [] => Except.error "No such job\n".toList
    | job :: _ => Except.ok job.job_id
  | [_, k] =>
    if (strtol k).endptr ≠ [] then Except.error "No such job\n".toList
    else Except.ok (to_int (strtol k).val)
  | _ => Except.error "Invalid syntax!\n".toList

/-- What `fg` (`is_fg`) or `bg` do with job number `job_num`: `kill` is the result of
`kill(pid, SIGCONT)`, `wait` that of `waitpid(-pid, &st, WUNTRACED)`. Messages of `perror`
go to standard error and are not recorded. `fg` sends `SIGCONT` to a stopped job and
clears the flag of its node first; the node is then unlinked and freed, so that neither
shows in the state. Position `i` always holds a node: the branch for `none` is never
taken. -/
def fg_bg_on_job (is_fg : Bool) (kill : KillResult) (wait : WaitResult) (job_num : Int)
    (σ : JobState) : JobState :=
  match find_job_by_id σ.job_list job_num with
  | none => { σ with out := σ.out ++ "No such job\n".toList }
  | some i =>
    match σ.job_list.get? i with
    | none => σ
    | some job =>
      if is_fg then
        let σ1 : JobState :=
          { σ with
            job_list := unlink_job σ.job_list i
            out := σ.out ++ job.command ++ ['\n']
            fg_pgid := job.pid }
        let σ2 : JobState :=
          match wait with
          | WaitResult.changed WaitStatus.stopped => add_stopped_job σ1 job.pid job.command
          | _ => σ1
        { σ2 with fg_pgid := 0 }
      else if !job.stopped then { σ with out := σ.out ++ "Job already running\n".toList }
      else
        match kill with
        | KillResult.ok =>
          { σ with
            job_list := σ.job_list.set i { job with stopped := false }
            out := σ.out ++ ('[' :: fmt_d job.job_id ++ "] ".toList ++ job.command ++
              " &\n".toList) }
        | KillResult.esrch => { σ with out := σ.out ++ "No such job\n".toList }
        | KillResult.failed => σ

/-- The `fg`/`bg` branch of `exec_run_line`; `toks` are the tokens of the line, the first
being `fg` or `bg`. -/
def exec_run_line_fg_bg (kill : KillResult) (wait : WaitResult) (toks : List CStr)
    (σ : JobState) : JobState :=
  match fg_bg_job_num toks σ with
  | Except.error msg => { σ with out := σ.out ++ msg }
  | Except.ok job_num =>
    fg_bg_on_job (decide (toks.head? = some "fg".toList)) kill wait job_num σ

/-- One operation on the job table. -/
inductive JobOp where
  | add_background (pid : Int) (cmd : CStr)
  | add_stopped (pid : Int) (cmd : CStr)
  | unlink (i : Nat)
  | check_background (poll : Nat → WaitResult)
  | activities (qsort : (bg_job → bg_job → Int) → List bg_job → List bg_job)
      (poll : Nat → WaitResult)
  | fg_bg (kill : KillResult) (wait : WaitResult) (toks : List CStr)

/-- The state after one operation. -/
def apply_job_op (σ : JobState) : JobOp → JobState
  | JobOp.add_background pid cmd => add_background_job σ pid cmd
  | JobOp.add_stopped pid cmd => add_stopped_job σ pid cmd
  | JobOp.unlink i => { σ with job_list := unlink_job σ.job_list i }
  | JobOp.check_background poll => check_background_jobs poll σ
  | JobOp.activities qsort poll => print_activities qsort poll σ
  | JobOp.fg_bg kill wait toks => exec_run_line_fg_bg kill wait toks σ

/-- The state after a sequence of operations. -/
def run_job_ops (σ : JobState) (ops : List JobOp) : JobState := ops.foldl apply_job_op σ

/-- The job ids handed out while `ops` run from `σ`, in order of creation. The only
writes to the counter are the `job_id = next_job_id++` of `add_background_job` and
`add_stopped_job`: an operation creates a job exactly when it moves the counter, and the
job gets the value the counter had. -/
def assigned_ids : JobState → List JobOp → List Int
  | _, [] => []
  | σ, op :: ops =>
    if (apply_job_op σ op).next_job_id = σ.next_job_id then assigned_ids (apply_job_op σ op) ops
    else σ.next_job_id :: assigned_ids (apply_job_op σ op) ops

/-- What one operation does to counter and list, when the counter is below `INT_MAX`:
either the counter stays and the jobs are a selection of the old ones in the same order
(the ids, at least), or one job is put at the head with the counter's value as id, before
a selection of the old ones, and the counter goes up by one. -/
def JobStep (σ σ' : JobState) : Prop :=
  (σ'.next_job_id = σ.next_job_id ∧
    (σ'.job_list.map bg_job.job_id).Sublist (σ.job_list.map bg_job.job_id)) ∨
  (∃ j rest, σ'.job_list = j :: rest ∧ j.job_id = σ.next_job_id ∧
    (rest.map bg_job.job_id).Sublist (σ.job_list.map bg_job.job_id) ∧
    σ'.next_job_id = σ.next_job_id + 1)

/-- A sorting function with the contract of `qsort`, for examples: insertion sort. -/
def insertion_qsort (cmp : bg_job → bg_job → Int) (l : List bg_job) : List bg_job :=
  l.insertionSort (fun a b => cmp a b ≤ 0)

/-! ### hop -/

/-- The largest path length of `<limits.h>` on Linux; the buffers for paths hold
`PATH_MAX + 1` bytes. -/
def PATH_MAX : Nat := 4096

/-- What `hop` and `reveal` see of the process environment and the file system: the value
of `HOME`; the working directory after `chdir(target)` issued in the working directory
`cwd` (`none`: the call fails and the working directory stays); the path `getcwd` reports
in the working directory `cwd` (`none`: the call fails); the names `readdir` yields, in
its order, for the directory `path` opened in the working directory `cwd` (`none`:
`opendir` fails). -/
structure DirEnv where
  home : Option CStr
  chdir : CStr → CStr → Option CStr
  getcwd : CStr → Option CStr
  readdir : CStr → CStr → Option (List CStr)

/-- The working directory of the shell, the statics `prev_cwd` and `prev_cwd_set` of
intrinsics.c, and what has been written to standard output. -/
structure HopState where
  cwd : CStr
  prev_cwd : CStr
  prev_cwd_set : Bool
  out : CStr
deriving DecidableEq

/-- What `getcwd(buf, PATH_MAX + 1)` returns: the path, `none` for `NULL` (also when the
path does not fit the buffer). -/
def getcwd_path (env : DirEnv) (cwd : CStr) : Option CStr :=
  match env.getcwd cwd with
  | none => none
  | some p => if p.length ≤ PATH_MAX then some p else none

/-- The `oldcwd` of `do_chdir_and_update_prev`: what `getcwd` stored, the empty string
when it failed. -/
def getcwd_buf (env : DirEnv) (cwd : CStr) : CStr := (getcwd_path env cwd).getD []

/-- `do_chdir_and_update_prev` of intrinsics.c: the return value and the state after. -/
def do_chdir_and_update_prev (env : DirEnv) (s : HopState) (target : CStr) : Int × HopState :=
  let oldcwd := getcwd_buf env s.cwd
  match env.chdir s.cwd target with
  | none => (-1, { s with out := s.out ++ "No such directory!\n".toList })
  | some d =>
    if oldcwd ≠ [] then
      (0, { s with cwd := d, prev_cwd := oldcwd.take PATH_MAX, prev_cwd_set := true })
    else (0, { s with cwd := d })

/-- The body of the loop of `handle_hop_args` for the argument `a`. -/
def hop_step (env : DirEnv) (s : HopState) (a : CStr) : HopState :=
  if a = "~".toList then
    match env.home with
    | none => { s with out := s.out ++ "No such directory!\n".toList }
    | some home => (do_chdir_and_update_prev env s home).2
  else if a = ".".toList then s
  else if a = "..".toList then (do_chdir_and_update_prev env s "..".toList).2
  else if a = "-".toList then
    if !s.prev_cwd_set then { s with out := s.out ++ "No such directory!\n".toList }
    else (do_chdir_and_update_prev env s s.prev_cwd).2
  else (do_chdir_and_update_prev env s a).2

/-- The loop of `handle_hop_args` over the arguments. -/
def handle_hop_args_loop (env : DirEnv) (s : HopState) (args : List CStr) : HopState :=
  args.foldl (hop_step env) s

/-- `handle_hop_args` of intrinsics.c: the return value and the state after. -/
def handle_hop_args (env : DirEnv) (s : HopState) (args : List CStr) : Int × HopState :=
  match args with
  | [] =>
    match env.home with
    | none => (1, { s with out := s.out ++ "No such directory!\n".toList })
    | some home => (1, (do_chdir_and_update_prev env s home).2)
  | _ :: _ => (1, handle_hop_args_loop env s args)

/-- The directory an argument of `hop` other than `.` asks `chdir` for, `none` when there
is none to ask for (`~` without `HOME`, `-` without a previous directory). -/
def hop_target (env : DirEnv) (s : HopState) (a : CStr) : Option CStr :=
  if a = "~".toList then env.home
  else if a = "..".toList then some "..".toList
  else if a = "-".toList then (if s.prev_cwd_set then some s.prev_cwd else none)
  else some a

/-- Whether the argument `a`, met in state `s`, leads to a `chdir` that succeeds. -/
def hop_changes (env : DirEnv) (s : HopState) (a : CStr) : Bool :=
  a ≠ ".".toList &&
    match hop_target env s a with
    | none => false
    | some t => (env.chdir s.cwd t).isSome

/-- An environment for examples: `HOME` is `/root`, every `chdir` succeeds except to a
name beginning with `x`, a relative target being appended to the working directory, and
`getcwd` reports the working directory. -/
def example_env : DirEnv where
  home := some "/root".toList
  chdir := fun cwd t =>
    match t with
    | 'x' :: _ => none
    | '/' :: _ => some t
    | _ => some (cwd ++ '/' :: t)
  getcwd := fun cwd => some cwd
  readdir := fun _ _ => none

/-! ### reveal -/

/-- `list_directory` of intrinsics.c: the return value and what is printed. `qsort` is
the library function, `ents` what `readdir` yields. -/
def list_directory (env : DirEnv) (qsort : (CStr → CStr → Int) → List CStr → List CStr)
    (cwd dirpath : CStr) (show_all line_by_line : Bool) : Int × CStr :=
  match env.readdir cwd dirpath with
  | none => (1, "No such directory!\n".toList)
  | some ents =>
    let names := ents.filter (fun name =>
      (show_all || !(name.head? == some '.')) && !(name == ".".toList) && !(name == "..".toList))
    if names = [] then (1, ['\n'])
    else
      let sorted := qsort strcmp names
      if line_by_line then (1, (sorted.map (fun n => n ++ ['\n'])).flatten)
      else (1, [' '].intercalate sorted ++ ['\n'])

/-- The letters of one flag cluster, after the dash: `none` at a letter other than `a`
and `l`, else `show_all` and `line_by_line` as the letters leave them. -/
def reveal_cluster (show_all line_by_line : Bool) : CStr → Option (Bool × Bool)
  | [] => some (show_all, line_by_line)
  | c :: cs =>
    if c = 'a' then reveal_cluster true line_by_line cs
    else if c = 'l' then reveal_cluster show_all true cs
    else none

/-- The locals of `handle_reveal_args`. -/
structure RevealArgs where
  show_all : Bool
  line_by_line : Bool
  dir_arg : Option CStr
  nonflag_count : Nat
deriving DecidableEq

/-- The argument loop of `handle_reveal_args`: `none` when it prints
`reveal: Invalid Syntax!` and returns 0. -/
def reveal_args_loop : RevealArgs → List CStr → Option RevealArgs
  | r, [] => some r
  | r, t :: rest =>
    if t.head? = some '-' ∧ t.tail ≠ [] then
      match reveal_cluster r.show_all r.line_by_line t.tail with
      | none => none
      | some (a, l) => reveal_args_loop { r with show_all := a, line_by_line := l } rest
    else if r.nonflag_count + 1 > 1 then none
    else reveal_args_loop { r with nonflag_count := r.nonflag_count + 1, dir_arg := some t } rest

/-- The path `handle_reveal_args` lists for the directory indicator `dir_arg`, `none`
where it prints `No such directory!` itself. -/
def reveal_target (env : DirEnv) (s : HopState) (dir_arg : Option CStr) : Option CStr :=
  match dir_arg with
  | none => getcwd_path env s.cwd
  | some d =>
    if d = "~".toList then
      match env.home with
      | none => none
      | some home => some (home.take PATH_MAX)
    else if d = ".".toList then getcwd_path env s.cwd
    else if d = "..".toList then some "..".toList
    else if d = "-".toList then (if !s.prev_cwd_set then none else some (s.prev_cwd.take PATH_MAX))
    else some (d.take PATH_MAX)

/-- `handle_reveal_args` of intrinsics.c: the return value and what is printed. -/
def handle_reveal_args (env : DirEnv) (qsort : (CStr → CStr → Int) → List CStr → List CStr)
    (s : HopState) (args : List CStr) : Int × CStr :=
  match reveal_args_loop ⟨false, false, none, 0⟩ args with
  | none => (0, "reveal: Invalid Syntax!\n".toList)
  | some r =>
    match reveal_target env s r.dir_arg with
    | none => (1, "No such directory!\n".toList)
    | some target => list_directory env qsort s.cwd target r.show_all r.line_by_line

/-- An argument of `reveal` that is a flag cluster: at least two characters, the first
being a dash. -/
def is_flag_cluster (t : CStr) : Bool := decide (2 ≤ t.length) && (t.head? == some '-')

/-- A flag cluster with a letter other than `a` and `l` after the dash. -/
def bad_cluster (t : CStr) : Bool :=
  is_flag_cluster t && t.tail.any (fun c => c != 'a' && c != 'l')

/-- A flag cluster that contains the letter `x`. -/
def has_flag (x : Char) (t : CStr) : Bool := is_flag_cluster t && t.tail.contains x

/-- An environment for examples in which the directory `/r` holds `b`, `.git` and `a`
(and the entries `.` and `..`). -/
def example_dir : DirEnv where
  home := some "/root".toList
  chdir := fun _ _ => none
  getcwd := fun cwd => some cwd
  readdir := fun _ path =>
    if path = "/r".toList then
      some [".".toList, "..".toList, "b".toList, ".git".toList, "a".toList]
    else none

/-- A sorting function with the contract of `qsort`, for examples on names. -/
def insertion_qsort_names (cmp : CStr → CStr → Int) (l : List CStr) : List CStr :=
  l.insertionSort (fun a b => cmp a b ≤ 0)

/-! ### ping -/

/-- The signal number `ping` passes to `kill`: `actual_sig = (int)(sig % 32)`, then
`if (actual_sig <= 0) actual_sig += 32`; the `%` of C truncates toward zero. The two lines
stand in `exec_run_line` and, letter for letter, in the child of `run_cmd_pipeline`. -/
def ping_signal (sig : Int) : Int :=
  let actual_sig := to_int (Int.tmod sig 32)
  if actual_sig ≤ 0 then actual_sig + 32 else actual_sig

/-- What a `ping` leaves: the arguments of the call of `kill`, if one was made, what was
printed, and the status (the return value of `exec_run_line`, the exit status of the
child of `run_cmd_pipeline`). -/
structure PingResult where
  killed : Option (Int × Int)
  out : CStr
  status : Int
deriving DecidableEq

/-- The `ping` branch of `exec_run_line`; `toks` are the tokens of the line, the first
being `ping`, and `kill pid sig` is what `kill` returns. `pid_t` is `int`. -/
def exec_run_line_ping (kill : Int → Int → KillResult) (toks : List CStr) : PingResult :=
  match toks with
  | [_, p, s] =>
    if (strtol p).endptr ≠ [] then ⟨none, "Invalid syntax!\n".toList, 0⟩
    else if (strtol s).endptr ≠ [] then ⟨none, "Invalid syntax!\n".toList, 0⟩
    else
      let pid := (strtol p).val
      let sig := (strtol s).val
      match kill (to_int pid) (ping_signal sig) with
      | KillResult.ok =>
        ⟨some (to_int pid, ping_signal sig),
          "Sent signal ".toList ++ fmt_d sig ++ " to process with pid ".toList ++ fmt_d pid ++
            ['\n'], 0⟩
      | KillResult.esrch => ⟨some (to_int pid, ping_signal sig), "No such process found\n".toList, 0⟩
      | KillResult.failed => ⟨some (to_int pid, ping_signal sig), [], 0⟩
  | _ => ⟨none, "Invalid syntax!\n".toList, 0⟩

/-- The `ping` branch of the child in `run_cmd_pipeline`; `argv` is the argument vector of
the stage, `argv[0]` being `ping`. -/
def run_cmd_pipeline_ping (kill : Int → Int → KillResult) (argv : List CStr) : PingResult :=
  match argv with
  | [_, p, s] =>
    if (strtol p).endptr ≠ [] then ⟨none, "Invalid syntax!\n".toList, 1⟩
    else if (strtol s).endptr ≠ [] then ⟨none, "Invalid syntax!\n".toList, 1⟩
    else
      let pid := (strtol p).val
      let sig := (strtol s).val
      match kill (to_int pid) (ping_signal sig) with
      | KillResult.ok =>
        ⟨some (to_int pid, ping_signal sig),
          "Sent signal ".toList ++ fmt_d sig ++ " to process with pid ".toList ++ fmt_d pid ++
            ['\n'], 0⟩
      | KillResult.esrch => ⟨some (to_int pid, ping_signal sig), "No such process found\n".toList, 0⟩
      | KillResult.failed => ⟨some (to_int pid, ping_signal sig), [], 0⟩
  | _ => ⟨none, "Invalid syntax!\n".toList, 1⟩

/-! ### Loading the history file -/

/-- `getline` on the unread part `f` of a stream: the next line, with its newline when it
has one, and the part left unread; `none` (the return value -1) at the end of the file.
The content of a file is a `CStr`: it holds no NUL. -/
def getline (f : CStr) : Option (CStr × CStr) :=
  if f = [] then none
  else
    match f.dropWhile (fun c => c != '\n') with
    | [] => some (f, [])
    | nl :: rest => some (f.takeWhile (fun c => c != '\n') ++ [nl], rest)

/-- The loop `while (n > 0 && (line[n-1] == '\n' || line[n-1] == '\r')) line[--n] = '\0'`
of `load_history_from_file`. -/
def trim_line_end (line : CStr) : CStr :=
  (line.reverse.dropWhile (fun c => c == '\n' || c == '\r')).reverse

/-- The `while (getline ...)` loop of `load_history_from_file`: `tmp` is `tmp_buf` up to
`tmp_count`; the loop ends at the end of the file or when `tmp_buf`, which has
`HIST_MAX * 2` places, is full. -/
def load_history_loop : Nat → CStr → List CStr → List CStr
  | 0, _, tmp => tmp
  | fuel + 1, f, tmp =>
    match getline f with
    | none => tmp
    | some (line, rest) =>
      if trim_line_end line = [] then load_history_loop fuel rest tmp
      else if (tmp ++ [trim_line_end line]).length ≥ HIST_MAX * 2 then tmp ++ [trim_line_end line]
      else load_history_loop fuel rest (tmp ++ [trim_line_end line])

/-- `load_history_from_file` of intrinsics.c, called with the buffer `h`: the return value
and the buffer afterwards (the last `HIST_MAX` lines read are appended). Every call of
`getline` reads at least one character, so `text.length + 1` steps are enough. -/
def load_history_from_file (home : Option CStr) (fs : FileSys) (h : List CStr) :
    Int × List CStr :=
  match join_path_home home HIST_FILENAME with
  | none => (-1, h)
  | some path =>
    match fs.content path with
    | none => (0, h)
    | some text =>
      let tmp := load_history_loop (text.length + 1) text []
      (0, h ++ tmp.drop (tmp.length - HIST_MAX))

/-- `intrinsics_init` of intrinsics.c: the history buffer it establishes (it also clears
`prev_cwd_set`, and returns 0). -/
def intrinsics_init (home : Option CStr) (fs : FileSys) (h : List CStr) : List CStr :=
  (load_history_from_file home fs (free_history_in_memory h)).2

/-! ### parser.c : the second tokenizer -/

/-- `is_special_char` of parser.c. -/
def is_special_char (c : Char) : Bool :=
  c == '|' || c == ';' || c == '&' || c == '<' || c == '>'

/-- The `while (*p)` loop of the `tokenize_special` of parser.c. -/
def parser_tokenize_special_loop : Nat → CStr → List CStr
  | 0, _ => []
  | fuel + 1, p =>
    match p.dropWhile is_blank with
    | [] => []
    | c :: tl =>
      if c = '|' ∨ c = ';' ∨ c = '&' ∨ c = '<' then [c] :: parser_tokenize_special_loop fuel tl
      else if c = '>' then
        match tl with
        | '>' :: tl2 => ['>', '>'] :: parser_tokenize_special_loop fuel tl2
        | _ => ['>'] :: parser_tokenize_special_loop fuel tl
      else
        (c :: tl).takeWhile (fun x => !is_blank x && !is_special_char x) ::
          parser_tokenize_special_loop fuel
            ((c :: tl).dropWhile (fun x => !is_blank x && !is_special_char x))

/-- The `tokenize_special` of parser.c (a static function with the name of the one in
exec.c).  Every iteration reads at least one character, so `line.length + 1` steps are
enough. -/
def parser_tokenize_special (line : CStr) : List CStr :=
  parser_tokenize_special_loop (line.length + 1) line

/-- The token a text of the token array stands for: exec.c and parser.c tell the
operators from the names by `strcmp` with `|`, `;`, `&`, `<`, `>` and `>>`. -/
def token_of_text (t : CStr) : Token :=
  if t = ['|'] then TOK_PIPE
  else if t = [';'] then TOK_SEMI
  else if t = ['&'] then TOK_AMP
  else if t = ['<'] then TOK_LT
  else if t = ['>'] then TOK_GT
  else if t = ['>', '>'] then TOK_GTGT
  else TOK_NAME t

/-! ### exec.c : the exit hook -/

/-- The signal number of `SIGKILL`. -/
def SIGKILL : Int := 9

/-- A process that runs the code of the shell: what `getpid` returns in it, its copy of
the static `shell_pid` (which `init_job_list` sets in the shell) and its copy of the job
state. -/
structure Proc where
  pid : Int
  shell_pid : Int
  jobs : JobState
deriving DecidableEq

/-- `cleanup_on_exit` of exec.c, the hook `init_job_list` registers with `atexit`: the
calls `kill(pid, sig)` it makes, in order, and the process state it leaves. -/
def cleanup_on_exit (p : Proc) : List (Int × Int) × Proc :=
  (p.jobs.job_list.map (fun cur => (cur.pid, SIGKILL)),
    { p with
      jobs := { p.jobs with
        job_list := []
        out := p.jobs.out ++ (if p.pid = p.shell_pid then "\nlogout\n".toList else []) } })

/-- The child `fork` creates: a copy of the parent, hooks registered with `atexit`
included, in which `getpid` returns the pid of the child. -/
def fork_child (p : Proc) (child_pid : Int) : Proc := { p with pid := child_pid }

/-- The wrapper child of a background group in `exec_run_line`:
`setpgid(0, 0); close(STDIN_FILENO); run_cmd_pipeline(cmds, ncmds, cmd); exit(0);`.
`run_cmd_pipeline` puts a stopped job (`stopped`, pid and command) on the child's copy of
the list when a stage stops; `exit` then runs the hooks registered with `atexit`. The
result is the calls of `kill` the hook makes and the state the child ends in. -/
def background_child (p : Proc) (child_pid : Int) (stopped : Option (Int × CStr)) :
    List (Int × Int) × Proc :=
  let c := fork_child p child_pid
  match stopped with
  | none => cleanup_on_exit c
  | some (leader, cmd) => cleanup_on_exit { c with jobs := add_stopped_job c.jobs leader cmd }
/-! ## Theorems -/

theorem lexer_next_rest_le (lx : Lexer) : (lexer_next lx).rest.length ≤ lx.rest.length := by
  have h : (lx.rest.dropWhile is_blank).length ≤ lx.rest.length :=
    (List.dropWhile_sublist is_blank).length_le
  unfold lexer_next
  split
  · simp
  · rename_i c tl heq
    rw [heq] at h
    simp only [List.length_cons] at h
    have h2 : ((c :: tl).dropWhile is_name_char).length ≤ (c :: tl).length :=
      (List.dropWhile_sublist is_name_char).length_le
    simp only [List.length_cons] at h2
    split_ifs
    any_goals (simp only; omega)
    split
    · simp only [List.length_cons] at h ⊢; omega
    · simp only; omega

theorem lexer_next_rest_lt (lx : Lexer) (h0 : (lexer_next lx).cur ≠ TOK_EOF) :
    (lexer_next lx).rest.length < lx.rest.length := by
  have h : (lx.rest.dropWhile is_blank).length ≤ lx.rest.length :=
    (List.dropWhile_sublist is_blank).length_le
  unfold lexer_next at h0 ⊢
  split
  · rename_i heq; rw [heq] at h0; simp at h0
  · rename_i c tl heq
    rw [heq] at h
    simp only [List.length_cons] at h
    split_ifs with h1 h2 h3 h4 h5
    any_goals (simp only; omega)
    · split
      · simp only [List.length_cons] at h ⊢; omega
      · simp only; omega
    · have hc : is_name_char c = true := by
        have hb : is_blank c = false := by
          have := List.head_dropWhile_not is_blank lx.rest
          simp [heq] at this
          exact this
        unfold is_blank at hb
        unfold is_name_char
        simp_all
      simp only [List.dropWhile_cons, hc, if_true]
      have h2 : (tl.dropWhile is_name_char).length ≤ tl.length :=
        (List.dropWhile_sublist is_name_char).length_le
      omega

theorem lexer_next_congr (s : CStr) (t t' : Token) : lexer_next ⟨s, t⟩ = lexer_next ⟨s, t'⟩ := rfl

theorem lex_all_fuel (f1 : Nat) : ∀ (f2 : Nat) (s : CStr), s.length < f1 → s.length < f2 →
    lex_all f1 s = lex_all f2 s := by
  induction f1 with
  | zero => intro f2 s h; omega
  | succ f1 ih =>
    intro f2 s h1 h2
    cases f2 with
    | zero => omega
    | succ f2 =>
      simp only [lex_all]
      split_ifs with h0
      · rfl
      · have hlt := lexer_next_rest_lt ⟨s, TOK_NONE⟩ h0
        simp only at hlt
        rw [ih f2 _ (by omega) (by omega)]

theorem lex_all_eq_tokens (fuel : Nat) (s : CStr) (h : s.length < fuel) :
    lex_all fuel s = tokens s :=
  lex_all_fuel fuel (s.length + 1) s h (Nat.lt_succ_self _)

theorem tokens_eq_strm (s : CStr) (t : Token) : tokens s = strm (lexer_next ⟨s, t⟩) := by
  rw [lexer_next_congr s t TOK_NONE]
  unfold tokens strm
  simp only [lex_all]
  split_ifs with h0
  · rfl
  · have hlt := lexer_next_rest_lt ⟨s, TOK_NONE⟩ h0
    simp only at hlt
    rw [lex_all_eq_tokens _ _ (by omega)]

theorem strm_next (lx : Lexer) : strm (lexer_next lx) = tokens lx.rest :=
  (tokens_eq_strm lx.rest lx.cur).symm

theorem strm_eof (lx : Lexer) (h : lx.cur = TOK_EOF) : strm lx = [] := by
  simp [strm, h]

theorem strm_cons (lx : Lexer) (h : lx.cur ≠ TOK_EOF) :
    strm lx = lx.cur :: strm (lexer_next lx) := by
  rw [strm_next]; simp [strm, h]

theorem lex_all_length_le (fuel : Nat) : ∀ s : CStr, (lex_all fuel s).length ≤ s.length := by
  induction fuel with
  | zero => intro s; simp [lex_all]
  | succ f ih =>
    intro s
    simp only [lex_all]
    split_ifs with h0
    · simp
    · have hlt := lexer_next_rest_lt ⟨s, TOK_NONE⟩ h0
      have := ih (lexer_next ⟨s, TOK_NONE⟩).rest
      simp only [List.length_cons] at hlt ⊢
      omega

theorem tokens_length_le (s : CStr) : (tokens s).length ≤ s.length :=
  lex_all_length_le _ s
theorem strm_unfold (lx : Lexer) :
    strm lx = if lx.cur = TOK_EOF then [] else lx.cur :: strm (lexer_next lx) := by
  split_ifs with h
  · exact strm_eof lx h
  · exact strm_cons lx h

theorem parse_atomic_loop_spec (fuel : Nat) : ∀ lx : Lexer, (strm lx).length < fuel →
    (strm (parse_atomic_loop fuel lx).2).length ≤ (strm lx).length ∧
    accepts .inAtomic (strm lx) =
      ((parse_atomic_loop fuel lx).1 && accepts .inAtomic (strm (parse_atomic_loop fuel lx).2)) ∧
    ((parse_atomic_loop fuel lx).1 = true →
      continues_atomic (strm (parse_atomic_loop fuel lx).2) = false) := by
  induction fuel with
  | zero => intro lx h; omega
  | succ f ih =>
    intro lx hlen
    rw [strm_unfold lx] at hlen ⊢
    unfold parse_atomic_loop
    cases hc : lx.cur with
    | TOK_NAME n =>
      simp only [hc, reduceCtorEq, if_false, List.length_cons] at hlen ⊢
      obtain ⟨h1, h2, h3⟩ := ih (lexer_next lx) (by omega)
      exact ⟨by omega, by simpa [accepts] using h2, h3⟩
    | TOK_LT | TOK_GT | TOK_GTGT =>
      simp only [hc, reduceCtorEq, if_false, List.length_cons] at hlen ⊢
      rw [strm_unfold (lexer_next lx)] at hlen ⊢
      cases hc1 : (lexer_next lx).cur with
      | TOK_NAME m =>
        simp only [hc1, reduceCtorEq, if_false, List.length_cons] at hlen ⊢
        obtain ⟨h1, h2, h3⟩ := ih (lexer_next (lexer_next lx)) (by omega)
        exact ⟨by omega, by simpa [accepts] using h2, h3⟩
      | _ =>
        simp only [hc1, reduceCtorEq, if_false, if_true, List.length_cons] at hlen ⊢
        rw [strm_unfold (lexer_next lx)]
        simp [hc1, accepts]
    | _ =>
      simp only [hc, reduceCtorEq, if_false, if_true, List.length_cons] at hlen ⊢
      rw [strm_unfold lx]
      simp [hc, accepts, continues_atomic]
theorem parse_atomic_spec (fuel : Nat) (lx : Lexer) (hlen : (strm lx).length ≤ fuel) :
    (strm (parse_atomic fuel lx).2).length ≤ (strm lx).length ∧
    accepts .needName (strm lx) =
      ((parse_atomic fuel lx).1 && accepts .inAtomic (strm (parse_atomic fuel lx).2)) ∧
    ((parse_atomic fuel lx).1 = true →
      continues_atomic (strm (parse_atomic fuel lx).2) = false ∧
      (strm (parse_atomic fuel lx).2).length < (strm lx).length) := by
  rw [strm_unfold lx] at hlen ⊢
  unfold parse_atomic
  cases hc : lx.cur with
  | TOK_NAME n =>
    simp only [hc, reduceCtorEq, if_false, List.length_cons] at hlen ⊢
    obtain ⟨h1, h2, h3⟩ := parse_atomic_loop_spec fuel (lexer_next lx) (by omega)
    exact ⟨by omega, by simpa [accepts] using h2, fun h => ⟨h3 h, by omega⟩⟩
  | _ =>
    simp only [hc, reduceCtorEq, if_false, if_true, List.length_cons] at hlen ⊢
    rw [strm_unfold lx]
    simp [hc, accepts]

theorem parse_cmd_group_loop_spec (fuel : Nat) : ∀ lx : Lexer, (strm lx).length < fuel →
    continues_atomic (strm lx) = false →
    (strm (parse_cmd_group_loop fuel lx).2).length ≤ (strm lx).length ∧
    accepts .inAtomic (strm lx) =
      ((parse_cmd_group_loop fuel lx).1 &&
        accepts .inAtomic (strm (parse_cmd_group_loop fuel lx).2)) ∧
    ((parse_cmd_group_loop fuel lx).1 = true →
      continues_atomic (strm (parse_cmd_group_loop fuel lx).2) = false ∧
      starts_pipe (strm (parse_cmd_group_loop fuel lx).2) = false) := by
  induction fuel with
  | zero => intro lx h; omega
  | succ f ih =>
    intro lx hlen hstop
    unfold parse_cmd_group_loop
    cases hc : lx.cur with
    | TOK_PIPE =>
      have hs : strm lx = TOK_PIPE :: strm (lexer_next lx) := by
        rw [strm_unfold lx]; simp [hc]
      rw [hs] at hlen
      simp only [List.length_cons] at hlen
      obtain ⟨h1, h2, h3⟩ := parse_atomic_spec f (lexer_next lx) (by omega)
      cases hr : parse_atomic f (lexer_next lx) with
      | mk b lx1 =>
        rw [hr] at h1 h2 h3
        simp only at h1 h2 h3
        cases b with
        | false =>
          simp only [hs, List.length_cons]
          refine ⟨by omega, ?_, by simp⟩
          simp only [accepts, h2, Bool.false_and]
        | true =>
          simp only [hs, List.length_cons]
          obtain ⟨h4, h5⟩ := h3 rfl
          obtain ⟨k1, k2, k3⟩ := ih lx1 (by omega) h4
          refine ⟨by omega, ?_, k3⟩
          simp only [accepts, h2, Bool.true_and]
          exact k2
    | _ =>
      simp only [Bool.true_and, le_refl, true_and, forall_const]
      refine ⟨hstop, ?_⟩
      rw [strm_unfold lx]
      simp [hc, starts_pipe]

theorem accepts_after_group (ts : List Token) (h1 : continues_atomic ts = false)
    (h2 : starts_pipe ts = false) (h3 : ∀ r, ts ≠ TOK_AMP :: r) :
    accepts .inAtomic ts = accepts .afterAmp ts := by
  cases ts with
  | nil => rfl
  | cons t r =>
    cases t <;> simp_all [accepts, continues_atomic, starts_pipe]

theorem parse_cmd_group_spec (fuel : Nat) (lx : Lexer) (hlen : (strm lx).length < fuel) :
    accepts .needName (strm lx) =
      ((parse_cmd_group fuel lx).1 && accepts .afterAmp (strm (parse_cmd_group fuel lx).2)) ∧
    ((parse_cmd_group fuel lx).1 = true →
      (strm (parse_cmd_group fuel lx).2).length < (strm lx).length) := by
  unfold parse_cmd_group
  obtain ⟨h1, h2, h3⟩ := parse_atomic_spec fuel lx (by omega)
  cases hr : parse_atomic fuel lx with
  | mk b lx1 =>
    rw [hr] at h1 h2 h3
    simp only at h1 h2 h3
    cases b with
    | false => simp [h2]
    | true =>
      obtain ⟨h4, h5⟩ := h3 rfl
      obtain ⟨k1, k2, k3⟩ := parse_cmd_group_loop_spec fuel lx1 (by omega) h4
      dsimp only
      cases hr2 : parse_cmd_group_loop fuel lx1 with
      | mk b2 lx2 =>
        rw [hr2] at k1 k2 k3
        simp only at k1 k2 k3
        cases b2 with
        | false => simp [h2, k2]
        | true =>
          obtain ⟨k4, k5⟩ := k3 rfl
          dsimp only
          simp only [h2, k2, Bool.true_and]
          cases hc : lx2.cur with
          | TOK_AMP =>
            have hs : strm lx2 = TOK_AMP :: strm (lexer_next lx2) := by
              rw [strm_unfold lx2]; simp [hc]
            rw [hs] at k1
            simp only [hs, accepts, List.length_cons, true_and, forall_const] at k1 ⊢
            exact ⟨by simp, by omega⟩
          | _ =>
            simp only [true_and, forall_const]
            refine ⟨accepts_after_group _ k4 k5 ?_, by omega⟩
            intro r hr3
            rw [strm_unfold lx2] at hr3
            simp [hc] at hr3

theorem validate_loop_spec (fuel : Nat) : ∀ lx : Lexer, (strm lx).length < fuel →
    validate_loop fuel lx = accepts .afterAmp (strm lx) := by
  induction fuel with
  | zero => intro lx h; omega
  | succ f ih =>
    intro lx hlen
    unfold validate_loop
    cases hc : lx.cur with
    | TOK_SEMI =>
      have hs : strm lx = TOK_SEMI :: strm (lexer_next lx) := by
        rw [strm_unfold lx]; simp [hc]
      rw [hs] at hlen ⊢
      simp only [List.length_cons] at hlen
      obtain ⟨h1, h2⟩ := parse_cmd_group_spec f (lexer_next lx) (by omega)
      cases hr : parse_cmd_group f (lexer_next lx) with
      | mk b lx1 =>
        rw [hr] at h1 h2
        simp only at h1 h2
        cases b with
        | false => simp [accepts, h1]
        | true =>
          simp only [accepts, h1, Bool.true_and]
          exact ih lx1 (by have := h2 rfl; omega)
    | _ =>
      rw [strm_unfold lx]
      simp [hc, accepts]

theorem validate_syntax_eq_accepts (line : CStr) :
    validate_syntax line = accepts .needName (tokens line) := by
  have hs : strm (lexer_next (lexer_init line)) = tokens line := strm_next _
  have hl := tokens_length_le line
  unfold validate_syntax
  simp only
  obtain ⟨h1, h2⟩ := parse_cmd_group_spec (line.length + 2) (lexer_next (lexer_init line))
    (by rw [hs]; omega)
  rw [hs] at h1 h2
  cases hr : parse_cmd_group (line.length + 2) (lexer_next (lexer_init line)) with
  | mk b lx1 =>
    rw [hr] at h1 h2
    simp only at h1 h2
    cases b with
    | false => simp [h1]
    | true =>
      simp only [h1, Bool.true_and]
      exact validate_loop_spec _ lx1 (by have := h2 rfl; omega)
/-! ### The automaton and the grammar accept the same token lists -/

theorem atomicTail_concat {t1 t2 : List Token} (h1 : AtomicTail t1) (h2 : AtomicTail t2) :
    AtomicTail (t1 ++ t2) := by
  induction h1 with
  | done => simpa using h2
  | arg hn _ ih => exact AtomicTail.arg hn ih
  | input hn _ ih => exact AtomicTail.input hn ih
  | output hn _ ih => exact AtomicTail.output hn ih
  | append hn _ ih => exact AtomicTail.append hn ih

theorem atomic_append_tail {a t : List Token} (h1 : Atomic a) (h2 : AtomicTail t) :
    Atomic (a ++ t) := by
  cases h1 with
  | mk hn ht => exact Atomic.mk hn (atomicTail_concat ht h2)

theorem cmdGroup_pipe_cons {a g : List Token} (ha : Atomic a) (hg : CmdGroup g) :
    CmdGroup (a ++ TOK_PIPE :: g) := by
  cases hg with
  | fg hp => exact CmdGroup.fg (PipeSeq.pipe ha hp)
  | bg hp =>
    have := CmdGroup.bg (PipeSeq.pipe ha hp)
    simpa using this

theorem line_pipe_cons {a r : List Token} (ha : Atomic a) (hr : Line r) :
    Line (a ++ TOK_PIPE :: r) := by
  cases hr with
  | one hg => exact Line.one (cmdGroup_pipe_cons ha hg)
  | semi hg hl =>
    have := Line.semi (cmdGroup_pipe_cons ha hg) hl
    simpa using this

theorem accepts_sound : ∀ ts : List Token, NamesOK ts →
    (accepts .needName ts = true → Line ts) ∧
    (accepts .inAtomic ts = true → ∀ a, Atomic a → Line (a ++ ts)) ∧
    (accepts .needTarget ts = true → ∀ a op, Atomic a →
      (op = TOK_LT ∨ op = TOK_GT ∨ op = TOK_GTGT) → Line (a ++ op :: ts)) ∧
    (accepts .afterAmp ts = true → ∀ p, PipeSeq p → Line (p ++ TOK_AMP :: ts)) := by
  intro ts
  induction ts with
  | nil =>
    intro _
    refine ⟨by simp [accepts], ?_, by simp [accepts], ?_⟩
    · intro _ a ha
      simpa using Line.one (CmdGroup.fg (PipeSeq.one ha))
    · intro _ p hp
      exact Line.one (CmdGroup.bg hp)
  | cons t rest ih =>
    intro hok
    have hok' : NamesOK rest := fun n hn => hok n (List.mem_cons_of_mem _ hn)
    obtain ⟨ih1, ih2, ih3, ih4⟩ := ih hok'
    have tailName : ∀ n, t = TOK_NAME n → AtomicTail [TOK_NAME n] := fun n hn =>
      AtomicTail.arg (hok n (by simp [hn])) AtomicTail.done
    refine ⟨?_, ?_, ?_, ?_⟩
    · intro h
      cases t <;> simp only [accepts, Bool.false_eq_true] at h
      rename_i n
      exact ih2 h _ (Atomic.mk (hok n (by simp)) AtomicTail.done)
    · intro h a ha
      cases t <;> simp only [accepts, Bool.false_eq_true] at h
      · rename_i n
        have := ih2 h _ (atomic_append_tail ha (tailName n rfl))
        simpa using this
      · exact line_pipe_cons ha (ih1 h)
      · exact Line.semi (CmdGroup.fg (PipeSeq.one ha)) (ih1 h)
      · exact ih4 h a (PipeSeq.one ha)
      · exact ih3 h a _ ha (Or.inl rfl)
      · exact ih3 h a _ ha (Or.inr (Or.inl rfl))
      · exact ih3 h a _ ha (Or.inr (Or.inr rfl))
    · intro h a op ha hop
      cases t <;> simp only [accepts, Bool.false_eq_true] at h
      rename_i n
      have hn : IsName n := hok n (by simp)
      have ht : AtomicTail [op, TOK_NAME n] := by
        rcases hop with rfl | rfl | rfl
        · exact AtomicTail.input hn AtomicTail.done
        · exact AtomicTail.output hn AtomicTail.done
        · exact AtomicTail.append hn AtomicTail.done
      have := ih2 h _ (atomic_append_tail ha ht)
      simpa using this
    · intro h p hp
      cases t <;> simp only [accepts, Bool.false_eq_true] at h
      have := Line.semi (CmdGroup.bg hp) (ih1 h)
      simpa using this

theorem accepts_atomicTail {tl : List Token} (h : AtomicTail tl) (r : List Token) :
    accepts .inAtomic (tl ++ r) = accepts .inAtomic r := by
  induction h with
  | done => rfl
  | arg _ _ ih => simpa [accepts] using ih
  | input _ _ ih => simpa [accepts] using ih
  | output _ _ ih => simpa [accepts] using ih
  | append _ _ ih => simpa [accepts] using ih

theorem accepts_atomic {a : List Token} (h : Atomic a) (r : List Token) :
    accepts .needName (a ++ r) = accepts .inAtomic r := by
  cases h with
  | mk _ ht => simpa [accepts] using accepts_atomicTail ht r

theorem accepts_pipeSeq {p : List Token} (h : PipeSeq p) (r : List Token) :
    accepts .needName (p ++ r) = accepts .inAtomic r := by
  induction h with
  | one ha => exact accepts_atomic ha r
  | pipe ha _ ih =>
    rw [List.append_assoc, accepts_atomic ha]
    simpa [accepts] using ih

theorem accepts_cmdGroup {g : List Token} (h : CmdGroup g) :
    accepts .needName g = true ∧
    ∀ r, accepts .needName (g ++ TOK_SEMI :: r) = accepts .needName r := by
  cases h with
  | fg hp =>
    constructor
    · have := accepts_pipeSeq hp []
      simpa [accepts] using this
    · intro r
      rw [accepts_pipeSeq hp]
      simp [accepts]
  | bg hp =>
    constructor
    · rw [accepts_pipeSeq hp]
      simp [accepts]
    · intro r
      rw [List.append_assoc, accepts_pipeSeq hp]
      simp [accepts]

theorem accepts_complete {ts : List Token} (h : Line ts) : accepts .needName ts = true := by
  induction h with
  | one hg => exact (accepts_cmdGroup hg).1
  | semi hg _ ih => rw [(accepts_cmdGroup hg).2]; exact ih

theorem accepts_iff_line (ts : List Token) (hok : NamesOK ts) :
    accepts .needName ts = true ↔ Line ts :=
  ⟨(accepts_sound ts hok).1, accepts_complete⟩
theorem head_dropWhile_blank {s : CStr} {c : Char} {tl : CStr}
    (h : s.dropWhile is_blank = c :: tl) : is_blank c = false := by
  have := List.head_dropWhile_not is_blank s
  simp [h] at this
  exact this

theorem is_name_char_of_not_special {c : Char} (hb : is_blank c = false) (h1 : c ≠ '|')
    (h2 : c ≠ ';') (h3 : c ≠ '&') (h4 : c ≠ '<') (h5 : c ≠ '>') : is_name_char c = true := by
  unfold is_blank at hb
  unfold is_name_char
  simp_all

theorem lexer_next_name (lx : Lexer) (n : CStr) (h : (lexer_next lx).cur = TOK_NAME n) :
    IsName n := by
  unfold lexer_next at h
  split at h
  · simp at h
  · rename_i c tl heq
    have hb := head_dropWhile_blank heq
    split_ifs at h with h1 h2 h3 h4 h5
    · split at h <;> simp at h
    · have hc := is_name_char_of_not_special hb h1 h2 h3 h4 h5
      simp only [Token.TOK_NAME.injEq] at h
      subst h
      constructor
      · simp [List.takeWhile_cons, hc]
      · intro x hx
        exact List.mem_takeWhile_imp hx

theorem lex_all_namesOK (fuel : Nat) : ∀ s : CStr, NamesOK (lex_all fuel s) := by
  induction fuel with
  | zero => intro s n hn; simp [lex_all] at hn
  | succ f ih =>
    intro s n hn
    simp only [lex_all] at hn
    split_ifs at hn with h0
    · simp at hn
    · rcases List.mem_cons.mp hn with h | h
      · exact lexer_next_name _ n h.symm
      · exact ih _ n h

theorem tokens_namesOK (s : CStr) : NamesOK (tokens s) := lex_all_namesOK _ s

theorem validate_syntax_iff_line (line : CStr) :
    validate_syntax line = true ↔ Line (tokens line) := by
  rw [validate_syntax_eq_accepts]
  exact accepts_iff_line _ (tokens_namesOK line)

/-- The state in which the automaton is after reading a prefix, when it accepts the whole. -/
theorem accepts_suffix : ∀ (pre suf : List Token) (q : GState),
    accepts q (pre ++ suf) = true → ∃ q', accepts q' suf = true := by
  intro pre
  induction pre with
  | nil => intro suf q h; exact ⟨q, h⟩
  | cons t pre ih =>
    intro suf q h
    cases q <;> cases t <;> simp only [List.cons_append, accepts, Bool.false_eq_true] at h <;>
      exact ih suf _ h
theorem tokens_unfold (s : CStr) :
    tokens s =
      if (lexer_next ⟨s, TOK_NONE⟩).cur = TOK_EOF then []
      else (lexer_next ⟨s, TOK_NONE⟩).cur :: tokens (lexer_next ⟨s, TOK_NONE⟩).rest := by
  rw [tokens_eq_strm s TOK_NONE, strm]

theorem takeWhile_stop (p : Char → Bool) (a r : CStr) (ha : ∀ c ∈ a, p c = true)
    (hr : ∀ c, r.head? = some c → p c = false) : (a ++ r).takeWhile p = a := by
  rw [List.takeWhile_append_of_pos ha]
  cases r with
  | nil => simp
  | cons c r2 => simp [List.takeWhile_cons, hr c rfl]

theorem dropWhile_stop (p : Char → Bool) (a r : CStr) (ha : ∀ c ∈ a, p c = true)
    (hr : ∀ c, r.head? = some c → p c = false) : (a ++ r).dropWhile p = r := by
  rw [List.dropWhile_append_of_pos ha]
  cases r with
  | nil => simp
  | cons c r2 => simp [List.dropWhile_cons, hr c rfl]

/-! ### The lexer delivers the token sequence of the specification -/

theorem name_char_facts {c : Char} (h : is_name_char c = true) :
    is_blank c = false ∧ c ≠ '|' ∧ c ≠ ';' ∧ c ≠ '&' ∧ c ≠ '<' ∧ c ≠ '>' := by
  refine ⟨?_, ?_, ?_, ?_, ?_, ?_⟩
  · unfold is_name_char at h
    unfold is_blank
    split_ifs at h with h1 h2
    simpa using h2
  all_goals (intro he; subst he; exact absurd h (by decide))

theorem tokens_blank (c : Char) (s : CStr) (hc : is_blank c = true) :
    tokens (c :: s) = tokens s := by
  have e : lexer_next ⟨c :: s, TOK_NONE⟩ = lexer_next ⟨s, TOK_NONE⟩ := by
    simp [lexer_next, List.dropWhile_cons, hc]
  rw [tokens_unfold (c :: s), e, ← tokens_unfold s]

theorem tokens_pipe (s : CStr) : tokens ('|' :: s) = TOK_PIPE :: tokens s := by
  rw [tokens_unfold]; simp [lexer_next, List.dropWhile_cons, is_blank]

theorem tokens_semi (s : CStr) : tokens (';' :: s) = TOK_SEMI :: tokens s := by
  rw [tokens_unfold]; simp [lexer_next, List.dropWhile_cons, is_blank]

theorem tokens_amp (s : CStr) : tokens ('&' :: s) = TOK_AMP :: tokens s := by
  rw [tokens_unfold]; simp [lexer_next, List.dropWhile_cons, is_blank]

theorem tokens_lt (s : CStr) : tokens ('<' :: s) = TOK_LT :: tokens s := by
  rw [tokens_unfold]; simp [lexer_next, List.dropWhile_cons, is_blank]

theorem tokens_gtgt (s : CStr) : tokens ('>' :: '>' :: s) = TOK_GTGT :: tokens s := by
  rw [tokens_unfold]; simp [lexer_next, List.dropWhile_cons, is_blank]

theorem tokens_gt (s : CStr) (h : s.head? ≠ some '>') :
    tokens ('>' :: s) = TOK_GT :: tokens s := by
  have hd : ('>' :: s).dropWhile is_blank = '>' :: s := by
    simp [List.dropWhile_cons, is_blank]
  have e : lexer_next ⟨'>' :: s, TOK_NONE⟩ = ⟨s, TOK_GT⟩ := by
    unfold lexer_next
    simp only [hd]
    simp only [Char.reduceEq, if_false, if_true]
    split
    · simp at h
    · rfl
  rw [tokens_unfold, e]
  simp

theorem tokens_name (n s : CStr) (hn : IsName n)
    (hs : ∀ c, s.head? = some c → is_name_char c = false) :
    tokens (n ++ s) = TOK_NAME n :: tokens s := by
  obtain ⟨hne, hall⟩ := hn
  obtain ⟨x, xs, rfl⟩ : ∃ x xs, n = x :: xs := by
    cases n with
    | nil => exact absurd rfl hne
    | cons x xs => exact ⟨x, xs, rfl⟩
  obtain ⟨hb, h1, h2, h3, h4, h5⟩ := name_char_facts (hall x (by simp))
  have htake := takeWhile_stop is_name_char (x :: xs) s hall hs
  have hdrop := dropWhile_stop is_name_char (x :: xs) s hall hs
  have hd : (x :: xs ++ s).dropWhile is_blank = x :: (xs ++ s) := by
    simp [List.dropWhile_cons, hb]
  have e : lexer_next ⟨x :: xs ++ s, TOK_NONE⟩ = ⟨s, TOK_NAME (x :: xs)⟩ := by
    unfold lexer_next
    simp only [hd, h1, h2, h3, h4, h5, if_false]
    rw [show x :: (xs ++ s) = (x :: xs) ++ s from rfl, htake, hdrop]
  rw [tokens_unfold, e]
  simp

theorem tokenises_unique {s : CStr} {ts : List Token} (h : Tokenises s ts) : ts = tokens s := by
  induction h with
  | done => decide
  | blank hc _ ih => rw [tokens_blank _ _ hc]; exact ih
  | pipe _ ih => rw [tokens_pipe, ih]
  | semi _ ih => rw [tokens_semi, ih]
  | amp _ ih => rw [tokens_amp, ih]
  | lt _ ih => rw [tokens_lt, ih]
  | gtgt _ ih => rw [tokens_gtgt, ih]
  | gt hh _ ih => rw [tokens_gt _ hh, ih]
  | name hn hs _ ih => rw [tokens_name _ _ hn hs, ih]

theorem tokenises_tokens_aux (k : Nat) : ∀ s : CStr, s.length ≤ k → Tokenises s (tokens s) := by
  induction k with
  | zero =>
    intro s hs
    have : s = [] := List.length_eq_zero.mp (Nat.le_zero.mp hs)
    subst this
    exact Tokenises.done
  | succ k ih =>
    intro s hs
    cases s with
    | nil => exact Tokenises.done
    | cons c s2 =>
      simp only [List.length_cons, Nat.add_le_add_iff_right] at hs
      by_cases hb : is_blank c = true
      · rw [tokens_blank _ _ hb]; exact Tokenises.blank hb (ih s2 hs)
      by_cases h1 : c = '|'
      · subst h1; rw [tokens_pipe]; exact Tokenises.pipe (ih s2 hs)
      by_cases h2 : c = ';'
      · subst h2; rw [tokens_semi]; exact Tokenises.semi (ih s2 hs)
      by_cases h3 : c = '&'
      · subst h3; rw [tokens_amp]; exact Tokenises.amp (ih s2 hs)
      by_cases h4 : c = '<'
      · subst h4; rw [tokens_lt]; exact Tokenises.lt (ih s2 hs)
      by_cases h5 : c = '>'
      · subst h5
        by_cases hh : s2.head? = some '>'
        · cases s2 with
          | nil => simp at hh
          | cons d s3 =>
            simp only [List.head?_cons, Option.some.injEq] at hh
            subst hh
            rw [tokens_gtgt]
            exact Tokenises.gtgt (ih s3 (by simp at hs; omega))
        · rw [tokens_gt _ hh]; exact Tokenises.gt hh (ih s2 hs)
      · have hc : is_name_char c = true :=
          is_name_char_of_not_special (by simpa using hb) h1 h2 h3 h4 h5
        have hsplit := List.takeWhile_append_dropWhile is_name_char (c :: s2)
        have hname : IsName ((c :: s2).takeWhile is_name_char) :=
          ⟨by simp [List.takeWhile_cons, hc], fun x hx => List.mem_takeWhile_imp hx⟩
        have hstop : ∀ x, ((c :: s2).dropWhile is_name_char).head? = some x →
            is_name_char x = false := by
          intro x hx
          have := List.head?_dropWhile_not is_name_char (c :: s2)
          rw [hx] at this
          simpa using this
        have hlen : ((c :: s2).dropWhile is_name_char).length ≤ k := by
          have : ((c :: s2).dropWhile is_name_char).length ≤ s2.length := by
            simp only [List.dropWhile_cons, hc, if_true]
            exact (List.dropWhile_sublist is_name_char).length_le
          omega
        rw [← hsplit, tokens_name _ _ hname hstop]
        exact Tokenises.name hname hstop (ih _ hlen)

theorem tokenises_iff (s : CStr) (ts : List Token) : Tokenises s ts ↔ ts = tokens s :=
  ⟨tokenises_unique, fun h => h ▸ tokenises_tokens_aux s.length s (Nat.le_refl _)⟩

/-- C1: `validate_syntax` returns true exactly for the lines whose token sequence (names,
`|`, `;`, `&`, `<`, `>`, `>>`; `Tokenises`, which `lexer_next` computes) is derivable from
the grammar `line := cmd_group (';' cmd_group)*`, `cmd_group := atomic ('|' atomic)* ['&']`,
`atomic := name (name | '<' name | '>' name | '>>' name)*`.  In particular it rejects a line
whose last token is `|`, `;`, `<`, `>` or `>>`, a line with an operator where a name is
required (at the start of the line or right after `|`, `;`, `<`, `>`, `>>`), and a line in
which `&` is followed by a token other than `;`. -/
theorem validate_syntax_iff_grammar (line : CStr) :
    Tokenises line (tokens line) ∧
    ∀ ts, Tokenises line ts →
      ( validate_syntax line = true ↔ Line ts) ∧
      (∀ pre t, ts = pre ++ [t] → requires_name t = true →
        validate_syntax line = false) ∧
      (∀ op post, ts = op :: post → is_operator op = true →
        validate_syntax line = false) ∧
      (∀ pre t op post, ts = pre ++ t :: op :: post → requires_name t = true →
        is_operator op = true → validate_syntax line = false) ∧
      (∀ pre t post, ts = pre ++ TOK_AMP :: t :: post → t ≠ TOK_SEMI →
        validate_syntax line = false) := by
  refine ⟨(tokenises_iff line _).mpr rfl, ?_⟩
  intro ts hts
  have hts2 := tokenises_unique hts
  subst hts2
  refine ⟨validate_syntax_iff_line line, ?_, ?_, ?_, ?_⟩
  · intro pre t ht hreq
    rw [validate_syntax_eq_accepts, ht]
    by_contra hacc
    obtain ⟨q, hq⟩ := accepts_suffix pre [t] _ (by simpa using hacc)
    cases q <;> cases t <;> simp [accepts, requires_name] at hq hreq
  · intro op post ht hop
    rw [validate_syntax_eq_accepts, ht]
    cases op <;> simp [accepts, is_operator] at hop ⊢
  · intro pre t op post ht hreq hop
    rw [validate_syntax_eq_accepts, ht]
    by_contra hacc
    obtain ⟨q, hq⟩ := accepts_suffix pre (t :: op :: post) _ (by simpa using hacc)
    cases q <;> cases t <;> simp only [accepts, requires_name, Bool.false_eq_true] at hq hreq <;>
      cases op <;> simp [accepts, is_operator] at hq hop
  · intro pre t post ht hne
    rw [validate_syntax_eq_accepts, ht]
    by_contra hacc
    obtain ⟨q, hq⟩ := accepts_suffix pre (TOK_AMP :: t :: post) _ (by simpa using hacc)
    cases q <;> simp only [accepts, Bool.false_eq_true] at hq
    cases t <;> simp [accepts] at hq hne

/-- An accepted line with the derivation the theorem gives for it, and two rejected
lines. -/
theorem validate_syntax_iff_grammar_witness :
    validate_syntax "ls -l | wc > out ; sleep 5 &".toList = true ∧
    Line (tokens "ls -l | wc > out ; sleep 5 &".toList) ∧
    validate_syntax "ls |".toList = false ∧
    validate_syntax "ls & wc".toList = false :=
  ⟨by decide,
   ((validate_syntax_iff_grammar "ls -l | wc > out ; sleep 5 &".toList).2 _
      ((tokenises_iff _ _).mpr rfl)).1.mp (by decide),
   ((validate_syntax_iff_grammar "ls |".toList).2 _ ((tokenises_iff _ _).mpr rfl)).2.1
     [TOK_NAME "ls".toList] TOK_PIPE (by decide) (by decide),
   ((validate_syntax_iff_grammar "ls & wc".toList).2 _ ((tokenises_iff _ _).mpr rfl)).2.2.2.2
     [TOK_NAME "ls".toList] (TOK_NAME "wc".toList) [] (by decide) (by decide)⟩

/-! ### exec.c reads the same tokens as the validator -/

theorem is_name_char_eq_not_delim (c : Char) : is_name_char c = !is_delim_char c := by
  unfold is_name_char is_delim_char
  by_cases h1 : c = '|' <;> by_cases h2 : c = '&' <;> by_cases h3 : c = '>' <;>
    by_cases h4 : c = '<' <;> by_cases h5 : c = ';' <;> by_cases h6 : c = ' ' <;>
    by_cases h7 : c = '\t' <;> by_cases h8 : c = '\r' <;> by_cases h9 : c = '\n' <;>
    simp [h1, h2, h3, h4, h5, h6, h7, h8, h9]

theorem not_delim_eq_is_name_char : (fun x => !is_delim_char x) = is_name_char := by
  funext c; exact (is_name_char_eq_not_delim c).symm

theorem tokenize_special_loop_eq (fuel : Nat) : ∀ s : CStr,
    tokenize_special_loop fuel s = (lex_all fuel s).map token_text := by
  induction fuel with
  | zero => intro s; rfl
  | succ f ih =>
    intro s
    simp only [tokenize_special_loop, lex_all, lexer_next, not_delim_eq_is_name_char]
    split
    · rename_i heq; simp [heq]
    · rename_i c tl heq
      by_cases h1 : c = '|'
      · subst h1; simp [token_text, ih]
      by_cases h2 : c = '<'
      · subst h2; simp [token_text, ih]
      by_cases h3 : c = ';'
      · subst h3; simp [token_text, ih]
      by_cases h4 : c = '&'
      · subst h4; simp [token_text, ih]
      by_cases h5 : c = '>'
      · subst h5
        simp only [Char.reduceEq, if_false, if_true]
        split <;> simp [token_text, ih]
      · simp [h1, h2, h3, h4, h5, token_text, ih]

theorem tokenize_special_eq (line : CStr) :
    tokenize_special line = (tokens line).map token_text :=
  tokenize_special_loop_eq _ line
/-! ### The pipeline builder on the tokens of a valid command group -/

theorem name_not_operator {n : CStr} (h : IsName n) :
    n ≠ ['|'] ∧ n ≠ [';'] ∧ n ≠ ['&'] ∧ n ≠ ['<'] ∧ n ≠ ['>'] ∧ n ≠ ['>', '>'] := by
  obtain ⟨_, hall⟩ := h
  refine ⟨?_, ?_, ?_, ?_, ?_, ?_⟩ <;> intro he <;> subst he
  · exact absurd (hall '|' (by simp)) (by decide)
  · exact absurd (hall ';' (by simp)) (by decide)
  · exact absurd (hall '&' (by simp)) (by decide)
  · exact absurd (hall '<' (by simp)) (by decide)
  · exact absurd (hall '>' (by simp)) (by decide)
  · exact absurd (hall '>' (by simp)) (by decide)

theorem token_after_last_none (p : CStr → Bool) : ∀ l : List CStr, l.any p = false →
    token_after_last p l = none := by
  intro l
  induction l with
  | nil => intro _; rfl
  | cons t ts ih =>
    intro h
    simp only [List.any_cons, Bool.or_eq_false_iff] at h
    simp [token_after_last, h.1, h.2]

theorem last_output_redirection_cons (t : CStr) (l : List CStr) :
    last_output_redirection (t :: l) =
      if is_output_redirection t then
        (if l.any is_output_redirection then last_output_redirection l else some t)
      else last_output_redirection l := by
  unfold last_output_redirection
  by_cases ht : is_output_redirection t = true
  · simp only [List.filter_cons, ht, if_true]
    by_cases hl : l.any is_output_redirection = true
    · simp only [hl, if_true]
      obtain ⟨x, hx, hpx⟩ := List.any_eq_true.mp hl
      have hne : l.filter is_output_redirection ≠ [] :=
        List.ne_nil_of_mem (List.mem_filter.mpr ⟨hx, hpx⟩)
      cases hf : l.filter is_output_redirection with
      | nil => exact absurd hf hne
      | cons b bs => simp
    · have hnil : l.filter is_output_redirection = [] := by
        rw [List.filter_eq_nil_iff]
        intro a ha hpa
        exact hl (List.any_eq_true.mpr ⟨a, ha, hpa⟩)
      simp [hl, hnil]
  · simp [List.filter_cons, ht]

theorem token_after_last_skip (p : CStr → Bool) (t : CStr) (l : List CStr) (ht : p t = false) :
    token_after_last p (t :: l) = token_after_last p l := by
  by_cases hl : l.any p = true
  · simp [token_after_last, hl]
  · simp only [Bool.not_eq_true] at hl
    simp [token_after_last, hl, ht, token_after_last_none p l hl]

theorem token_after_last_hit (p : CStr → Bool) (op n : CStr) (l : List CStr)
    (hop : p op = true) (hn : p n = false) :
    token_after_last p (op :: n :: l) =
      if l.any p then token_after_last p l else some n := by
  by_cases hl : l.any p = true
  · simp [token_after_last, hl]
  · simp only [Bool.not_eq_true] at hl
    simp [token_after_last, hl, hn, hop]

theorem fill_node_arg (t : CStr) (rest : List CStr) (node : CmdNode)
    (h1 : t ≠ ['<']) (h2 : t ≠ ['>']) (h3 : t ≠ ['>', '>']) :
    fill_node (t :: rest) node = fill_node rest { node with argv := node.argv ++ [t] } := by
  rw [fill_node.eq_def]; simp [h1, h2, h3]

theorem fill_node_lt (f : CStr) (rest : List CStr) (node : CmdNode) :
    fill_node (['<'] :: f :: rest) node = fill_node rest { node with infile := some f } := by
  rw [fill_node.eq_def]; simp

theorem fill_node_gt (f : CStr) (rest : List CStr) (node : CmdNode) :
    fill_node (['>'] :: f :: rest) node =
      fill_node rest { node with outfile := some f, append := 0 } := by
  rw [fill_node.eq_def]; simp

theorem fill_node_gtgt (f : CStr) (rest : List CStr) (node : CmdNode) :
    fill_node (['>', '>'] :: f :: rest) node =
      fill_node rest { node with outfile := some f, append := 1 } := by
  rw [fill_node.eq_def]; simp

theorem fill_node_atomicTail {tl : List Token} (h : AtomicTail tl) : ∀ node : CmdNode,
    fill_node (tl.map token_text) node = some
      { argv := node.argv ++ plain_tokens false (tl.map token_text)
        infile := if (tl.map token_text).any (fun t => t == ['<']) then
            token_after_last (fun t => t == ['<']) (tl.map token_text) else node.infile
        outfile := if (tl.map token_text).any is_output_redirection then
            token_after_last is_output_redirection (tl.map token_text) else node.outfile
        append := if (tl.map token_text).any is_output_redirection then
            (if last_output_redirection (tl.map token_text) = some ['>', '>'] then 1 else 0)
          else node.append } := by
  induction h with
  | done => intro node; simp [fill_node, plain_tokens]
  | @arg n ts hn _ ih =>
    intro node
    obtain ⟨h1, h2, h3, h4, h5, h6⟩ := name_not_operator hn
    have e1 : (n == ['<']) = false := by simpa using h4
    have e2 : is_output_redirection n = false := by simp [is_output_redirection, h5, h6]
    have e3 : is_redirection n = false := by simp [is_redirection, h4, h5, h6]
    have e5 : (n == ['>']) = false := by simpa using h5
    have e6 : (n == ['>', '>']) = false := by simpa using h6
    simp only [List.map_cons, token_text]
    rw [fill_node_arg n _ node h4 h5 h6, ih]
    simp only [token_after_last_skip (fun t => t == ['<']) n _ e1,
      token_after_last_skip is_output_redirection n _ e2, last_output_redirection_cons]
    simp [plain_tokens, e1, e2, e3]
  | @input n ts hn _ ih =>
    intro node
    obtain ⟨h1, h2, h3, h4, h5, h6⟩ := name_not_operator hn
    have e1 : (n == ['<']) = false := by simpa using h4
    have e2 : is_output_redirection n = false := by simp [is_output_redirection, h5, h6]
    have e3 : is_redirection n = false := by simp [is_redirection, h4, h5, h6]
    have e5 : (n == ['>']) = false := by simpa using h5
    have e6 : (n == ['>', '>']) = false := by simpa using h6
    have e4 : is_output_redirection ['<'] = false := by decide
    simp only [List.map_cons, token_text]
    rw [fill_node_lt, ih]
    simp only [token_after_last_hit (fun t => t == ['<']) ['<'] n _ (by decide) e1,
      token_after_last_skip is_output_redirection ['<'] _ e4,
      token_after_last_skip is_output_redirection n _ e2,
      last_output_redirection_cons]
    simp only [List.any_cons, e1, e2, e3, e4, e5, e6, plain_tokens, is_redirection]
    by_cases hany : (ts.map token_text).any (fun t => t == ['<']) = true <;> simp [hany, e5, e6]
  | @output n ts hn _ ih =>
    intro node
    obtain ⟨h1, h2, h3, h4, h5, h6⟩ := name_not_operator hn
    have e1 : (n == ['<']) = false := by simpa using h4
    have e2 : is_output_redirection n = false := by simp [is_output_redirection, h5, h6]
    have e3 : is_redirection n = false := by simp [is_redirection, h4, h5, h6]
    have e5 : (n == ['>']) = false := by simpa using h5
    have e6 : (n == ['>', '>']) = false := by simpa using h6
    have e4 : is_output_redirection ['>'] = true := by decide
    simp only [List.map_cons, token_text]
    rw [fill_node_gt, ih]
    simp only [token_after_last_hit is_output_redirection ['>'] n _ e4 e2,
      token_after_last_skip (fun t => t == ['<']) ['>'] _ (by decide),
      token_after_last_skip (fun t => t == ['<']) n _ e1,
      last_output_redirection_cons]
    simp only [List.any_cons, e1, e2, e3, e4, e5, e6, plain_tokens, is_redirection]
    by_cases hany : (ts.map token_text).any is_output_redirection = true <;> simp [hany, e5, e6]
  | @append n ts hn _ ih =>
    intro node
    obtain ⟨h1, h2, h3, h4, h5, h6⟩ := name_not_operator hn
    have e1 : (n == ['<']) = false := by simpa using h4
    have e2 : is_output_redirection n = false := by simp [is_output_redirection, h5, h6]
    have e3 : is_redirection n = false := by simp [is_redirection, h4, h5, h6]
    have e5 : (n == ['>']) = false := by simpa using h5
    have e6 : (n == ['>', '>']) = false := by simpa using h6
    have e4 : is_output_redirection ['>', '>'] = true := by decide
    simp only [List.map_cons, token_text]
    rw [fill_node_gtgt, ih]
    simp only [token_after_last_hit is_output_redirection ['>', '>'] n _ e4 e2,
      token_after_last_skip (fun t => t == ['<']) ['>', '>'] _ (by decide),
      token_after_last_skip (fun t => t == ['<']) n _ e1,
      last_output_redirection_cons]
    simp only [List.any_cons, e1, e2, e3, e4, e5, e6, plain_tokens, is_redirection]
    by_cases hany : (ts.map token_text).any is_output_redirection = true <;> simp [hany, e5, e6]
theorem takeWhile_sep (sep : CStr) (l r : List CStr) (h : ∀ t ∈ l, t ≠ sep) :
    (l ++ sep :: r).takeWhile (fun t => t != sep) = l := by
  rw [List.takeWhile_append_of_pos (by simpa using h)]
  simp

theorem dropWhile_sep (sep : CStr) (l r : List CStr) (h : ∀ t ∈ l, t ≠ sep) :
    (l ++ sep :: r).dropWhile (fun t => t != sep) = sep :: r := by
  rw [List.dropWhile_append_of_pos (by simpa using h)]
  simp

theorem takeWhile_nosep (sep : CStr) (l : List CStr) (h : ∀ t ∈ l, t ≠ sep) :
    l.takeWhile (fun t => t != sep) = l :=
  List.takeWhile_eq_self_iff.mpr (by simpa using h)

theorem dropWhile_nosep (sep : CStr) (l : List CStr) (h : ∀ t ∈ l, t ≠ sep) :
    l.dropWhile (fun t => t != sep) = [] :=
  List.dropWhile_eq_nil_iff.mpr (by simpa using h)

theorem atomicTail_text {tl : List Token} (h : AtomicTail tl) :
    ∀ s ∈ tl.map token_text, s ≠ ['|'] ∧ s ≠ [';'] ∧ s ≠ ['&'] := by
  induction h with
  | done => intro s hs; simp at hs
  | @arg n ts hn _ ih =>
    intro s hs
    obtain ⟨h1, h2, h3, _⟩ := name_not_operator hn
    simp only [List.map_cons, token_text, List.mem_cons] at hs
    rcases hs with rfl | hs
    · exact ⟨h1, h2, h3⟩
    · exact ih s hs
  | @input n ts hn _ ih | @output n ts hn _ ih | @append n ts hn _ ih =>
    intro s hs
    obtain ⟨h1, h2, h3, _⟩ := name_not_operator hn
    simp only [List.map_cons, token_text, List.mem_cons] at hs
    rcases hs with rfl | rfl | hs
    · decide
    · exact ⟨h1, h2, h3⟩
    · exact ih s hs

theorem atomic_text {a : List Token} (h : Atomic a) :
    ∀ s ∈ a.map token_text, s ≠ ['|'] ∧ s ≠ [';'] ∧ s ≠ ['&'] := by
  cases h with
  | @mk n ts hn ht =>
    have := atomicTail_text (AtomicTail.arg hn ht)
    exact this

theorem last_output_redirection_none (l : List CStr) (h : l.any is_output_redirection = false) :
    last_output_redirection l = none := by
  unfold last_output_redirection
  rw [List.getLast?_eq_none_iff, List.filter_eq_nil_iff]
  intro a ha hpa
  have := List.any_eq_true.mpr ⟨a, ha, hpa⟩
  simp [h] at this

theorem fill_node_atomic {a : List Token} (h : Atomic a) :
    fill_node (a.map token_text) ⟨[], none, none, 0⟩ = some (stage_of_slice (a.map token_text)) ∧
    (stage_of_slice (a.map token_text)).argv ≠ [] := by
  cases h with
  | @mk n ts hn ht =>
    have key := fill_node_atomicTail (AtomicTail.arg hn ht) ⟨[], none, none, 0⟩
    rw [key]
    obtain ⟨h1, h2, h3, h4, h5, h6⟩ := name_not_operator hn
    have e3 : is_redirection n = false := by simp [is_redirection, h4, h5, h6]
    refine ⟨?_, ?_⟩
    · simp only [stage_of_slice, List.nil_append, Option.some.injEq, CmdNode.mk.injEq, true_and]
      refine ⟨?_, ?_, ?_⟩
      · split_ifs with hany
        · rfl
        · exact (token_after_last_none _ _ (by simpa using hany)).symm
      · split_ifs with hany
        · rfl
        · exact (token_after_last_none _ _ (by simpa using hany)).symm
      · split_ifs with hany hl
        · rfl
        · rfl
        · rename_i hl
          rw [last_output_redirection_none _ (by simpa using hany)] at hl
          simp at hl
        · rfl
    · simp [stage_of_slice, plain_tokens, token_text, e3]

theorem pipe_slices_nosep (l : List CStr) (h : ∀ t ∈ l, t ≠ ['|']) : pipe_slices l = [l] := by
  induction l with
  | nil => rfl
  | cons t ts ih =>
    have ht : t ≠ ['|'] := h t (by simp)
    simp [pipe_slices, ht, ih (fun x hx => h x (List.mem_cons_of_mem _ hx))]

theorem pipe_slices_append (l r : List CStr) (h : ∀ t ∈ l, t ≠ ['|']) :
    pipe_slices (l ++ ['|'] :: r) = l :: pipe_slices r := by
  induction l with
  | nil => simp [pipe_slices]
  | cons t ts ih =>
    have ht : t ≠ ['|'] := h t (by simp)
    simp [pipe_slices, ht, ih (fun x hx => h x (List.mem_cons_of_mem _ hx))]

theorem pipe_slices_length (l : List CStr) : (pipe_slices l).length = l.count ['|'] + 1 := by
  induction l with
  | nil => rfl
  | cons t ts ih =>
    by_cases ht : t = ['|']
    · subst ht
      simp [pipe_slices, ih]
    · have hc : (t :: ts).count ['|'] = ts.count ['|'] := by
        rw [List.count_cons_of_ne (Ne.symm ht)]
      rw [hc, ← ih]
      simp only [pipe_slices, ht, if_false]
      split
      · rename_i heq; simp [heq] at ih
      · rename_i heq; simp [heq]

theorem build_loop_pipeSeq {p : List Token} (h : PipeSeq p) : ∀ (fuel : Nat) (cmds : List CmdNode),
    p.length < fuel →
    build_loop fuel (p.map token_text) cmds =
      some (cmds ++ (pipe_slices (p.map token_text)).map stage_of_slice) := by
  induction h with
  | @one a ha =>
    intro fuel cmds hlen
    have hne := fun t ht => (atomic_text ha t ht).1
    obtain ⟨n, ts, rfl⟩ : ∃ n ts, a = TOK_NAME n :: ts := by cases ha; exact ⟨_, _, rfl⟩
    match fuel, hlen with
    | f + 2, _ =>
      rw [build_loop.eq_def]
      simp only [List.map_cons]
      rw [← List.map_cons, takeWhile_nosep _ _ hne, dropWhile_nosep _ _ hne, (fill_node_atomic ha).1,
        pipe_slices_nosep _ hne]
      simp [build_loop]
  | @pipe a r ha _ ih =>
    intro fuel cmds hlen
    have hne := fun t ht => (atomic_text ha t ht).1
    obtain ⟨n, ts, rfl⟩ : ∃ n ts, a = TOK_NAME n :: ts := by cases ha; exact ⟨_, _, rfl⟩
    match fuel, hlen with
    | f + 1, hlen =>
      rw [build_loop.eq_def]
      simp only [List.map_append, List.map_cons, List.cons_append]
      rw [← List.cons_append, ← List.map_cons]
      have e : token_text TOK_PIPE = ['|'] := rfl
      rw [e, takeWhile_sep _ _ _ hne, dropWhile_sep _ _ _ hne, (fill_node_atomic ha).1,
        pipe_slices_append _ _ hne]
      simp only [List.drop_succ_cons, List.drop_zero]
      rw [ih f _ (by simp at hlen; omega)]
      simp

theorem stages_argv_nonempty {p : List Token} (h : PipeSeq p) :
    ∀ s ∈ (pipe_slices (p.map token_text)).map stage_of_slice, s.argv ≠ [] := by
  induction h with
  | @one a ha =>
    have hne := fun t ht => (atomic_text ha t ht).1
    rw [pipe_slices_nosep _ hne]
    intro s hs
    simp only [List.map_cons, List.map_nil, List.mem_singleton] at hs
    subst hs
    exact (fill_node_atomic ha).2
  | @pipe a r ha _ ih =>
    have hne := fun t ht => (atomic_text ha t ht).1
    have e : token_text TOK_PIPE = ['|'] := rfl
    simp only [List.map_append, List.map_cons, e]
    rw [pipe_slices_append _ _ hne]
    intro s hs
    simp only [List.map_cons, List.mem_cons] at hs
    rcases hs with rfl | hs
    · exact (fill_node_atomic ha).2
    · exact ih s hs
/-- C3: on the token slice of a grammatically valid command group (without its trailing
`&`) `build_pipeline_from_tokens` succeeds and returns one stage per `|`-separated
sub-slice, in order, so that the number of stages is the number of `|` tokens plus one; the
stage of a sub-slice has as `argv` the tokens that are neither a redirection operator nor
the token following one, as `infile` the token after the last `<`, as `outfile` the token
after the last `>` or `>>`, and `append = 1` exactly when that last output redirection is
`>>` (`stage_of_slice`). -/
theorem build_pipeline_from_tokens_spec (p : List Token) (h : PipeSeq p) :
    build_pipeline_from_tokens (p.map token_text) =
      some ((pipe_slices (p.map token_text)).map stage_of_slice) ∧
    ((pipe_slices (p.map token_text)).map stage_of_slice).length =
      (p.map token_text).count ['|'] + 1 := by
  constructor
  · have := build_loop_pipeSeq h ((p.map token_text).length + 1) [] (by simp)
    simpa [build_pipeline_from_tokens] using this
  · rw [List.length_map, pipe_slices_length]

/-- The pipeline of `sort < in > old >> out | wc`: two stages, the first with
`argv = [sort]`, `infile = in`, `outfile = out`, `append = 1`. -/
theorem build_pipeline_from_tokens_spec_witness :
    PipeSeq (tokens "sort < in > old >> out | wc".toList) ∧
    build_pipeline_from_tokens (tokenize_special "sort < in > old >> out | wc".toList) =
      some [⟨["sort".toList], some "in".toList, some "out".toList, 1⟩,
            ⟨["wc".toList], none, none, 0⟩] :=
  have hp : PipeSeq (tokens "sort < in > old >> out | wc".toList) :=
    PipeSeq.pipe
      (Atomic.mk (by decide)
        (AtomicTail.input (by decide)
          (AtomicTail.output (by decide) (AtomicTail.append (by decide) AtomicTail.done))))
      (PipeSeq.one (Atomic.mk (by decide) AtomicTail.done))
  ⟨hp, (build_pipeline_from_tokens_spec _ hp).1⟩
/-! ### The command groups of a valid line -/

theorem pipeSeq_text {p : List Token} (h : PipeSeq p) :
    ∀ s ∈ p.map token_text, s ≠ [';'] ∧ s ≠ ['&'] := by
  induction h with
  | one ha => exact fun s hs => (atomic_text ha s hs).2
  | @pipe a r ha _ ih =>
    intro s hs
    simp only [List.map_append, List.map_cons, List.mem_append, List.mem_cons] at hs
    rcases hs with hs | rfl | hs
    · exact (atomic_text ha s hs).2
    · decide
    · exact ih s hs

theorem pipeSeq_ne_nil {p : List Token} (h : PipeSeq p) : p ≠ [] := by
  cases h with
  | one ha => cases ha; simp
  | pipe ha _ => cases ha; simp

theorem pipeSeq_getLast {p : List Token} (h : PipeSeq p) :
    ((p.map token_text).getLast? == some ['&']) = false := by
  have hne : p.map token_text ≠ [] := by simpa using pipeSeq_ne_nil h
  rw [List.getLast?_eq_getLast _ hne]
  have := (pipeSeq_text h _ (List.getLast_mem hne)).2
  simpa using this

/-- The slice `exec_run_line` cuts for a command group is the text of an
`atomic ('|' atomic)*` sequence. -/
theorem group_slice {g : List Token} (h : CmdGroup g) :
    (∀ s ∈ g.map token_text, s ≠ [';']) ∧ g ≠ [] ∧
    ∃ p, PipeSeq p ∧
      (if (g.map token_text).getLast? == some ['&'] then (g.map token_text).dropLast
        else g.map token_text) = p.map token_text := by
  cases h with
  | fg hp =>
    refine ⟨fun s hs => (pipeSeq_text hp s hs).1, pipeSeq_ne_nil hp, g, hp, ?_⟩
    simp only [pipeSeq_getLast hp, Bool.false_eq_true, if_false]
  | @bg p hp =>
    refine ⟨?_, by simp, p, hp, ?_⟩
    · intro s hs
      simp only [List.map_append, List.map_cons, List.map_nil, List.mem_append,
        List.mem_singleton] at hs
      rcases hs with hs | rfl
      · exact (pipeSeq_text hp s hs).1
      · decide
    · simp [token_text]

theorem group_loop_line {ts : List Token} (h : Line ts) : ∀ fuel : Nat, ts.length < fuel →
    ∀ g ∈ group_loop fuel (ts.map token_text), ∃ p, PipeSeq p ∧ g.toks = p.map token_text := by
  induction h with
  | @one g hg =>
    intro fuel hlen gr hgr
    obtain ⟨hne, hnil, p, hp, hslice⟩ := group_slice hg
    obtain ⟨t, tl, htl⟩ : ∃ t tl, g.map token_text = t :: tl := by
      cases hm : g.map token_text with
      | nil => simp at hm; exact absurd hm hnil
      | cons t tl => exact ⟨t, tl, rfl⟩
    match fuel, hlen with
    | f + 1, _ =>
      rw [group_loop.eq_def] at hgr
      simp only [htl] at hgr
      rw [← htl, takeWhile_nosep _ _ hne, dropWhile_nosep _ _ hne] at hgr
      have hrest : group_loop f ([] : List CStr).tail = [] := by
        cases f <;> simp [group_loop]
      simp only [List.drop_nil, List.mem_cons] at hgr
      rcases hgr with rfl | hgr
      · exact ⟨p, hp, hslice⟩
      · cases f <;> simp [group_loop] at hgr
  | @semi g r hg _ ih =>
    intro fuel hlen gr hgr
    obtain ⟨hne, hnil, p, hp, hslice⟩ := group_slice hg
    obtain ⟨t, tl, htl⟩ : ∃ t tl, (g ++ TOK_SEMI :: r).map token_text = t :: tl := by
      cases hm : (g ++ TOK_SEMI :: r).map token_text with
      | nil => simp at hm
      | cons t tl => exact ⟨t, tl, rfl⟩
    match fuel, hlen with
    | f + 1, hlen =>
      rw [group_loop.eq_def] at hgr
      simp only [htl] at hgr
      have e : (g ++ TOK_SEMI :: r).map token_text = g.map token_text ++ [';'] :: r.map token_text := by
        simp [token_text]
      rw [← htl, e, takeWhile_sep _ _ _ hne, dropWhile_sep _ _ _ hne] at hgr
      simp only [List.drop_succ_cons, List.drop_zero, List.mem_cons] at hgr
      rcases hgr with rfl | hgr
      · exact ⟨p, hp, hslice⟩
      · exact ih f (by simp at hlen; omega) gr hgr

theorem command_groups_valid (line : CStr) (h : validate_syntax line = true) :
    ∀ g ∈ command_groups line, ∃ p, PipeSeq p ∧ g.toks = p.map token_text := by
  have hl := (validate_syntax_iff_line line).mp h
  unfold command_groups
  rw [tokenize_special_eq]
  exact group_loop_line hl _ (by simp)

theorem exec_run_line_groups_sub (line : CStr) :
    ∀ g ∈ exec_run_line_groups line, g ∈ command_groups line := by
  intro g hg
  unfold exec_run_line_groups at hg
  simp only at hg
  split_ifs at hg
  all_goals first | exact hg | simp at hg

/-- C2: for every line that `validate_syntax` accepts, every command group that
`exec_run_line` extracts (the tokens split at `;`, a trailing `&` stripped and recorded as
the background flag) is built successfully by `build_pipeline_from_tokens`, and every stage
of the resulting pipeline has a non-empty `argv`.  The same holds of the groups the loop
would cut from a line that one of the early branches (`activities`, `ping`, `fg`, `bg`)
takes. -/
theorem accepted_groups_build (line : CStr) (h : validate_syntax line = true) :
    (∀ g ∈ exec_run_line_groups line, ∃ cmds,
      build_pipeline_from_tokens g.toks = some cmds ∧ ∀ s ∈ cmds, s.argv ≠ []) ∧
    (∀ g ∈ command_groups line, ∃ cmds,
      build_pipeline_from_tokens g.toks = some cmds ∧ ∀ s ∈ cmds, s.argv ≠ []) := by
  have key : ∀ g ∈ command_groups line, ∃ cmds,
      build_pipeline_from_tokens g.toks = some cmds ∧ ∀ s ∈ cmds, s.argv ≠ [] := by
    intro g hg
    obtain ⟨p, hp, hgp⟩ := command_groups_valid line h g hg
    refine ⟨(pipe_slices (p.map token_text)).map stage_of_slice, ?_, ?_⟩
    · rw [hgp]
      have := build_loop_pipeSeq hp ((p.map token_text).length + 1) [] (by simp)
      simpa [build_pipeline_from_tokens] using this
    · exact stages_argv_nonempty hp
  exact ⟨fun g hg => key g (exec_run_line_groups_sub line g hg), key⟩

/-- The groups of `ls -a | wc & ; hop .. > f`: both are built, no stage has an empty
`argv`. -/
theorem accepted_groups_build_witness :
    validate_syntax "ls -a | wc & ; hop .. > f".toList = true ∧
    exec_run_line_groups "ls -a | wc & ; hop .. > f".toList =
      [⟨["ls".toList, "-a".toList, "|".toList, "wc".toList], true, "ls -a | wc".toList⟩,
       ⟨["hop".toList, "..".toList, ">".toList, "f".toList], false, "hop .. > f".toList⟩] ∧
    ∀ g ∈ exec_run_line_groups "ls -a | wc & ; hop .. > f".toList, ∃ cmds,
      build_pipeline_from_tokens g.toks = some cmds ∧ ∀ s ∈ cmds, s.argv ≠ [] :=
  ⟨by decide, by decide,
    (accepted_groups_build "ls -a | wc & ; hop .. > f".toList (by decide)).1⟩
/-! ### History recording -/

theorem record_skip_log (h : List CStr) (line : CStr) (hl : line_contains_atomic_log line = true) :
    intrinsics_record_command h line = (0, h) := by
  simp [intrinsics_record_command, hl]

theorem record_preserves_inv (h : List CStr) (line : CStr) (hinv : HistoryInv h) :
    HistoryInv (intrinsics_record_command h line).2 := by
  obtain ⟨hlen, hnd⟩ := hinv
  unfold intrinsics_record_command
  dsimp only
  split_ifs with h1 h2 h3
  · exact ⟨hlen, hnd⟩
  · exact ⟨hlen, hnd⟩
  · have hnd1 : (h.erase line).Nodup := hnd.erase line
    have hnot : line ∉ h.erase line := fun hm => ((hnd.mem_erase_iff).mp hm).1 rfl
    refine ⟨?_, ?_⟩
    · simp only [List.length_append, List.length_tail, List.length_singleton, h3]
      decide
    · rw [List.nodup_append]
      refine ⟨hnd1.sublist (List.tail_sublist _), by simp, ?_⟩
      intro a ha hb
      simp only [List.mem_singleton] at hb
      subst hb
      exact hnot ((List.tail_sublist _).subset ha)
  · have hnd1 : (h.erase line).Nodup := hnd.erase line
    have hnot : line ∉ h.erase line := fun hm => ((hnd.mem_erase_iff).mp hm).1 rfl
    have hle : (h.erase line).length ≤ h.length := (List.erase_sublist line h).length_le
    refine ⟨?_, ?_⟩
    · simp only [List.length_append, List.length_singleton]
      unfold HIST_MAX at *
      omega
    · rw [List.nodup_append]
      refine ⟨hnd1, by simp, ?_⟩
      intro a ha hb
      simp only [List.mem_singleton] at hb
      subst hb
      exact hnot ha

/-- The storing path of `intrinsics_record_command`: for a buffer `h` of at most 15
pairwise distinct entries and a line for which `line_contains_atomic_log` returns 0 and
which is not the newest entry, the return value is 1 and the new buffer is the last 15
elements of `h` without `line`, followed by `line`.  When `h` holds 15 entries and `line`
is not among them, the oldest entry is evicted and the other 14 keep their order; when
`line` is in `h`, nothing else is removed and the size is unchanged. -/
theorem record_command_of_scan (h : List CStr) (line : CStr)
    (hlen : h.length ≤ HIST_MAX) (hnd : h.Nodup)
    (hlog : line_contains_atomic_log line = false) (hlast : h.getLast? ≠ some line) :
    intrinsics_record_command h line =
      (1, newest HIST_MAX (h.filter (fun e => e != line) ++ [line])) ∧
    (h.length = HIST_MAX → line ∉ h →
      (intrinsics_record_command h line).2 = h.tail ++ [line]) ∧
    (line ∈ h →
      (intrinsics_record_command h line).2 = h.filter (fun e => e != line) ++ [line] ∧
      (intrinsics_record_command h line).2.length = h.length) := by
  have hle : (h.erase line).length ≤ h.length := (List.erase_sublist line h).length_le
  have herase : h.erase line = h.filter (fun e => e != line) := hnd.erase_eq_filter line
  refine ⟨?_, ?_, ?_⟩
  · unfold intrinsics_record_command
    simp only [hlog, Bool.false_eq_true, if_false, hlast]
    rw [← herase]
    split_ifs with h3
    · cases he : h.erase line with
      | nil => rw [he] at h3; simp [HIST_MAX] at h3
      | cons a t =>
        rw [he] at h3
        simp only [List.length_cons] at h3
        simp [newest, h3]
    · have : (h.erase line).length < HIST_MAX := by unfold HIST_MAX at *; omega
      simp only [newest, List.length_append, List.length_singleton]
      rw [Nat.sub_eq_zero_of_le (by omega)]
      simp
  · intro h15 hnot
    unfold intrinsics_record_command
    simp only [hlog, Bool.false_eq_true, if_false, hlast, List.erase_of_not_mem hnot, h15,
      if_true]
  · intro hmem
    have hl1 : (h.erase line).length = h.length - 1 := List.length_erase_of_mem hmem
    have hpos : 0 < h.length := List.length_pos_of_mem hmem
    have hne : (h.erase line).length ≠ HIST_MAX := by unfold HIST_MAX at *; omega
    unfold intrinsics_record_command
    simp only [hlog, Bool.false_eq_true, if_false, hlast, hne]
    rw [← herase]
    refine ⟨rfl, ?_⟩
    simp only [List.length_append, List.length_singleton, hl1]
    omega

/-- A full buffer of 15 distinct entries: recording a 16th evicts the oldest. -/
theorem record_command_evicts_oldest :
    intrinsics_record_command
      (["1", "2", "3", "4", "5", "6", "7", "8", "9", "10", "11", "12", "13", "14", "15"].map
        String.toList) "ls".toList =
      (1, (["2", "3", "4", "5", "6", "7", "8", "9", "10", "11", "12", "13", "14", "15",
        "ls"].map String.toList)) :=
  (record_command_of_scan _ _ (by decide) (by decide) (by decide) (by decide)).1

/-- C6: after any sequence of history mutations (calls of `intrinsics_record_command` with
arbitrary lines, and `log purge`) from the empty buffer, the buffer holds at most 15
entries and no two are equal; `intrinsics_record_command` and the purge each preserve this
predicate. -/
theorem history_invariant :
    (∀ ops : List HistoryOp, HistoryInv (apply_history_ops ops [])) ∧
    (∀ (h : List CStr) (line : CStr), HistoryInv h →
      HistoryInv (intrinsics_record_command h line).2) ∧
    (∀ h : List CStr, HistoryInv h → HistoryInv (free_history_in_memory h)) := by
  have hpurge : ∀ h : List CStr, HistoryInv (free_history_in_memory h) := by
    intro h; simp [HistoryInv, free_history_in_memory]
  refine ⟨?_, record_preserves_inv, fun h _ => hpurge h⟩
  have gen : ∀ (ops : List HistoryOp) (h : List CStr), HistoryInv h →
      HistoryInv (apply_history_ops ops h) := by
    intro ops
    induction ops with
    | nil => intro h hinv; exact hinv
    | cons op ops ih =>
      intro h hinv
      cases op with
      | record line => exact ih _ (record_preserves_inv h line hinv)
      | purge => exact ih _ (hpurge h)
  exact fun ops => gen ops [] (by simp [HistoryInv])

theorem strtol_decimal (k : CStr) (v : Int)
    (h : decimal_integer (k.dropWhile isspace) = some v) :
    strtol k = ⟨max LONG_MIN (min LONG_MAX v), [], true⟩ := by
  unfold decimal_integer at h
  dsimp only at h
  by_cases hd : after_sign (k.dropWhile isspace) ≠ [] ∧
      (after_sign (k.dropWhile isspace)).all Char.isDigit = true
  · rw [if_pos hd] at h
    obtain ⟨hne, hall⟩ := hd
    have htake := List.takeWhile_eq_self_iff.mpr (fun x hx => List.all_eq_true.mp hall x hx)
    have hdrop := List.dropWhile_eq_nil_iff.mpr (fun x hx => List.all_eq_true.mp hall x hx)
    simp only [Option.some.injEq] at h
    unfold strtol
    dsimp only
    rw [htake, hdrop, if_neg hne, h]
  · rw [if_neg hd] at h
    cases h

theorem strtol_not_decimal (k : CStr) (h : decimal_integer (k.dropWhile isspace) = none) :
    (strtol k).converted = false ∨ (strtol k).endptr ≠ [] := by
  unfold decimal_integer at h
  dsimp only at h
  by_cases hd : after_sign (k.dropWhile isspace) ≠ [] ∧
      (after_sign (k.dropWhile isspace)).all Char.isDigit = true
  · rw [if_pos hd] at h
    cases h
  · unfold strtol
    dsimp only
    by_cases hds : (after_sign (k.dropWhile isspace)).takeWhile Char.isDigit = []
    · left
      rw [if_pos hds]
    · right
      rw [if_neg hds]
      dsimp only
      intro hnil
      have hall := List.dropWhile_eq_nil_iff.mp hnil
      apply hd
      refine ⟨?_, List.all_eq_true.mpr hall⟩
      intro he
      rw [he] at hds
      simp at hds

theorem handle_log_execute_invalid (h : List CStr) (k : CStr)
    (hbad : (strtol k).converted = false ∨ (strtol k).endptr ≠ [] ∨ (strtol k).val ≤ 0 ∨
      (strtol k).val > (h.length : Int)) :
    handle_log_args h ["execute".toList, k] = log_invalid h := by
  unfold handle_log_args
  simp only [if_true]
  split_ifs with h1 h2 h3
  · rfl
  · rfl
  · rfl
  · exfalso
    simp only [Bool.not_eq_true, Bool.or_eq_true, Bool.not_eq_eq_eq_not, Bool.not_true,
      decide_eq_true_eq, not_or, Bool.not_eq_false, not_le, not_lt] at h1 h3
    rcases hbad with hb | hb | hb | hb
    · simp [h1.1.1] at hb
    · exact hb (by simpa using h1.1.2)
    · omega
    · omega

/-- C10, as amended: for a buffer of `n ≤ 15` entries and the arguments `[execute, K]`,
where `K` is read the way `strtol` reads it, leading white space (`isspace`) skipped: if
the rest of `K` is an optionally signed decimal integer `v` with `1 ≤ v ≤ n`,
`handle_log_args` returns 2, prints nothing and sets the replay command to the entry
`e_(n-v)` (`v = 1` is the newest); if the rest of `K` is not a decimal integer, or `v ≤ 0`,
or `v > n` (so always when `n = 0`), it prints `log: Invalid Syntax!`, returns 1 and sets
no replay command.  The history buffer is unchanged in both cases. -/
theorem handle_log_execute (h : List CStr) (k : CStr) (hlen : h.length ≤ HIST_MAX) :
    (∀ v : Int, decimal_integer (k.dropWhile isspace) = some v → 1 ≤ v → v ≤ h.length →
      ∃ e, h[h.length - v.toNat]? = some e ∧
        handle_log_args h ["execute".toList, k] = ⟨2, some e, h, []⟩) ∧
    (decimal_integer (k.dropWhile isspace) = none →
      handle_log_args h ["execute".toList, k] = ⟨1, none, h, ["log: Invalid Syntax!".toList]⟩) ∧
    (∀ v : Int, decimal_integer (k.dropWhile isspace) = some v → (v ≤ 0 ∨ v > h.length) →
      handle_log_args h ["execute".toList, k] = ⟨1, none, h, ["log: Invalid Syntax!".toList]⟩) := by
  have hmax : (h.length : Int) ≤ 15 := by unfold HIST_MAX at hlen; omega
  refine ⟨?_, ?_, ?_⟩
  · intro v hv h1 h2
    have hs := strtol_decimal k v hv
    have hclamp : max LONG_MIN (min LONG_MAX v) = v := by
      unfold LONG_MIN LONG_MAX; omega
    rw [hclamp] at hs
    have hidx : h.length - v.toNat < h.length := by omega
    refine ⟨h[h.length - v.toNat], List.getElem?_eq_getElem hidx, ?_⟩
    unfold handle_log_args
    simp only [if_true, hs, Bool.not_true, List.get?_eq_getElem?,
      List.getElem?_eq_getElem hidx]
    split_ifs with c1 c2 c3
    · exfalso
      simp at c1
      omega
    · omega
    · omega
    · rfl
  · intro hnone
    rcases strtol_not_decimal k hnone with hb | hb
    · exact handle_log_execute_invalid h k (Or.inl hb)
    · exact handle_log_execute_invalid h k (Or.inr (Or.inl hb))
  · intro v hv hrange
    have hs := strtol_decimal k v hv
    apply handle_log_execute_invalid h k
    right; right
    rw [hs]
    simp only
    unfold LONG_MIN LONG_MAX
    omega

/-- The buffer `[pwd, ls, date]`: `log execute 2` replays `ls`, `log execute 4` and
`log execute x` are refused. -/
theorem handle_log_execute_witness :
    handle_log_args ["pwd".toList, "ls".toList, "date".toList] ["execute".toList, "2".toList] =
      ⟨2, some "ls".toList, ["pwd".toList, "ls".toList, "date".toList], []⟩ ∧
    handle_log_args ["pwd".toList, "ls".toList, "date".toList] ["execute".toList, "4".toList] =
      ⟨1, none, ["pwd".toList, "ls".toList, "date".toList], ["log: Invalid Syntax!".toList]⟩ ∧
    handle_log_args ["pwd".toList, "ls".toList, "date".toList] ["execute".toList, "x".toList] =
      ⟨1, none, ["pwd".toList, "ls".toList, "date".toList], ["log: Invalid Syntax!".toList]⟩ :=
  ⟨by decide,
   (handle_log_execute ["pwd".toList, "ls".toList, "date".toList] "4".toList (by decide)).2.2 4
     (by decide) (by decide),
   (handle_log_execute ["pwd".toList, "ls".toList, "date".toList] "x".toList (by decide)).2.1
     (by decide)⟩

/-- C10, as stated, fails: with the buffer `[pwd, ls]` the argument `K` made of a vertical
tab and the digit 1 is not a decimal integer, yet `handle_log_args` returns 2 and sets the
replay command to `ls`, where the claim has it print `log: Invalid Syntax!` and return 1. -/
theorem handle_log_execute_counterexample :
    decimal_integer "\x0b1".toList = none ∧
    handle_log_args ["pwd".toList, "ls".toList] ["execute".toList, "\x0b1".toList] =
      ⟨2, some "ls".toList, ["pwd".toList, "ls".toList], []⟩ ∧
    handle_log_args ["pwd".toList, "ls".toList] ["execute".toList, "\x0b1".toList] ≠
      ⟨1, none, ["pwd".toList, "ls".toList], ["log: Invalid Syntax!".toList]⟩ := by
  decide
/-! ### The first names of a line, character by character -/

theorem lexer_next_name_shape (lx : Lexer) (a : CStr) (h : (lexer_next lx).cur = TOK_NAME a) :
    a = (lx.rest.dropWhile is_blank).takeWhile is_name_char ∧
    (lexer_next lx).rest = (lx.rest.dropWhile is_blank).dropWhile is_name_char := by
  cases hd : lx.rest.dropWhile is_blank with
  | nil => simp [lexer_next, hd] at h
  | cons c tl =>
    by_cases h1 : c = '|'
    · simp [lexer_next, hd, h1] at h
    by_cases h2 : c = ';'
    · simp [lexer_next, hd, h2] at h
    by_cases h3 : c = '&'
    · simp [lexer_next, hd, h3] at h
    by_cases h4 : c = '<'
    · simp [lexer_next, hd, h4] at h
    by_cases h5 : c = '>'
    · simp only [lexer_next, hd, h5, Char.reduceEq, if_false, if_true] at h
      split at h <;> simp at h
    · simp only [lexer_next, hd, h1, h2, h3, h4, h5, if_false, Token.TOK_NAME.injEq] at h ⊢
      exact ⟨h.symm, trivial⟩

theorem tokens_name_shape (s a : CStr) (rest : List Token) (h : tokens s = TOK_NAME a :: rest) :
    ∃ bl r, s = bl ++ a ++ r ∧ (∀ c ∈ bl, is_blank c = true) ∧ IsName a ∧
      (∀ c, r.head? = some c → is_name_char c = false) ∧ tokens r = rest := by
  rw [tokens_unfold] at h
  split_ifs at h with h0
  simp only [List.cons.injEq] at h
  obtain ⟨hcur, hrest⟩ := h
  have hname := lexer_next_name _ a hcur
  obtain ⟨ha, hr⟩ := lexer_next_name_shape _ a hcur
  simp only at ha hr
  refine ⟨s.takeWhile is_blank, (lexer_next ⟨s, TOK_NONE⟩).rest, ?_,
    fun c hc => List.mem_takeWhile_imp hc, hname, ?_, hrest⟩
  · rw [hr, ha, List.append_assoc, List.takeWhile_append_dropWhile,
      List.takeWhile_append_dropWhile]
  · intro c hc
    rw [hr] at hc
    have := List.head?_dropWhile_not is_name_char (s.dropWhile is_blank)
    rw [hc] at this
    simpa using this

theorem blank_before_name (r b : CStr) (rest : List Token) (c : Char)
    (h : tokens r = TOK_NAME b :: rest) (hc : r.head? = some c)
    (hn : is_name_char c = false) : is_blank c = true := by
  obtain ⟨bl, r2, hr, hbl, hname, _, _⟩ := tokens_name_shape r b rest h
  cases bl with
  | nil =>
    exfalso
    obtain ⟨hne, hall⟩ := hname
    cases b with
    | nil => exact hne rfl
    | cons x xs =>
      rw [hr] at hc
      simp only [List.nil_append, List.cons_append, List.head?_cons, Option.some.injEq] at hc
      have := hall x (by simp)
      rw [hc] at this
      simp [hn] at this
  | cons x xs =>
    rw [hr] at hc
    simp only [List.cons_append, List.head?_cons, Option.some.injEq] at hc
    rw [← hc]
    exact hbl x (by simp)

theorem isspace_of_is_blank {c : Char} (h : is_blank c = true) : isspace c = true := by
  unfold is_blank at h
  unfold isspace
  simp only [Bool.or_eq_true, beq_iff_eq] at h ⊢
  tauto

theorem ends_log_name_of_not_name {c : Char} (h : is_name_char c = false) :
    ends_log_name c = true := by
  unfold is_name_char at h
  unfold ends_log_name isspace
  split_ifs at h with h1 h2
  · simp only [Bool.or_eq_true, beq_iff_eq] at h1 ⊢
    tauto
  · simp only [Bool.or_eq_true, beq_iff_eq] at h2 ⊢
    tauto
theorem scan_first_log (line : CStr) (rest : List Token)
    (h : tokens line = TOK_NAME ['l', 'o', 'g'] :: rest) :
    line_contains_atomic_log line = true := by
  obtain ⟨bl, r, hl, hbl, _, hr, _⟩ := tokens_name_shape line _ rest h
  have hdrop : line.dropWhile isspace = 'l' :: ('o' :: 'g' :: r) := by
    rw [hl, List.append_assoc,
      List.dropWhile_append_of_pos (fun c hc => isspace_of_is_blank (hbl c hc))]
    rfl
  have htake : ('l' :: ('o' :: 'g' :: r)).takeWhile (fun x => !ends_log_name x) =
      ['l', 'o', 'g'] := by
    have := takeWhile_stop (fun x => !ends_log_name x) ['l', 'o', 'g'] r (by decide)
      (fun c hc => by simp [ends_log_name_of_not_name (hr c hc)])
    exact this
  unfold line_contains_atomic_log
  rw [line_contains_atomic_log_loop.eq_def]
  simp only [hdrop, htake]
  simp [is_separator]

theorem tokenize_whitespace_step (f : Nat) (bl a r : CStr)
    (hbl : ∀ c ∈ bl, isspace c = true) (hne : a ≠ []) (ha : ∀ c ∈ a, isspace c = false)
    (hr : ∀ c, r.head? = some c → isspace c = true) :
    tokenize_whitespace_loop (f + 1) (bl ++ a ++ r) = a :: tokenize_whitespace_loop f r := by
  obtain ⟨x, xs, rfl⟩ : ∃ x xs, a = x :: xs := by
    cases a with
    | nil => exact absurd rfl hne
    | cons x xs => exact ⟨x, xs, rfl⟩
  have hdrop : (bl ++ (x :: xs) ++ r).dropWhile isspace = x :: (xs ++ r) := by
    rw [List.append_assoc, List.dropWhile_append_of_pos hbl]
    simp [List.dropWhile_cons, ha x (by simp)]
  rw [tokenize_whitespace_loop.eq_def]
  simp only [hdrop]
  have e : x :: (xs ++ r) = (x :: xs) ++ r := rfl
  rw [e, takeWhile_stop (fun c => !isspace c) (x :: xs) r (fun c hc => by simp [ha c hc])
      (fun c hc => by simp [hr c hc]),
    dropWhile_stop (fun c => !isspace c) (x :: xs) r (fun c hc => by simp [ha c hc])
      (fun c hc => by simp [hr c hc])]

theorem words_of_log_execute (line : CStr) (rest : List Token)
    (h : tokens line =
      TOK_NAME "log".toList :: TOK_NAME "execute".toList :: rest)
    (hrest : ∃ k rest2, rest = TOK_NAME k :: rest2) :
    ∃ ws, tokenize_whitespace line = "log".toList :: "execute".toList :: ws := by
  obtain ⟨bl, r, hl, hbl, _, hr, htr⟩ := tokens_name_shape line _ _ h
  obtain ⟨bl2, r2, hl2, hbl2, _, hr2, htr2⟩ := tokens_name_shape r _ _ htr
  obtain ⟨k, rest2, rfl⟩ := hrest
  have hsp : ∀ c, r.head? = some c → isspace c = true := fun c hc =>
    isspace_of_is_blank (blank_before_name r _ _ c htr hc (hr c hc))
  have hsp2 : ∀ c, r2.head? = some c → isspace c = true := fun c hc =>
    isspace_of_is_blank (blank_before_name r2 _ _ c htr2 hc (hr2 c hc))
  have hlen : ∃ f, line.length + 1 = f + 2 := by
    rw [hl]
    exact ⟨bl.length + 2 + r.length, by simp; omega⟩
  obtain ⟨f, hf⟩ := hlen
  refine ⟨tokenize_whitespace_loop f r2, ?_⟩
  unfold tokenize_whitespace
  rw [hf]
  conv_lhs => rw [hl]
  rw [tokenize_whitespace_step _ bl _ r (fun c hc => isspace_of_is_blank (hbl c hc))
    (by decide) (by decide) hsp]
  conv_lhs => rw [hl2]
  rw [tokenize_whitespace_step _ bl2 _ r2 (fun c hc => isspace_of_is_blank (hbl2 c hc))
    (by decide) (by decide) hsp2]
/-! ### The history during one turn of the main loop -/

theorem handle_log_args_history (h : List CStr) (args : List CStr) :
    (handle_log_args h args).history = h ∨
    (args = ["purge".toList] ∧ (handle_log_args h args).history = []) := by
  unfold handle_log_args
  split
  · left; rfl
  · rename_i a
    by_cases ha : a = "purge".toList
    · right; rw [if_pos ha]; exact ⟨by rw [ha], rfl⟩
    · left; rw [if_neg ha]; rfl
  · rename_i a k extra
    left
    dsimp only
    split_ifs <;> try rfl
    split
    · rfl
    · split <;> rfl

theorem intrinsics_handle_history (h : List CStr) (line : CStr) :
    (intrinsics_handle h line).history = h ∨
    (tokenize_whitespace line = ["log".toList, "purge".toList] ∧
      (intrinsics_handle h line).history = []) := by
  unfold intrinsics_handle
  split
  · left; rfl
  · rename_i cmd args heq
    split_ifs with h1 h2 h3
    · left; rfl
    · left; rfl
    · dsimp only
      rcases handle_log_args_history h args with hh | ⟨ha, hh⟩
      · left; exact hh
      · right; exact ⟨by rw [heq, h3, ha], hh⟩
    · left; rfl

theorem replay_loop_spec (fuel : Nat) : ∀ (current : CStr) (acc : Outcome),
    (replay_loop fuel current acc).recorded = acc.recorded ∧
    ∃ more, (replay_loop fuel current acc).replayed = acc.replayed ++ more ∧
      ((replay_loop fuel current acc).history = acc.history ∨
        ((replay_loop fuel current acc).history = [] ∧
          ∃ c ∈ more, tokenize_whitespace c = ["log".toList, "purge".toList])) := by
  induction fuel with
  | zero => intro current acc; exact ⟨rfl, [], by simp [replay_loop], Or.inl rfl⟩
  | succ f ih =>
    intro current acc
    have hh := intrinsics_handle_history acc.history current
    have base : ∀ o : Outcome, o.recorded = acc.recorded →
        o.replayed = acc.replayed ++ [current] →
        o.history = (intrinsics_handle acc.history current).history →
        o.recorded = acc.recorded ∧
        ∃ more, o.replayed = acc.replayed ++ more ∧
          (o.history = acc.history ∨
            (o.history = [] ∧
              ∃ c ∈ more, tokenize_whitespace c = ["log".toList, "purge".toList])) := by
      intro o h1 h2 h3
      refine ⟨h1, [current], h2, ?_⟩
      rcases hh with hh | ⟨hp, hh⟩
      · left; rw [h3, hh]
      · right; exact ⟨by rw [h3, hh], current, by simp, hp⟩
    rw [replay_loop]
    dsimp only
    split_ifs with hv h1 h2 h3
    · exact ⟨rfl, [current], rfl, Or.inl rfl⟩
    · exact base _ rfl rfl rfl
    · split
      · rename_i next _
        obtain ⟨k1, more, k2, k3⟩ := ih next
          { history := (intrinsics_handle acc.history current).history,
            recorded := acc.recorded,
            calls := acc.calls ++ (intrinsics_handle acc.history current).call.toList,
            replayed := acc.replayed ++ [current],
            executed := acc.executed }
        refine ⟨k1, current :: more, by simpa using k2, ?_⟩
        dsimp only at k3
        rcases k3 with k3 | ⟨k3, c, hc, hp⟩
        · rcases hh with hh | ⟨hp, hh⟩
          · left; rw [k3, hh]
          · right; exact ⟨by rw [k3, hh], current, by simp, hp⟩
        · right; exact ⟨k3, c, by simp [hc], hp⟩
      · exact base _ rfl rfl rfl
    · exact base _ rfl rfl rfl
    · exact base _ rfl rfl rfl

theorem main_turn_history (fuel : Nat) (h : List CStr) (line : CStr)
    (hlog : line_contains_atomic_log line = true)
    (hws : tokenize_whitespace line ≠ ["log".toList, "purge".toList]) :
    ((main_turn fuel h line).recorded = [line] ∨ (main_turn fuel h line).recorded = []) ∧
    ((main_turn fuel h line).history = h ∨
      ((main_turn fuel h line).history = [] ∧
        ∃ c ∈ (main_turn fuel h line).replayed,
          tokenize_whitespace c = ["log".toList, "purge".toList])) := by
  have hrec : (intrinsics_record_command h line).2 = h := by
    rw [record_skip_log h line hlog]
  have hh : (intrinsics_handle h line).history = h := by
    rcases intrinsics_handle_history h line with hh | ⟨hp, _⟩
    · exact hh
    · exact absurd hp hws
  unfold main_turn
  rw [hrec]
  dsimp only
  split_ifs with a1 a2 a3 a4 a5
  · exact ⟨Or.inr rfl, Or.inl rfl⟩
  · exact ⟨Or.inr rfl, Or.inl rfl⟩
  · exact ⟨Or.inl rfl, Or.inl hh⟩
  · exact ⟨Or.inl rfl, Or.inl hh⟩
  · split
    · rename_i cmd _
      obtain ⟨k1, more, k2, k3⟩ := replay_loop_spec fuel cmd
        ⟨(intrinsics_handle h line).history, [line], (intrinsics_handle h line).call.toList,
          [], []⟩
      refine ⟨Or.inl k1, ?_⟩
      dsimp only at k2 k3
      rw [k2]
      rw [hh] at k3 ⊢
      simpa using k3
    · exact ⟨Or.inl rfl, Or.inl hh⟩
  · exact ⟨Or.inl rfl, Or.inl hh⟩

/-- C9: for every history buffer and every user line whose first atomic starts
`log execute K`, one turn of the main loop (recording step, intrinsic dispatch and the
whole replay chain, however far it is followed) calls `intrinsics_record_command` at most
once, with the user line and never with a replay command, adds no entry to the history
buffer, and leaves the buffer as it was unless one of the replayed commands is
`log purge`, which empties it. -/
theorem log_execute_not_recorded (fuel : Nat) (h : List CStr) (line k : CStr)
    (rest : List Token)
    (hts : Tokenises line
      (TOK_NAME "log".toList :: TOK_NAME "execute".toList :: TOK_NAME k :: rest)) :
    ((main_turn fuel h line).recorded = [line] ∨ (main_turn fuel h line).recorded = []) ∧
    ((main_turn fuel h line).history = h ∨ (main_turn fuel h line).history = []) ∧
    ((∀ c ∈ (main_turn fuel h line).replayed,
        tokenize_whitespace c ≠ ["log".toList, "purge".toList]) →
      (main_turn fuel h line).history = h) := by
  have hline := (tokenises_unique hts).symm
  have hlog := scan_first_log line _ hline
  obtain ⟨ws, hws⟩ := words_of_log_execute line _ hline ⟨k, rest, rfl⟩
  have hne : tokenize_whitespace line ≠ ["log".toList, "purge".toList] := by
    rw [hws]
    intro he
    exact absurd (List.cons.inj (List.cons.inj he).2).1 (by decide)
  obtain ⟨h1, h2⟩ := main_turn_history fuel h line hlog hne
  refine ⟨h1, ?_, ?_⟩
  · rcases h2 with h2 | ⟨h2, _⟩
    · exact Or.inl h2
    · exact Or.inr h2
  · intro hno
    rcases h2 with h2 | ⟨_, c, hc, hp⟩
    · exact h2
    · exact absurd hp (hno c hc)

/-- The buffer `[echo a, echo b]` and the line `log execute 1`: `echo b` is replayed and
executed, nothing is recorded, the buffer is unchanged. -/
theorem log_execute_not_recorded_witness :
    main_turn 8 ["echo a".toList, "echo b".toList] "log execute 1".toList =
      ⟨["echo a".toList, "echo b".toList], ["log execute 1".toList],
        [IntrinsicCall.log ["execute".toList, "1".toList]], ["echo b".toList],
        ["echo b".toList]⟩ ∧
    (main_turn 8 ["echo a".toList, "echo b".toList] "log execute 1".toList).history =
      ["echo a".toList, "echo b".toList] :=
  ⟨by decide,
   (log_execute_not_recorded 8 ["echo a".toList, "echo b".toList] "log execute 1".toList
      "1".toList [] ((tokenises_iff _ _).mpr (by decide))).2.2 (by decide)⟩
/-! ### Which lines the in-process handlers take -/

theorem accepted_not_blank (line : CStr) (hv : validate_syntax line = true) :
    line.all is_blank = false := by
  by_contra hall
  simp only [Bool.not_eq_false] at hall
  have hd : line.dropWhile is_blank = [] :=
    List.dropWhile_eq_nil_iff.mpr (fun x hx => List.all_eq_true.mp hall x hx)
  have ht : tokens line = [] := by
    rw [tokens_unfold]
    simp [lexer_next, hd]
  rw [validate_syntax_eq_accepts, ht] at hv
  simp [accepts] at hv

theorem replay_loop_calls (fuel : Nat) : ∀ (current : CStr) (acc : Outcome),
    ∃ more, (replay_loop fuel current acc).calls = acc.calls ++ more := by
  induction fuel with
  | zero => intro current acc; exact ⟨[], by simp [replay_loop]⟩
  | succ f ih =>
    intro current acc
    rw [replay_loop]
    dsimp only
    split_ifs
    · exact ⟨[], by simp⟩
    · exact ⟨_, rfl⟩
    · split
      · rename_i next _
        obtain ⟨more, hm⟩ := ih next
          { history := (intrinsics_handle acc.history current).history,
            recorded := acc.recorded,
            calls := acc.calls ++ (intrinsics_handle acc.history current).call.toList,
            replayed := acc.replayed ++ [current],
            executed := acc.executed }
        exact ⟨(intrinsics_handle acc.history current).call.toList ++ more, by
          rw [hm]; simp⟩
      · exact ⟨_, rfl⟩
    · exact ⟨_, rfl⟩
    · exact ⟨_, rfl⟩

theorem intrinsics_handle_other (h : List CStr) (line : CStr)
    (hw : ∀ w ws, tokenize_whitespace line = w :: ws →
      w ≠ "hop".toList ∧ w ≠ "reveal".toList ∧ w ≠ "log".toList) :
    intrinsics_handle h line = ⟨0, none, h, none, []⟩ := by
  unfold intrinsics_handle
  split
  · rfl
  · rename_i cmd args heq
    obtain ⟨h1, h2, h3⟩ := hw cmd args heq
    rw [if_neg h1, if_neg h2, if_neg h3]

theorem intrinsics_handle_log (h : List CStr) (line : CStr) (args : List CStr)
    (hw : tokenize_whitespace line = "log".toList :: args) :
    (intrinsics_handle h line).call = some (IntrinsicCall.log args) := by
  unfold intrinsics_handle
  rw [hw]
  simp

theorem exec_run_line_groups_builtin (line n : CStr) (rest : List Token)
    (hts : Tokenises line (TOK_NAME n :: rest))
    (hn : n = "hop".toList ∨ n = "reveal".toList ∨ n = "log".toList) :
    exec_run_line_groups line = command_groups line ∧ command_groups line ≠ [] := by
  have htoks : tokenize_special line = n :: rest.map token_text := by
    rw [tokenize_special_eq, ← tokenises_unique hts]
    rfl
  constructor
  · unfold exec_run_line_groups command_groups
    rw [htoks]
    dsimp only
    rcases hn with rfl | rfl | rfl <;>
      simp only [List.head?_cons, Option.some.injEq] <;>
      rw [if_neg (by simp), if_neg (by decide), if_neg (by decide)]
  · unfold command_groups
    rw [htoks]
    simp [group_loop]

/-- An accepted line whose first white-space-delimited word is none of `hop`, `reveal`,
`log` is passed whole to `exec_run_line` and no in-process handler is called; every
command group `exec_run_line` extracts is built into a pipeline with one stage per atomic,
each stage holding only the tokens of its own atomic, and when the first name is `hop`,
`reveal` or `log` none of the early branches of `exec_run_line` (`activities`, `ping`,
`fg`, `bg`) takes the line, so that its loop cuts the whole line into groups.  On a line
whose first word is `log` the first handler called is `handle_log_args`, with all the
other words of the line. -/
theorem main_turn_dispatch (fuel : Nat) (h : List CStr) (line : CStr)
    (hv : validate_syntax line = true) :
    ((∀ w ws, tokenize_whitespace line = w :: ws →
        w ≠ "hop".toList ∧ w ≠ "reveal".toList ∧ w ≠ "log".toList) →
      (main_turn fuel h line).calls = [] ∧
      (main_turn fuel h line).executed = [line] ∧
      (∀ g ∈ exec_run_line_groups line, ∃ p, PipeSeq p ∧ g.toks = p.map token_text ∧
        build_pipeline_from_tokens g.toks = some ((pipe_slices g.toks).map stage_of_slice)) ∧
      (∀ n rest, Tokenises line (TOK_NAME n :: rest) →
        (n = "hop".toList ∨ n = "reveal".toList ∨ n = "log".toList) →
        exec_run_line_groups line = command_groups line ∧ command_groups line ≠ [])) ∧
    (∀ args, tokenize_whitespace line = "log".toList :: args →
      (main_turn fuel h line).calls.head? = some (IntrinsicCall.log args)) := by
  have hb := accepted_not_blank line hv
  constructor
  · intro hw
    have hh := intrinsics_handle_other (intrinsics_record_command h line).2 line hw
    refine ⟨?_, ?_, ?_, ?_⟩
    · simp [main_turn, hb, hv, hh]
    · simp [main_turn, hb, hv, hh]
    · intro g hg
      obtain ⟨p, hp, hgp⟩ :=
        command_groups_valid line hv g (exec_run_line_groups_sub line g hg)
      refine ⟨p, hp, hgp, ?_⟩
      rw [hgp]
      have := build_loop_pipeSeq hp ((p.map token_text).length + 1) [] (by simp)
      simpa [build_pipeline_from_tokens] using this
    · intro n rest hts hn
      exact exec_run_line_groups_builtin line n rest hts hn
  · intro args hw
    have hc := intrinsics_handle_log (intrinsics_record_command h line).2 line args hw
    unfold main_turn
    rw [hb, hv]
    simp only [Bool.false_eq_true, Bool.true_eq_false, if_false]
    split_ifs
    · simp [hc]
    · simp [hc]
    · split
      · rename_i cmd _
        obtain ⟨more, hm⟩ := replay_loop_calls fuel cmd
          ⟨(intrinsics_handle (intrinsics_record_command h line).2 line).history, [line],
            (intrinsics_handle (intrinsics_record_command h line).2 line).call.toList, [], []⟩
        rw [hm]
        simp [hc]
      · simp [hc]
    · simp [hc]

/-- An accepted line whose first white-space-delimited word is `hop` or `reveal`: the main
loop calls the in-process handler with all the other words of the line and passes nothing
to `exec_run_line`. -/
theorem main_turn_in_process (fuel : Nat) (h : List CStr) (line : CStr) (args : List CStr)
    (hv : validate_syntax line = true) :
    (tokenize_whitespace line = "hop".toList :: args →
      (main_turn fuel h line).calls = [IntrinsicCall.hop args] ∧
      (main_turn fuel h line).executed = []) ∧
    (tokenize_whitespace line = "reveal".toList :: args →
      (main_turn fuel h line).calls = [IntrinsicCall.reveal args] ∧
      (main_turn fuel h line).executed = []) := by
  have hb := accepted_not_blank line hv
  constructor
  · intro hw
    have hh : intrinsics_handle (intrinsics_record_command h line).2 line =
        ⟨1, none, (intrinsics_record_command h line).2, some (IntrinsicCall.hop args), []⟩ := by
      unfold intrinsics_handle
      rw [hw]
      simp
    simp [main_turn, hb, hv, hh]
  · intro hw
    have hh : intrinsics_handle (intrinsics_record_command h line).2 line =
        ⟨1, none, (intrinsics_record_command h line).2,
          some (IntrinsicCall.reveal args), []⟩ := by
      unfold intrinsics_handle
      rw [hw]
      simp
    simp [main_turn, hb, hv, hh]

/-- C4 fails on the code.  The line `reveal | grep x` is accepted, its first name is
`reveal` and it holds a `|`; `exec_run_line` would build from it one pipeline with the
stages `reveal` and `grep x`.  But the main loop asks `intrinsics_handle` first, which cuts
the line at white space only: the in-process `reveal` handler is called with the arguments
`|`, `grep`, `x`, prints `reveal: Invalid Syntax!`, and `exec_run_line` is never called.
Likewise `hop .. ; echo hi` calls the in-process `hop` with `..`, `;`, `echo`, `hi`, which
takes each of them for a directory, and `echo hi` is not executed; and `log purge ; log`
calls `handle_log_args` with `purge`, `;`, `log`, which prints `log: Invalid Syntax!` and
purges nothing.  In general every accepted line whose first white-space-delimited word is
`hop` or `reveal` has all its other words, operators included, passed to the in-process
handler and nothing executed, and one whose first word is `log` has them passed to
`handle_log_args`.  Only an accepted line whose first word is none of the three (such as
`reveal|grep x`, the operator touching the name) is passed whole to `exec_run_line`, which
builds every group into a pipeline with one stage per atomic, each stage holding only the
tokens of its own atomic; when the first name of such a line is `hop`, `reveal` or `log`,
none of the early branches of `exec_run_line` takes it and its loop cuts the whole line
into groups. -/
theorem builtin_dispatch :
    ( validate_syntax "reveal | grep x".toList = true ∧
      Tokenises "reveal | grep x".toList
        [TOK_NAME "reveal".toList, TOK_PIPE, TOK_NAME "grep".toList, TOK_NAME "x".toList] ∧
      (exec_run_line_groups "reveal | grep x".toList).map
          (fun g => build_pipeline_from_tokens g.toks) =
        [some [⟨["reveal".toList], none, none, 0⟩,
               ⟨["grep".toList, "x".toList], none, none, 0⟩]] ∧
      (main_turn 8 [] "reveal | grep x".toList).calls =
        [IntrinsicCall.reveal ["|".toList, "grep".toList, "x".toList]] ∧
      (main_turn 8 [] "reveal | grep x".toList).executed = [] ∧
      (∀ (env : DirEnv) (qsort : (CStr → CStr → Int) → List CStr → List CStr)
          (s : HopState),
        handle_reveal_args env qsort s ["|".toList, "grep".toList, "x".toList] =
          (0, "reveal: Invalid Syntax!\n".toList))) ∧
    ( validate_syntax "hop .. ; echo hi".toList = true ∧
      Tokenises "hop .. ; echo hi".toList
        [TOK_NAME "hop".toList, TOK_NAME "..".toList, TOK_SEMI, TOK_NAME "echo".toList,
          TOK_NAME "hi".toList] ∧
      (exec_run_line_groups "hop .. ; echo hi".toList).map
          (fun g => build_pipeline_from_tokens g.toks) =
        [some [⟨["hop".toList, "..".toList], none, none, 0⟩],
         some [⟨["echo".toList, "hi".toList], none, none, 0⟩]] ∧
      (main_turn 8 [] "hop .. ; echo hi".toList).calls =
        [IntrinsicCall.hop ["..".toList, ";".toList, "echo".toList, "hi".toList]] ∧
      (main_turn 8 [] "hop .. ; echo hi".toList).executed = [] ∧
      (handle_hop_args example_env ⟨"/root".toList, [], false, []⟩
          ["..".toList, ";".toList, "echo".toList, "hi".toList]).2.cwd =
        "/root/../;/echo/hi".toList) ∧
    ( validate_syntax "log purge ; log".toList = true ∧
      Tokenises "log purge ; log".toList
        [TOK_NAME "log".toList, TOK_NAME "purge".toList, TOK_SEMI, TOK_NAME "log".toList] ∧
      (exec_run_line_groups "log purge ; log".toList).map
          (fun g => build_pipeline_from_tokens g.toks) =
        [some [⟨["log".toList, "purge".toList], none, none, 0⟩],
         some [⟨["log".toList], none, none, 0⟩]] ∧
      (main_turn 8 ["ls".toList] "log purge ; log".toList).calls =
        [IntrinsicCall.log ["purge".toList, ";".toList, "log".toList]] ∧
      (main_turn 8 ["ls".toList] "log purge ; log".toList).executed = [] ∧
      (main_turn 8 ["ls".toList] "log purge ; log".toList).history = ["ls".toList] ∧
      (intrinsics_handle ["ls".toList] "log purge ; log".toList).output =
        ["log: Invalid Syntax!".toList]) ∧
    (∀ (fuel : Nat) (h : List CStr) (line : CStr) (args : List CStr),
      validate_syntax line = true →
      (tokenize_whitespace line = "hop".toList :: args →
        (main_turn fuel h line).calls = [IntrinsicCall.hop args] ∧
        (main_turn fuel h line).executed = []) ∧
      (tokenize_whitespace line = "reveal".toList :: args →
        (main_turn fuel h line).calls = [IntrinsicCall.reveal args] ∧
        (main_turn fuel h line).executed = []) ∧
      (tokenize_whitespace line = "log".toList :: args →
        (main_turn fuel h line).calls.head? = some (IntrinsicCall.log args))) ∧
    (∀ (fuel : Nat) (h : List CStr) (line : CStr), validate_syntax line = true →
      (∀ w ws, tokenize_whitespace line = w :: ws →
        w ≠ "hop".toList ∧ w ≠ "reveal".toList ∧ w ≠ "log".toList) →
      (main_turn fuel h line).calls = [] ∧
      (main_turn fuel h line).executed = [line] ∧
      (∀ g ∈ exec_run_line_groups line, ∃ p, PipeSeq p ∧ g.toks = p.map token_text ∧
        build_pipeline_from_tokens g.toks = some ((pipe_slices g.toks).map stage_of_slice)) ∧
      (∀ n rest, Tokenises line (TOK_NAME n :: rest) →
        (n = "hop".toList ∨ n = "reveal".toList ∨ n = "log".toList) →
        exec_run_line_groups line = command_groups line ∧ command_groups line ≠ [])) ∧
    ( validate_syntax "reveal|grep x".toList = true ∧
      (main_turn 8 [] "reveal|grep x".toList).calls = [] ∧
      (main_turn 8 [] "reveal|grep x".toList).executed = ["reveal|grep x".toList] ∧
      (exec_run_line_groups "reveal|grep x".toList).map
          (fun g => build_pipeline_from_tokens g.toks) =
        [some [⟨["reveal".toList], none, none, 0⟩,
               ⟨["grep".toList, "x".toList], none, none, 0⟩]]) := by
  refine ⟨⟨by decide, (tokenises_iff _ _).mpr (by decide), by decide, by decide, by decide,
      fun env qsort s => rfl⟩,
    ⟨by decide, (tokenises_iff _ _).mpr (by decide), by decide, by decide, by decide,
      by decide⟩,
    ⟨by decide, (tokenises_iff _ _).mpr (by decide), by decide, by decide, by decide,
      by decide, by decide⟩, ?_, ?_, ⟨by decide, by decide, by decide, by decide⟩⟩
  · intro fuel h line args hv
    exact ⟨(main_turn_in_process fuel h line args hv).1,
      (main_turn_in_process fuel h line args hv).2,
      (main_turn_dispatch fuel h line hv).2 args⟩
  · intro fuel h line hv hw
    exact (main_turn_dispatch fuel h line hv).1 hw

/-! ### The step budgets are never exhausted

Past the length of the input the result of a loop does not depend on its budget. -/

theorem drop_one_dropWhile_lt (p : CStr → Bool) (t : CStr) (ts : List CStr) :
    (((t :: ts).dropWhile p).drop 1).length < (t :: ts).length := by
  have h : ((t :: ts).dropWhile p).length ≤ (t :: ts).length :=
    (List.dropWhile_sublist p).length_le
  simp only [List.length_drop, List.length_cons] at h ⊢
  omega

theorem build_loop_fuel (f1 : Nat) : ∀ (f2 : Nat) (toks : List CStr) (cmds : List CmdNode),
    toks.length < f1 → toks.length < f2 → build_loop f1 toks cmds = build_loop f2 toks cmds := by
  induction f1 with
  | zero => intro f2 toks cmds h; omega
  | succ f1 ih =>
    intro f2 toks cmds h1 h2
    cases f2 with
    | zero => omega
    | succ f2 =>
      cases toks with
      | nil => simp [build_loop]
      | cons t ts =>
        simp only [build_loop]
        split
        · rfl
        · have hlt := drop_one_dropWhile_lt (fun t => t != ['|']) t ts
          exact ih f2 _ _ (Nat.lt_of_lt_of_le hlt (Nat.le_of_lt_succ h1))
            (Nat.lt_of_lt_of_le hlt (Nat.le_of_lt_succ h2))

theorem group_loop_fuel (f1 : Nat) : ∀ (f2 : Nat) (toks : List CStr),
    toks.length < f1 → toks.length < f2 → group_loop f1 toks = group_loop f2 toks := by
  induction f1 with
  | zero => intro f2 toks h; omega
  | succ f1 ih =>
    intro f2 toks h1 h2
    cases f2 with
    | zero => omega
    | succ f2 =>
      cases toks with
      | nil => simp [group_loop]
      | cons t ts =>
        simp only [group_loop]
        have hlt := drop_one_dropWhile_lt (fun t => t != [';']) t ts
        rw [ih f2 _ (Nat.lt_of_lt_of_le hlt (Nat.le_of_lt_succ h1))
          (Nat.lt_of_lt_of_le hlt (Nat.le_of_lt_succ h2))]

theorem tokenize_whitespace_loop_fuel (f1 : Nat) : ∀ (f2 : Nat) (s : CStr),
    s.length < f1 → s.length < f2 →
    tokenize_whitespace_loop f1 s = tokenize_whitespace_loop f2 s := by
  induction f1 with
  | zero => intro f2 s h; omega
  | succ f1 ih =>
    intro f2 s h1 h2
    cases f2 with
    | zero => omega
    | succ f2 =>
      simp only [tokenize_whitespace_loop]
      split
      · rfl
      · rename_i c tl heq
        have hs : (c :: tl).length ≤ s.length := by
          rw [← heq]; exact (List.dropWhile_sublist isspace).length_le
        have hc : isspace c = false := by
          have := List.head_dropWhile_not isspace s
          simp [heq] at this
          exact this
        have hd : ((c :: tl).dropWhile (fun x => !isspace x)).length ≤ tl.length := by
          simp only [List.dropWhile_cons, hc, Bool.not_false, if_true]
          exact (List.dropWhile_sublist _).length_le
        simp only [List.length_cons] at hs
        rw [ih f2 _ (by omega) (by omega)]

theorem log_scan_rest_le (c : Char) (tl : CStr) (hc : is_separator c = false) :
    (((c :: tl).dropWhile (fun x => !ends_log_name x)).dropWhile
      (fun x => !is_separator x)).length ≤ tl.length := by
  by_cases he : ends_log_name c = true
  · simp only [List.dropWhile_cons, he, Bool.not_true, Bool.false_eq_true, if_false, hc,
      Bool.not_false, if_true]
    exact (List.dropWhile_sublist _).length_le
  · simp only [Bool.not_eq_true] at he
    simp only [List.dropWhile_cons, he, Bool.not_false, if_true]
    exact ((List.dropWhile_sublist _).trans (List.dropWhile_sublist _)).length_le

theorem line_contains_atomic_log_loop_fuel (f1 : Nat) : ∀ (f2 : Nat) (s : CStr),
    s.length < f1 → s.length < f2 →
    line_contains_atomic_log_loop f1 s = line_contains_atomic_log_loop f2 s := by
  induction f1 with
  | zero => intro f2 s h; omega
  | succ f1 ih =>
    intro f2 s h1 h2
    cases f2 with
    | zero => omega
    | succ f2 =>
      simp only [line_contains_atomic_log_loop]
      split
      · rfl
      · rename_i c tl heq
        have hs : (c :: tl).length ≤ s.length := by
          rw [← heq]; exact (List.dropWhile_sublist isspace).length_le
        simp only [List.length_cons] at hs
        by_cases hsep : is_separator c = true
        · rw [if_pos hsep, if_pos hsep]
          exact ih f2 _ (by omega) (by omega)
        · rw [if_neg hsep, if_neg hsep]
          split_ifs
          · rfl
          · have hd := log_scan_rest_le c tl (by simpa using hsep)
            exact ih f2 _ (by omega) (by omega)
/-! ### `line_contains_atomic_log` and the grammar

On a line without vertical tab and form feed the scan finds exactly the atomics named
`log`. -/

theorem atomic_heads_from_separator (b : Bool) : ∀ ts : List Token,
    atomic_heads false ts = atomic_heads b (from_separator ts) := by
  intro ts
  induction ts with
  | nil => cases b <;> rfl
  | cons t ts ih =>
    cases t <;> cases b <;> simp [atomic_heads, from_separator, ih]

theorem not_separator_of_name_char {c : Char} (h : is_name_char c = true) :
    is_separator c = false := by
  obtain ⟨_, h1, h2, h3, _, _⟩ := name_char_facts h
  simp [is_separator, h1, h2, h3]

theorem not_separator_of_blank {c : Char} (h : is_blank c = true) :
    is_separator c = false := by
  unfold is_blank at h
  simp only [Bool.or_eq_true, beq_iff_eq] at h
  rcases h with ((rfl | rfl) | rfl) | rfl <;> decide

theorem tokenises_from_separator {s : CStr} {ts : List Token} (h : Tokenises s ts) :
    Tokenises (s.dropWhile (fun x => !is_separator x)) (from_separator ts) := by
  induction h with
  | done => exact Tokenises.done
  | blank hc _ ih =>
    simpa [List.dropWhile_cons, not_separator_of_blank hc, from_separator] using ih
  | pipe h _ =>
    simpa [List.dropWhile_cons, is_separator, from_separator] using Tokenises.pipe h
  | semi h _ =>
    simpa [List.dropWhile_cons, is_separator, from_separator] using Tokenises.semi h
  | amp h _ =>
    simpa [List.dropWhile_cons, is_separator, from_separator] using Tokenises.amp h
  | lt _ ih => simpa [List.dropWhile_cons, is_separator, from_separator] using ih
  | gtgt _ ih => simpa [List.dropWhile_cons, is_separator, from_separator] using ih
  | gt _ _ ih => simpa [List.dropWhile_cons, is_separator, from_separator] using ih
  | @name n s ts hn _ _ ih =>
    rw [List.dropWhile_append_of_pos
      (fun c hc => by simp [not_separator_of_name_char (hn.2 c hc)])]
    simpa [from_separator] using ih

theorem tokenises_dropWhile_isspace {s : CStr} {ts : List Token} (h : Tokenises s ts)
    (hp : PlainBlanks s) :
    Tokenises (s.dropWhile isspace) ts ∧
    (∀ c, (s.dropWhile isspace).head? = some c → is_blank c = false) := by
  induction h with
  | done => exact ⟨Tokenises.done, by simp⟩
  | @blank c s ts hc _ ih =>
    have hsp : isspace c = true := isspace_of_is_blank hc
    have := ih (fun x hx => hp x (List.mem_cons_of_mem _ hx))
    simpa [List.dropWhile_cons, hsp] using this
  | @pipe s ts h _ =>
    exact ⟨by simpa [List.dropWhile_cons, isspace] using Tokenises.pipe h,
      by simp [List.dropWhile_cons, isspace, is_blank]⟩
  | @semi s ts h _ =>
    exact ⟨by simpa [List.dropWhile_cons, isspace] using Tokenises.semi h,
      by simp [List.dropWhile_cons, isspace, is_blank]⟩
  | @amp s ts h _ =>
    exact ⟨by simpa [List.dropWhile_cons, isspace] using Tokenises.amp h,
      by simp [List.dropWhile_cons, isspace, is_blank]⟩
  | @lt s ts h _ =>
    exact ⟨by simpa [List.dropWhile_cons, isspace] using Tokenises.lt h,
      by simp [List.dropWhile_cons, isspace, is_blank]⟩
  | @gtgt s ts h _ =>
    exact ⟨by simpa [List.dropWhile_cons, isspace] using Tokenises.gtgt h,
      by simp [List.dropWhile_cons, isspace, is_blank]⟩
  | @gt s ts hh h _ =>
    exact ⟨by simpa [List.dropWhile_cons, isspace] using Tokenises.gt hh h,
      by simp [List.dropWhile_cons, isspace, is_blank]⟩
  | @name n s ts hn hs h _ =>
    obtain ⟨x, xs, rfl⟩ : ∃ x xs, n = x :: xs := by
      cases n with
      | nil => exact absurd rfl hn.1
      | cons x xs => exact ⟨x, xs, rfl⟩
    have hb : is_blank x = false := (name_char_facts (hn.2 x (by simp))).1
    have hsp : isspace x = false := by rw [hp x (by simp)]; exact hb
    have hd : (x :: xs ++ s).dropWhile isspace = x :: xs ++ s := by
      simp [List.dropWhile_cons, hsp]
    rw [hd]
    exact ⟨Tokenises.name hn hs h, by simp [hb]⟩

theorem plainBlanks_sublist {s t : CStr} (h : PlainBlanks s) (hs : t.Sublist s) :
    PlainBlanks t := fun c hc => h c (hs.subset hc)

theorem log_mem_cons (n : CStr) (l : List CStr) (hn : n ≠ ['l', 'o', 'g']) :
    decide (['l', 'o', 'g'] ∈ n :: l) = decide (['l', 'o', 'g'] ∈ l) := by
  have : (['l', 'o', 'g'] ∈ n :: l) ↔ (['l', 'o', 'g'] ∈ l) := by
    rw [List.mem_cons]
    constructor
    · rintro (h | h)
      · exact absurd h.symm hn
      · exact h
    · exact Or.inr
  exact decide_eq_decide.mpr this

theorem scan_agrees (fuel : Nat) : ∀ (s : CStr) (ts : List Token), s.length < fuel →
    Tokenises s ts → PlainBlanks s →
    line_contains_atomic_log_loop fuel s = decide (['l', 'o', 'g'] ∈ atomic_heads true ts) := by
  induction fuel with
  | zero => intro s ts h; omega
  | succ f ih =>
    intro s ts hlen hT hp
    obtain ⟨hTd, hhead⟩ := tokenises_dropWhile_isspace hT hp
    have hdl : (s.dropWhile isspace).length ≤ s.length :=
      (List.dropWhile_sublist isspace).length_le
    have hpd : PlainBlanks (s.dropWhile isspace) :=
      plainBlanks_sublist hp (List.dropWhile_sublist isspace)
    rw [line_contains_atomic_log_loop.eq_def]
    simp only
    generalize s.dropWhile isspace = d at hTd hhead hdl hpd
    have skip : ∀ (d2 : CStr) (ts2 : List Token), d2.length < d.length →
        PlainBlanks d2 → Tokenises d2 ts2 →
        line_contains_atomic_log_loop f (d2.dropWhile (fun x => !is_separator x)) =
          decide (['l', 'o', 'g'] ∈ atomic_heads false ts2) := by
      intro d2 ts2 hl hp2 hT2
      have hsub : (d2.dropWhile (fun x => !is_separator x)).Sublist d2 :=
        List.dropWhile_sublist _
      rw [ih _ _ (by have := hsub.length_le; omega) (tokenises_from_separator hT2)
        (plainBlanks_sublist hp2 hsub), ← atomic_heads_from_separator]
    cases hTd with
    | done => simp [atomic_heads]
    | blank hc _ => simp [hhead _ rfl] at hc
    | @pipe d2 ts2 h2 =>
      simp only [is_separator, Char.reduceBEq, Bool.or_false, Bool.or_true, if_true,
        atomic_heads]
      exact ih _ _ (by simp at hdl; omega) h2 (plainBlanks_sublist hpd (List.sublist_cons_self _ _))
    | @semi d2 ts2 h2 =>
      simp only [is_separator, Char.reduceBEq, Bool.or_false, Bool.or_true, if_true,
        Bool.false_or, atomic_heads]
      exact ih _ _ (by simp at hdl; omega) h2 (plainBlanks_sublist hpd (List.sublist_cons_self _ _))
    | @amp d2 ts2 h2 =>
      simp only [is_separator, Char.reduceBEq, Bool.or_false, Bool.or_true, if_true,
        Bool.false_or, atomic_heads]
      exact ih _ _ (by simp at hdl; omega) h2 (plainBlanks_sublist hpd (List.sublist_cons_self _ _))
    | @lt d2 ts2 h2 =>
      have e1 : ('<' :: d2).takeWhile (fun x => !ends_log_name x) = [] := by
        simp [List.takeWhile_cons, ends_log_name]
      have e2 : (('<' :: d2).dropWhile (fun x => !ends_log_name x)).dropWhile
          (fun x => !is_separator x) = d2.dropWhile (fun x => !is_separator x) := by
        simp [List.dropWhile_cons, ends_log_name, is_separator]
      simp only [e1, e2, atomic_heads]
      simp only [is_separator, Char.reduceBEq, Bool.or_false, Bool.false_eq_true, if_false,
        reduceCtorEq]
      exact skip d2 ts2 (by simp) (plainBlanks_sublist hpd (List.sublist_cons_self _ _)) h2
    | @gtgt d2 ts2 h2 =>
      have e1 : ('>' :: '>' :: d2).takeWhile (fun x => !ends_log_name x) = [] := by
        simp [List.takeWhile_cons, ends_log_name]
      have e2 : (('>' :: '>' :: d2).dropWhile (fun x => !ends_log_name x)).dropWhile
          (fun x => !is_separator x) = d2.dropWhile (fun x => !is_separator x) := by
        simp [List.dropWhile_cons, ends_log_name, is_separator]
      simp only [e1, e2, atomic_heads]
      simp only [is_separator, Char.reduceBEq, Bool.or_false, Bool.false_eq_true, if_false,
        reduceCtorEq]
      have hsub : d2.Sublist ('>' :: '>' :: d2) :=
        (List.sublist_cons_self _ _).trans (List.sublist_cons_self _ _)
      exact skip d2 ts2 (by simp; omega) (plainBlanks_sublist hpd hsub) h2
    | @gt d2 ts2 hh h2 =>
      have e1 : ('>' :: d2).takeWhile (fun x => !ends_log_name x) = [] := by
        simp [List.takeWhile_cons, ends_log_name]
      have e2 : (('>' :: d2).dropWhile (fun x => !ends_log_name x)).dropWhile
          (fun x => !is_separator x) = d2.dropWhile (fun x => !is_separator x) := by
        simp [List.dropWhile_cons, ends_log_name, is_separator]
      simp only [e1, e2, atomic_heads]
      simp only [is_separator, Char.reduceBEq, Bool.or_false, Bool.false_eq_true, if_false,
        reduceCtorEq]
      exact skip d2 ts2 (by simp) (plainBlanks_sublist hpd (List.sublist_cons_self _ _)) h2
    | @name n d2 ts2 hn hs h2 =>
      obtain ⟨x, xs, rfl⟩ : ∃ x xs, n = x :: xs := by
        cases n with
        | nil => exact absurd rfl hn.1
        | cons x xs => exact ⟨x, xs, rfl⟩
      have hnends : ∀ c ∈ x :: xs, (!ends_log_name c) = true := by
        intro c hc
        obtain ⟨hb, h1, h2, h3, h4, h5⟩ := name_char_facts (hn.2 c hc)
        have hsp : isspace c = false := by
          rw [hpd c (List.mem_append_left _ hc)]; exact hb
        simp [ends_log_name, hsp, h1, h2, h3, h4, h5]
      have hstop : ∀ c, d2.head? = some c → (!ends_log_name c) = false := by
        intro c hc
        simp [ends_log_name_of_not_name (hs c hc)]
      have e1 := takeWhile_stop (fun c => !ends_log_name c) (x :: xs) d2 hnends hstop
      have e2 := dropWhile_stop (fun c => !ends_log_name c) (x :: xs) d2 hnends hstop
      have hsep : is_separator x = false := not_separator_of_name_char (hn.2 x (by simp))
      have hd2 : PlainBlanks d2 := plainBlanks_sublist hpd (List.sublist_append_right _ _)
      have hsub2 : (d2.dropWhile (fun x => !is_separator x)).Sublist d2 :=
        List.dropWhile_sublist _
      show (if is_separator x = true then _ else
          if ((x :: xs) ++ d2).takeWhile (fun c => !ends_log_name c) = ['l', 'o', 'g'] then true
          else line_contains_atomic_log_loop f
            ((((x :: xs) ++ d2).dropWhile (fun c => !ends_log_name c)).dropWhile
              (fun c => !is_separator c))) = _
      rw [e1, e2, hsep]
      simp only [Bool.false_eq_true, if_false, atomic_heads]
      by_cases hlog : x :: xs = ['l', 'o', 'g']
      · rw [if_pos hlog, hlog]
        simp
      · rw [if_neg hlog, log_mem_cons _ _ hlog]
        exact skip d2 ts2 (by simp; omega) hd2 h2

/-- On a line without vertical tab and form feed `line_contains_atomic_log` returns 1
exactly when, in the token sequence of the line, an atomic has `log` as its first name. -/
theorem line_contains_atomic_log_plain (line : CStr) (ts : List Token)
    (hp : ∀ c ∈ line, c ≠ '\x0b' ∧ c ≠ '\x0c') (hts : Tokenises line ts) :
    line_contains_atomic_log line = true ↔ "log".toList ∈ atomic_heads true ts := by
  have hplain : PlainBlanks line := by
    intro c hc
    obtain ⟨h1, h2⟩ := hp c hc
    have e1 : (c == '\x0b') = false := by simpa using h1
    have e2 : (c == '\x0c') = false := by simpa using h2
    unfold isspace is_blank
    rw [e1, e2]
    cases (c == ' ') <;> cases (c == '\t') <;> cases (c == '\n') <;> cases (c == '\r') <;> rfl
  unfold line_contains_atomic_log
  rw [scan_agrees _ line ts (Nat.lt_succ_self _) hts hplain]
  simp

/-- C7, the code at the failing input: the line made of `log`, a vertical tab and `x` is
accepted and its token sequence is the single name `log\vx`, so no atomic of it is named
`log`; yet `line_contains_atomic_log` returns 1 and `intrinsics_record_command` skips the
line.  A form feed in place of the vertical tab does the same. -/
theorem atomic_log_scan_isspace :
    validate_syntax "log\x0bx".toList = true ∧
    Tokenises "log\x0bx".toList [TOK_NAME "log\x0bx".toList] ∧
    "log".toList ∉ atomic_heads true [TOK_NAME "log\x0bx".toList] ∧
    line_contains_atomic_log "log\x0bx".toList = true ∧
    intrinsics_record_command ["ls".toList] "log\x0bx".toList = (0, ["ls".toList]) ∧
    validate_syntax "log\x0cx".toList = true ∧
    Tokenises "log\x0cx".toList [TOK_NAME "log\x0cx".toList] ∧
    line_contains_atomic_log "log\x0cx".toList = true :=
  ⟨by decide, (tokenises_iff _ _).mpr (by decide), by decide, by decide, by decide,
    by decide, (tokenises_iff _ _).mpr (by decide), by decide⟩

/-- C5 fails on the code, by the defect of C7.  The line made of `log`, a vertical tab and
`x` is accepted; its token sequence is the single name `log\vx`, so it contains no atomic
named `log`, and it is not the newest entry of the buffer `[pwd, ls]`.  The claim requires
the return value 1 and the buffer `[pwd, ls, log\vx]`, but `line_contains_atomic_log`
ends the name at the vertical tab, and `intrinsics_record_command` returns 0 and leaves
the buffer `[pwd, ls]`.  On every line without vertical tab and form feed the claim holds
as it is stated: for a buffer `h` of at most 15 pairwise distinct entries and a line whose
token sequence has no atomic named `log` and which is not the newest entry of `h`,
`intrinsics_record_command` returns 1 and the new buffer is the last 15 elements of `h`
without `line`, followed by `line`; when `h` holds 15 entries and `line` is not among
them, the oldest entry is evicted and the other 14 keep their order; when `line` is in
`h`, nothing else is removed and the size is unchanged. -/
theorem record_command_grammar :
    ( validate_syntax "log\x0bx".toList = true ∧
      Tokenises "log\x0bx".toList [TOK_NAME "log\x0bx".toList] ∧
      atomic_heads true [TOK_NAME "log\x0bx".toList] = ["log\x0bx".toList] ∧
      "log".toList ∉ atomic_heads true [TOK_NAME "log\x0bx".toList] ∧
      ["pwd".toList, "ls".toList].getLast? ≠ some "log\x0bx".toList ∧
      newest HIST_MAX
          (["pwd".toList, "ls".toList].filter (fun e => e != "log\x0bx".toList) ++
            ["log\x0bx".toList]) =
        ["pwd".toList, "ls".toList, "log\x0bx".toList] ∧
      intrinsics_record_command ["pwd".toList, "ls".toList] "log\x0bx".toList =
        (0, ["pwd".toList, "ls".toList])) ∧
    (∀ (h : List CStr) (line : CStr) (ts : List Token),
      h.length ≤ HIST_MAX → h.Nodup → Tokenises line ts →
      "log".toList ∉ atomic_heads true ts → h.getLast? ≠ some line →
      (∀ c ∈ line, c ≠ '\x0b' ∧ c ≠ '\x0c') →
      intrinsics_record_command h line =
        (1, newest HIST_MAX (h.filter (fun e => e != line) ++ [line])) ∧
      (h.length = HIST_MAX → line ∉ h →
        (intrinsics_record_command h line).2 = h.tail ++ [line]) ∧
      (line ∈ h →
        (intrinsics_record_command h line).2 = h.filter (fun e => e != line) ++ [line] ∧
        (intrinsics_record_command h line).2.length = h.length)) := by
  refine ⟨⟨by decide, (tokenises_iff _ _).mpr (by decide), by decide, by decide, by decide,
    by decide, by decide⟩, ?_⟩
  intro h line ts hlen hnd hts hno hlast hp
  have hlog : line_contains_atomic_log line = false := by
    rw [Bool.eq_false_iff]
    intro ht
    exact hno ((line_contains_atomic_log_plain line ts hp hts).mp ht)
  exact record_command_of_scan h line hlen hnd hlog hlast


/-! ### `log execute K t1 ... tm`: the replay command with trailing tokens -/

theorem append_tokens_eq (stored : CStr) (ts : List CStr) :
    append_tokens stored ts = stored ++ (ts.map (fun t => ' ' :: t)).flatten := by
  induction ts generalizing stored with
  | nil => simp [append_tokens]
  | cons t rest ih =>
    rw [append_tokens, ih]
    simp [List.append_assoc]

/-- C11: for a valid `log execute K t1 ... tm` with at least one trailing token (K read
by `strtol` to the end as an index `1 ≤ v ≤ count` of the buffer, `S` the entry stored at
that index counted from the newest), `handle_log_args` returns 2 and the replay command is
exactly `S` followed, for each trailing token in order, by one blank and the token: it
starts with `S`, ends with the last token, and has no other character. -/
theorem handle_log_execute_trailing (h : List CStr) (k t : CStr) (ts : List CStr) (S : CStr)
    (hconv : (strtol k).converted = true) (hend : (strtol k).endptr = [])
    (h1 : 1 ≤ (strtol k).val) (h2 : (strtol k).val ≤ (h.length : Int))
    (hS : h[h.length - (strtol k).val.toNat]? = some S) :
    handle_log_args h ("execute".toList :: k :: t :: ts) =
      ⟨2, some (S ++ ((t :: ts).map (fun x => ' ' :: x)).flatten), h, []⟩ := by
  have hne : ¬ (h.length = 0) := by omega
  have hgt : ¬ ((strtol k).val > (h.length : Int)) := by omega
  have hbad : ¬ ((!(strtol k).converted || decide ((strtol k).endptr ≠ []) ||
      decide ((strtol k).val ≤ 0)) = true) := by
    simp [hconv, hend]; omega
  unfold handle_log_args
  simp only [if_true]
  rw [if_neg hbad, if_neg hne, if_neg hgt]
  rw [List.get?_eq_getElem?, hS]
  simp only [append_tokens_eq]

/-- The buffer `[pwd, ls, date]` and `log execute 2 | wc -l`: the replay command is
`ls | wc -l`. -/
theorem handle_log_execute_trailing_witness :
    handle_log_args ["pwd".toList, "ls".toList, "date".toList]
      ["execute".toList, "2".toList, "|".toList, "wc".toList, "-l".toList] =
      ⟨2, some "ls | wc -l".toList, ["pwd".toList, "ls".toList, "date".toList], []⟩ :=
  handle_log_execute_trailing ["pwd".toList, "ls".toList, "date".toList] "2".toList
    "|".toList ["wc".toList, "-l".toList] "ls".toList (by decide) (by decide) (by decide)
    (by decide) (by decide)

/-! ### `log` and `log purge` -/

theorem handle_log_args_fs_fst (home : Option CStr) (fs : FileSys) (h : List CStr)
    (args : List CStr) : (handle_log_args_fs home fs h args).1 = handle_log_args h args := by
  match args with
  | [] => rfl
  | [a] =>
    unfold handle_log_args_fs handle_log_args
    by_cases ha : a = "purge".toList
    · simp only [if_pos ha]
    · simp only [if_neg ha]
  | _ :: _ :: _ => rfl

/-- C12, amended: `log purge` empties the buffer, prints nothing and returns 1, and a
`log` handled next prints nothing; when `HOME` is set and the history file
`$HOME/.osh_history` can be opened for writing, the file is rewritten with empty content.
`log` without arguments prints the entries oldest to newest, one `printf("%s\n")` each,
leaves buffer and files unchanged, so a second `log` prints the same. -/
theorem log_purge_and_print (home : Option CStr) (fs : FileSys) (h : List CStr) :
    (handle_log_args_fs home fs h ["purge".toList]).1 = ⟨1, none, [], []⟩ ∧
    (∀ hm : CStr, home = some hm → fs.writable (hm ++ '/' :: HIST_FILENAME) = true →
      (handle_log_args_fs home fs h ["purge".toList]).2.content (hm ++ '/' :: HIST_FILENAME) =
        some []) ∧
    (handle_log_args_fs home (handle_log_args_fs home fs h ["purge".toList]).2
      (handle_log_args_fs home fs h ["purge".toList]).1.history []).1.output = [] ∧
    handle_log_args_fs home fs h [] = (⟨1, none, h, h⟩, fs) ∧
    handle_log_args_fs home (handle_log_args_fs home fs h []).2
      (handle_log_args_fs home fs h []).1.history [] = handle_log_args_fs home fs h [] := by
  refine ⟨rfl, ?_, rfl, rfl, rfl⟩
  intro hm hhome hw
  subst hhome
  simp [handle_log_args_fs, save_history_to_file, join_path_home, hw, free_history_in_memory,
    history_lines]

/-- C12, as stated, fails: with the buffer `[ls]`, `HOME=/root` and a history file that
holds the line `ls` but cannot be opened for writing, `log purge` empties the buffer and
leaves the file as it was, not empty. -/
theorem log_purge_and_print_counterexample :
    (handle_log_args_fs (some "/root".toList) (read_only_history "ls\n".toList) ["ls".toList]
      ["purge".toList]).1.history = [] ∧
    (handle_log_args_fs (some "/root".toList) (read_only_history "ls\n".toList) ["ls".toList]
      ["purge".toList]).2.content "/root/.osh_history".toList = some "ls\n".toList ∧
    (handle_log_args_fs (some "/root".toList) (read_only_history "ls\n".toList) ["ls".toList]
      ["purge".toList]).2.content "/root/.osh_history".toList ≠ some [] := by
  decide

/-! ### The job table: ids and order -/

theorem to_int_succ (n : Int) (hlo : INT_MIN ≤ n) (hhi : n < INT_MAX) : to_int (n + 1) = n + 1 := by
  unfold INT_MIN at hlo
  unfold INT_MAX at hhi
  unfold to_int
  omega

theorem to_int_of_range (n : Int) (hlo : INT_MIN ≤ n) (hhi : n ≤ INT_MAX) : to_int n = n := by
  unfold INT_MIN at hlo
  unfold INT_MAX at hhi
  unfold to_int
  omega

theorem check_background_jobs_loop_sublist (poll : Nat → WaitResult) (i : Nat)
    (l : List bg_job) : (check_background_jobs_loop poll i l).1.Sublist l := by
  induction l generalizing i with
  | nil => simp [check_background_jobs_loop]
  | cons job rest ih =>
    rw [check_background_jobs_loop]
    split
    · exact (ih (i + 1)).cons job
    · exact (ih (i + 1)).cons₂ job

theorem print_activities_reap_sublist (poll : Nat → WaitResult) (i : Nat) (l : List bg_job) :
    (print_activities_reap poll i l).Sublist l := by
  induction l generalizing i with
  | nil => simp [print_activities_reap]
  | cons cur rest ih =>
    rw [print_activities_reap]
    split
    · exact (ih (i + 1)).cons₂ cur
    · exact (ih (i + 1)).cons cur
    · exact (ih (i + 1)).cons cur
    · exact (ih (i + 1)).cons cur
    · exact (ih (i + 1)).cons₂ cur

theorem map_job_id_set (l : List bg_job) (i : Nat) (job : bg_job)
    (h : l.get? i = some job) :
    (l.set i { job with stopped := false }).map bg_job.job_id = l.map bg_job.job_id := by
  induction l generalizing i with
  | nil => simp
  | cons a rest ih =>
    cases i with
    | zero =>
      simp only [List.get?_cons_zero, Option.some.injEq] at h
      subst h
      simp
    | succ n =>
      simp only [List.get?_cons_succ] at h
      simp only [List.set_cons_succ, List.map_cons, ih n h]

theorem fg_bg_on_job_step (is_fg : Bool) (kill : KillResult) (wait : WaitResult) (n : Int)
    (σ : JobState) (hlo : 1 ≤ σ.next_job_id) (hhi : σ.next_job_id < INT_MAX) :
    JobStep σ (fg_bg_on_job is_fg kill wait n σ) := by
  have hmin : INT_MIN ≤ σ.next_job_id := by unfold INT_MIN; omega
  unfold fg_bg_on_job
  cases hf : find_job_by_id σ.job_list n with
  | none => exact Or.inl ⟨rfl, List.Sublist.refl _⟩
  | some i =>
    dsimp only
    cases hg : σ.job_list.get? i with
    | none => exact Or.inl ⟨rfl, List.Sublist.refl _⟩
    | some job =>
      dsimp only
      cases is_fg with
      | true =>
        simp only [if_true]
        have hsub : ((unlink_job σ.job_list i).map bg_job.job_id).Sublist
            (σ.job_list.map bg_job.job_id) := (List.eraseIdx_sublist _ _).map _
        by_cases hw : wait = WaitResult.changed WaitStatus.stopped
        · subst hw
          right
          exact ⟨_, _, rfl, rfl, hsub, to_int_succ _ hmin hhi⟩
        · left
          refine ⟨?_, ?_⟩
          · split
            · exact absurd rfl hw
            · rfl
          · split
            · exact absurd rfl hw
            · exact hsub
      | false =>
        simp only [Bool.false_eq_true, if_false]
        left
        split_ifs
        · exact ⟨rfl, List.Sublist.refl _⟩
        · cases kill with
          | ok =>
            refine ⟨rfl, ?_⟩
            dsimp only
            rw [map_job_id_set _ _ _ hg]
          | esrch => exact ⟨rfl, List.Sublist.refl _⟩
          | failed => exact ⟨rfl, List.Sublist.refl _⟩

theorem apply_job_op_step (σ : JobState) (op : JobOp) (hlo : 1 ≤ σ.next_job_id)
    (hhi : σ.next_job_id < INT_MAX) : JobStep σ (apply_job_op σ op) := by
  have hmin : INT_MIN ≤ σ.next_job_id := by unfold INT_MIN; omega
  cases op with
  | add_background pid cmd =>
    exact Or.inr ⟨_, _, rfl, rfl, List.Sublist.refl _, to_int_succ _ hmin hhi⟩
  | add_stopped pid cmd =>
    exact Or.inr ⟨_, _, rfl, rfl, List.Sublist.refl _, to_int_succ _ hmin hhi⟩
  | unlink i => exact Or.inl ⟨rfl, (List.eraseIdx_sublist _ _).map _⟩
  | check_background poll =>
    exact Or.inl ⟨rfl, (check_background_jobs_loop_sublist poll 0 _).map _⟩
  | activities qsort poll =>
    exact Or.inl ⟨rfl, (print_activities_reap_sublist poll 0 _).map _⟩
  | fg_bg kill wait toks =>
    simp only [apply_job_op, exec_run_line_fg_bg]
    split
    · exact Or.inl ⟨rfl, List.Sublist.refl _⟩
    · exact fg_bg_on_job_step _ kill wait _ σ hlo hhi

theorem run_job_ops_append (σ : JobState) (pre post : List JobOp) :
    run_job_ops σ (pre ++ post) = run_job_ops (run_job_ops σ pre) post := by
  unfold run_job_ops
  rw [List.foldl_append]

theorem assigned_ids_append (σ : JobState) (pre post : List JobOp) :
    assigned_ids σ (pre ++ post) = assigned_ids σ pre ++ assigned_ids (run_job_ops σ pre) post := by
  induction pre generalizing σ with
  | nil => rfl
  | cons op pre ih =>
    have hrun : run_job_ops σ (op :: pre) = run_job_ops (apply_job_op σ op) pre := rfl
    rw [List.cons_append, assigned_ids, assigned_ids, hrun, ih (apply_job_op σ op)]
    split_ifs
    · rfl
    · rfl

/-- While the counter stays below `INT_MAX` the ids handed out are consecutive, starting
at the counter's value, and the counter ends at the next one. -/
theorem assigned_ids_spec (ops : List JobOp) (σ : JobState) (hlo : 1 ≤ σ.next_job_id)
    (hhi : σ.next_job_id + ops.length ≤ INT_MAX) :
    (run_job_ops σ ops).next_job_id = σ.next_job_id + (assigned_ids σ ops).length ∧
    assigned_ids σ ops =
      (List.range (assigned_ids σ ops).length).map (fun (i : Nat) => σ.next_job_id + (i : Int)) ∧
    (assigned_ids σ ops).length ≤ ops.length := by
  induction ops generalizing σ with
  | nil => simp [run_job_ops, assigned_ids]
  | cons op ops ih =>
    have hlen : ((op :: ops).length : Int) = ops.length + 1 := by simp
    have hstep := apply_job_op_step σ op hlo (by omega)
    have hrun : run_job_ops σ (op :: ops) = run_job_ops (apply_job_op σ op) ops := rfl
    rcases hstep with ⟨hsame, _⟩ | ⟨j, rest, _, _, _, hnext⟩
    · have ih1 := ih (apply_job_op σ op) (by rw [hsame]; exact hlo) (by rw [hsame]; omega)
      have hids : assigned_ids σ (op :: ops) = assigned_ids (apply_job_op σ op) ops := by
        rw [assigned_ids, if_pos hsame]
      rw [hrun, hids]
      rw [hsame] at ih1
      exact ⟨ih1.1, ih1.2.1, Nat.le_succ_of_le ih1.2.2⟩
    · have ih1 := ih (apply_job_op σ op) (by rw [hnext]; omega) (by rw [hnext]; omega)
      have hne : ¬ ((apply_job_op σ op).next_job_id = σ.next_job_id) := by rw [hnext]; omega
      have hids : assigned_ids σ (op :: ops) =
          σ.next_job_id :: assigned_ids (apply_job_op σ op) ops := by
        rw [assigned_ids, if_neg hne]
      rw [hrun, hids]
      rw [hnext] at ih1
      refine ⟨?_, ?_, ?_⟩
      · rw [ih1.1]; simp only [List.length_cons]; push_cast; omega
      · simp only [List.length_cons]
        rw [List.range_succ_eq_map, List.map_cons, List.map_map]
        congr 1
        · simp
        · conv_lhs => rw [ih1.2.1]
          apply List.map_congr_left
          intro i _
          simp only [Function.comp_apply]
          push_cast
          omega
      · simp only [List.length_cons]; omega

/-- C13: across any sequence of fewer than 2^31 - 1 job-table operations after
`init_job_list` (so that the `int` counter does not overflow), the ids handed out are
1, 2, 3, ... in order of creation, hence strictly increasing and never reused. At every
point of the sequence the operation `op` that comes next either adds no job (the ids in
the table are a selection of the old ones, in the same order), or puts one new job at the
head of the list, whose id is one more than the number of ids handed out before and
greater than each of them, also those of jobs that have been removed. -/
theorem job_ids_never_reused (σ0 : JobState) (ops : List JobOp)
    (hlen : ops.length < 2147483647) :
    assigned_ids (init_job_list σ0) ops =
      (List.range (assigned_ids (init_job_list σ0) ops).length).map
        (fun (i : Nat) => (i : Int) + 1) ∧
    (assigned_ids (init_job_list σ0) ops).Pairwise (fun a b => a < b) ∧
    ∀ pre op post, ops = pre ++ op :: post →
      (((apply_job_op (run_job_ops (init_job_list σ0) pre) op).job_list.map
          bg_job.job_id).Sublist
          ((run_job_ops (init_job_list σ0) pre).job_list.map bg_job.job_id) ∧
        assigned_ids (init_job_list σ0) (pre ++ [op]) = assigned_ids (init_job_list σ0) pre) ∨
      (∃ j rest, (apply_job_op (run_job_ops (init_job_list σ0) pre) op).job_list = j :: rest ∧
        (rest.map bg_job.job_id).Sublist
          ((run_job_ops (init_job_list σ0) pre).job_list.map bg_job.job_id) ∧
        j.job_id = (assigned_ids (init_job_list σ0) pre).length + 1 ∧
        (∀ id ∈ assigned_ids (init_job_list σ0) pre, id < j.job_id) ∧
        assigned_ids (init_job_list σ0) (pre ++ [op]) =
          assigned_ids (init_job_list σ0) pre ++ [j.job_id]) := by
  have hinit : (init_job_list σ0).next_job_id = 1 := rfl
  have hspec := assigned_ids_spec ops (init_job_list σ0) (by rw [hinit])
    (by rw [hinit]; unfold INT_MAX; omega)
  rw [hinit] at hspec
  have hids : assigned_ids (init_job_list σ0) ops =
      (List.range (assigned_ids (init_job_list σ0) ops).length).map
        (fun (i : Nat) => (i : Int) + 1) := by
    conv_lhs => rw [hspec.2.1]
    apply List.map_congr_left
    intro i _
    omega
  refine ⟨hids, ?_, ?_⟩
  · rw [hids, List.pairwise_map]
    exact (List.pairwise_lt_range _).imp (fun h => by omega)
  · intro pre op post hsplit
    have hpl : pre.length < ops.length := by rw [hsplit]; simp
    have hpre := assigned_ids_spec pre (init_job_list σ0) (by rw [hinit])
      (by rw [hinit]; unfold INT_MAX; omega)
    rw [hinit] at hpre
    have hlt : ∀ id ∈ assigned_ids (init_job_list σ0) pre,
        id < (run_job_ops (init_job_list σ0) pre).next_job_id := by
      intro id hid
      rw [hpre.2.1] at hid
      obtain ⟨i, hi, rfl⟩ := List.mem_map.mp hid
      have := List.mem_range.mp hi
      rw [hpre.1]
      omega
    have hstep := apply_job_op_step (run_job_ops (init_job_list σ0) pre) op
      (by rw [hpre.1]; omega) (by rw [hpre.1]; unfold INT_MAX; omega)
    have happ := assigned_ids_append (init_job_list σ0) pre [op]
    rcases hstep with ⟨hsame, hsub⟩ | ⟨j, rest, hl, hj, hsub, hnext⟩
    · left
      refine ⟨hsub, ?_⟩
      rw [happ, assigned_ids, if_pos hsame]
      simp [assigned_ids]
    · right
      have hne : ¬ ((apply_job_op (run_job_ops (init_job_list σ0) pre) op).next_job_id =
          (run_job_ops (init_job_list σ0) pre).next_job_id) := by rw [hnext]; omega
      refine ⟨j, rest, hl, hsub, by rw [hj, hpre.1]; omega, ?_, ?_⟩
      · intro id hid
        rw [hj]
        exact hlt id hid
      · rw [happ, assigned_ids, if_neg hne, hj]
        simp [assigned_ids]

/-- A session: two jobs are started, the first is brought to the foreground and stops
again, the second is reaped, one more is started: the ids are 1, 2, 3, 4. -/
theorem job_ids_never_reused_witness :
    assigned_ids (init_job_list ⟨[], 1, 0, []⟩)
      [JobOp.add_background 100 "sleep 5".toList, JobOp.add_stopped 101 "vim".toList,
       JobOp.fg_bg KillResult.ok (WaitResult.changed WaitStatus.stopped)
         ["fg".toList, "1".toList],
       JobOp.check_background (fun i => if i = 1 then WaitResult.changed (WaitStatus.exited 0)
         else WaitResult.none),
       JobOp.add_background 102 "ls".toList] = [1, 2, 3, 4] :=
  (job_ids_never_reused ⟨[], 1, 0, []⟩ _ (by decide)).1.trans (by decide)

/-- The order invariant of the job list: ids strictly decreasing from the head, all below
the counter. -/
theorem job_step_order (σ σ' : JobState) (hstep : JobStep σ σ')
    (hpw : (σ.job_list.map bg_job.job_id).Pairwise (fun a b => a > b))
    (hlt : ∀ id ∈ σ.job_list.map bg_job.job_id, id < σ.next_job_id) :
    (σ'.job_list.map bg_job.job_id).Pairwise (fun a b => a > b) ∧
    ∀ id ∈ σ'.job_list.map bg_job.job_id, id < σ'.next_job_id := by
  rcases hstep with ⟨hsame, hsub⟩ | ⟨j, rest, hl, hj, hsub, hnext⟩
  · exact ⟨hpw.sublist hsub, fun id hid => by rw [hsame]; exact hlt id (hsub.subset hid)⟩
  · rw [hl, hnext]
    simp only [List.map_cons, List.pairwise_cons, List.mem_cons]
    refine ⟨⟨fun id hid => ?_, hpw.sublist hsub⟩, fun id hid => ?_⟩
    · rw [hj]; exact hlt id (hsub.subset hid)
    · rcases hid with rfl | hid
      · omega
      · have := hlt id (hsub.subset hid); omega

theorem run_job_ops_order (ops : List JobOp) (σ : JobState) (hlo : 1 ≤ σ.next_job_id)
    (hhi : σ.next_job_id + ops.length ≤ INT_MAX)
    (hpw : (σ.job_list.map bg_job.job_id).Pairwise (fun a b => a > b))
    (hlt : ∀ id ∈ σ.job_list.map bg_job.job_id, id < σ.next_job_id) :
    ((run_job_ops σ ops).job_list.map bg_job.job_id).Pairwise (fun a b => a > b) ∧
    ∀ id ∈ (run_job_ops σ ops).job_list.map bg_job.job_id,
      id < (run_job_ops σ ops).next_job_id := by
  induction ops generalizing σ with
  | nil => exact ⟨hpw, hlt⟩
  | cons op ops ih =>
    have hlen : ((op :: ops).length : Int) = ops.length + 1 := by simp
    have hstep := apply_job_op_step σ op hlo (by omega)
    have hord := job_step_order σ _ hstep hpw hlt
    have hrun : run_job_ops σ (op :: ops) = run_job_ops (apply_job_op σ op) ops := rfl
    rw [hrun]
    rcases hstep with ⟨hsame, _⟩ | ⟨_, _, _, _, _, hnext⟩
    · exact ih _ (by rw [hsame]; exact hlo) (by rw [hsame]; omega) hord.1 hord.2
    · exact ih _ (by rw [hnext]; omega) (by rw [hnext]; omega) hord.1 hord.2

/-- C14: in every state reached from `init_job_list` by fewer than 2^31 - 1 job-table
operations the job ids are strictly decreasing from the head of the list. `fg` or `bg`
without argument (`name` is the only token) then look for the id of the head, which is
the largest id in the table, and find the head itself: they act as with that job's number.
On the empty table they print `No such job` and change nothing else. -/
theorem job_list_newest_first (σ0 : JobState) (ops : List JobOp)
    (hlen : ops.length < 2147483647) (name : CStr) (kill : KillResult) (wait : WaitResult) :
    ((run_job_ops (init_job_list σ0) ops).job_list.map bg_job.job_id).Pairwise
      (fun a b => a > b) ∧
    (∀ job rest, (run_job_ops (init_job_list σ0) ops).job_list = job :: rest →
      fg_bg_job_num [name] (run_job_ops (init_job_list σ0) ops) = Except.ok job.job_id ∧
      (∀ j ∈ rest, j.job_id < job.job_id) ∧
      find_job_by_id (run_job_ops (init_job_list σ0) ops).job_list job.job_id = some 0 ∧
      exec_run_line_fg_bg kill wait [name] (run_job_ops (init_job_list σ0) ops) =
        fg_bg_on_job (decide (name = "fg".toList)) kill wait job.job_id
          (run_job_ops (init_job_list σ0) ops)) ∧
    ((run_job_ops (init_job_list σ0) ops).job_list = [] →
      exec_run_line_fg_bg kill wait [name] (run_job_ops (init_job_list σ0) ops) =
        { run_job_ops (init_job_list σ0) ops with
          out := (run_job_ops (init_job_list σ0) ops).out ++ "No such job\n".toList }) := by
  have hord := run_job_ops_order ops (init_job_list σ0) (le_refl (1 : Int))
    (by show (1 : Int) + ops.length ≤ INT_MAX; unfold INT_MAX; omega)
    (by simp [init_job_list]) (by simp [init_job_list])
  refine ⟨hord.1, ?_, ?_⟩
  · intro job rest hl
    have hnum : fg_bg_job_num [name] (run_job_ops (init_job_list σ0) ops) =
        Except.ok job.job_id := by
      unfold fg_bg_job_num
      simp only [hl]
    refine ⟨hnum, ?_, ?_, ?_⟩
    · have hpw := hord.1
      rw [hl, List.map_cons, List.pairwise_cons] at hpw
      intro j hj
      exact hpw.1 j.job_id (List.mem_map_of_mem _ hj)
    · rw [hl, find_job_by_id, if_pos rfl]
    · unfold exec_run_line_fg_bg
      rw [hnum]
      simp
  · intro hl
    unfold exec_run_line_fg_bg fg_bg_job_num
    simp only [hl]

/-- Jobs 1 and 2 are started, job 1 is brought to the foreground and stops again (it
becomes job 3): the list holds the ids 3, 2 and `bg` without argument resumes job 3. -/
theorem job_list_newest_first_witness :
    ((run_job_ops (init_job_list ⟨[], 1, 0, []⟩)
      [JobOp.add_background 100 "sleep 5".toList, JobOp.add_stopped 101 "vim".toList,
       JobOp.fg_bg KillResult.ok (WaitResult.changed WaitStatus.stopped)
         ["fg".toList, "1".toList]]).job_list.map bg_job.job_id).Pairwise (fun a b => a > b) ∧
    (exec_run_line_fg_bg KillResult.ok WaitResult.none ["bg".toList]
      (run_job_ops (init_job_list ⟨[], 1, 0, []⟩)
      [JobOp.add_background 100 "sleep 5".toList, JobOp.add_stopped 101 "vim".toList,
       JobOp.fg_bg KillResult.ok (WaitResult.changed WaitStatus.stopped)
         ["fg".toList, "1".toList]])).job_list =
      [⟨100, 3, "sleep 5".toList, false⟩, ⟨101, 2, "vim".toList, true⟩] :=
  ⟨(job_list_newest_first ⟨[], 1, 0, []⟩ _ (by decide) "bg".toList KillResult.ok
      WaitResult.none).1, by decide⟩

/-! ### `fg n` and `bg n` -/

theorem find_job_by_id_append (pre post : List bg_job) (J : bg_job)
    (hpre : ∀ j ∈ pre, j.job_id ≠ J.job_id) :
    find_job_by_id (pre ++ J :: post) J.job_id = some pre.length := by
  induction pre with
  | nil => simp [find_job_by_id]
  | cons a pre ih =>
    have ha : ¬ (a.job_id = J.job_id) := hpre a (List.mem_cons_self _ _)
    rw [List.cons_append, find_job_by_id, if_neg ha,
      ih (fun j hj => hpre j (List.mem_cons_of_mem _ hj))]
    rfl

theorem get_at_length (pre post : List bg_job) (J : bg_job) :
    (pre ++ J :: post).get? pre.length = some J := by
  induction pre with
  | nil => rfl
  | cons a pre ih => simpa using ih

theorem unlink_job_at_length (pre post : List bg_job) (J : bg_job) :
    unlink_job (pre ++ J :: post) pre.length = pre ++ post := by
  unfold unlink_job
  induction pre with
  | nil => rfl
  | cons a pre ih => simpa using ih

/-- The job number read from the argument `k` when `k`, as `strtol` reads it, is the
decimal numeral of an `int`. -/
theorem fg_bg_job_num_decimal (name k : CStr) (n : Int) (σ : JobState)
    (hint : INT_MIN ≤ n ∧ n ≤ INT_MAX)
    (hk : decimal_integer (k.dropWhile isspace) = some n) :
    fg_bg_job_num [name, k] σ = Except.ok n := by
  have hs := strtol_decimal k n hk
  have hclamp : max LONG_MIN (min LONG_MAX n) = n := by
    have h1 := hint.1
    have h2 := hint.2
    unfold INT_MIN at h1
    unfold INT_MAX at h2
    unfold LONG_MIN LONG_MAX
    omega
  rw [hclamp] at hs
  unfold fg_bg_job_num
  simp only [hs, ne_eq, not_true_eq_false, if_false]
  rw [to_int_of_range n hint.1 hint.2]

/-- C15: the table holds a job `J` with id `n` (the first with that id, after `pre` and
before `post`), and `fg n` is run, `n` given as a decimal numeral. If the wait reports an
exit or a killing signal, the table is `pre ++ post`; if it reports that the job stopped
again, a stopped job with the pid and command of `J` (and the next free id) is put before
`pre ++ post`. In both cases the foreground-group cell is 0 afterwards, and the command of
`J` has been printed. -/
theorem fg_job (σ : JobState) (pre post : List bg_job) (J : bg_job) (k : CStr)
    (kill : KillResult) (hl : σ.job_list = pre ++ J :: post)
    (hpre : ∀ j ∈ pre, j.job_id ≠ J.job_id)
    (hint : INT_MIN ≤ J.job_id ∧ J.job_id ≤ INT_MAX)
    (hk : decimal_integer (k.dropWhile isspace) = some J.job_id) :
    (∀ st, st ≠ WaitStatus.stopped →
      exec_run_line_fg_bg kill (WaitResult.changed st) ["fg".toList, k] σ =
        ⟨pre ++ post, σ.next_job_id, 0, σ.out ++ J.command ++ ['\n']⟩) ∧
    exec_run_line_fg_bg kill (WaitResult.changed WaitStatus.stopped) ["fg".toList, k] σ =
      ⟨⟨J.pid, σ.next_job_id, J.command, true⟩ :: (pre ++ post), to_int (σ.next_job_id + 1), 0,
        σ.out ++ J.command ++ ['\n'] ++
          ('[' :: fmt_d σ.next_job_id ++ "] Stopped ".toList ++ J.command ++ ['\n'])⟩ := by
  have hnum := fg_bg_job_num_decimal "fg".toList k J.job_id σ hint hk
  have hfind : find_job_by_id σ.job_list J.job_id = some pre.length := by
    rw [hl]; exact find_job_by_id_append pre post J hpre
  have hget : σ.job_list.get? pre.length = some J := by
    rw [hl]; exact get_at_length pre post J
  have hun : unlink_job σ.job_list pre.length = pre ++ post := by
    rw [hl]; exact unlink_job_at_length pre post J
  constructor
  · intro st hst
    unfold exec_run_line_fg_bg
    rw [hnum]
    unfold fg_bg_on_job
    simp only [hfind, hget, hun, List.head?_cons, decide_True, if_true]
    cases st with
    | stopped => exact absurd rfl hst
    | exited c => rfl
    | signaled => rfl
    | continued => rfl
  · unfold exec_run_line_fg_bg
    rw [hnum]
    unfold fg_bg_on_job
    simp only [hfind, hget, hun, List.head?_cons, decide_True, if_true]
    rfl

/-- The table `[3: vim (stopped), 2: sleep 5, 1: cat]` and `fg 2`: if `sleep 5` exits the
table is `[3, 1]`; if it stops again it comes back at the head as job 4. -/
theorem fg_job_witness :
    exec_run_line_fg_bg KillResult.ok (WaitResult.changed (WaitStatus.exited 0))
      ["fg".toList, "2".toList]
      ⟨[⟨103, 3, "vim".toList, true⟩, ⟨102, 2, "sleep 5".toList, false⟩,
        ⟨101, 1, "cat".toList, false⟩], 4, 0, []⟩ =
      ⟨[⟨103, 3, "vim".toList, true⟩, ⟨101, 1, "cat".toList, false⟩], 4, 0,
        "sleep 5\n".toList⟩ ∧
    exec_run_line_fg_bg KillResult.ok (WaitResult.changed WaitStatus.stopped)
      ["fg".toList, "2".toList]
      ⟨[⟨103, 3, "vim".toList, true⟩, ⟨102, 2, "sleep 5".toList, false⟩,
        ⟨101, 1, "cat".toList, false⟩], 4, 0, []⟩ =
      ⟨[⟨102, 4, "sleep 5".toList, true⟩, ⟨103, 3, "vim".toList, true⟩,
        ⟨101, 1, "cat".toList, false⟩], 5, 0, "sleep 5\n[4] Stopped sleep 5\n".toList⟩ :=
  ⟨(fg_job ⟨[⟨103, 3, "vim".toList, true⟩, ⟨102, 2, "sleep 5".toList, false⟩,
        ⟨101, 1, "cat".toList, false⟩], 4, 0, []⟩ [⟨103, 3, "vim".toList, true⟩]
      [⟨101, 1, "cat".toList, false⟩] ⟨102, 2, "sleep 5".toList, false⟩ "2".toList
      KillResult.ok rfl (by decide) (by decide) (by decide)).1 (WaitStatus.exited 0)
      (by decide),
   (fg_job ⟨[⟨103, 3, "vim".toList, true⟩, ⟨102, 2, "sleep 5".toList, false⟩,
        ⟨101, 1, "cat".toList, false⟩], 4, 0, []⟩ [⟨103, 3, "vim".toList, true⟩]
      [⟨101, 1, "cat".toList, false⟩] ⟨102, 2, "sleep 5".toList, false⟩ "2".toList
      KillResult.ok rfl (by decide) (by decide) (by decide)).2⟩

theorem char_toNat_sub_ne (a b : Char) (h : a ≠ b) : (a.toNat : Int) - (b.toNat : Int) ≠ 0 := by
  intro h0
  apply h
  apply Char.ext
  apply UInt32.ext
  have : a.toNat = b.toNat := by omega
  exact this

/-- `strcmp a b ≤ 0` is a total relation. -/
theorem strcmp_total (a b : CStr) : strcmp a b ≤ 0 ∨ strcmp b a ≤ 0 := by
  induction a generalizing b with
  | nil => cases b <;> simp [strcmp]
  | cons x as ih =>
    cases b with
    | nil => simp [strcmp]
    | cons y bs =>
      by_cases hxy : x = y
      · subst hxy
        simpa [strcmp] using ih bs
      · have hyx : ¬ (y = x) := fun h => hxy h.symm
        simp only [strcmp, if_neg hxy, if_neg hyx]
        omega

/-- `strcmp a b ≤ 0` is a transitive relation. -/
theorem strcmp_trans (a b c : CStr) (hab : strcmp a b ≤ 0) (hbc : strcmp b c ≤ 0) :
    strcmp a c ≤ 0 := by
  induction a generalizing b c with
  | nil => cases c <;> simp [strcmp]
  | cons x as ih =>
    cases b with
    | nil => simp [strcmp] at hab
    | cons y bs =>
      cases c with
      | nil => simp [strcmp] at hbc
      | cons z cs =>
        by_cases hxy : x = y
        · subst hxy
          by_cases hxz : x = z
          · subst hxz
            simp only [strcmp, if_true] at hab hbc ⊢
            exact ih bs cs hab hbc
          · simp only [strcmp, if_true, if_neg hxz] at hab hbc ⊢
            exact hbc
        · by_cases hyz : y = z
          · subst hyz
            simp only [strcmp, if_neg hxy] at hab ⊢
            exact hab
          · simp only [strcmp, if_neg hxy, if_neg hyz] at hab hbc
            have hxz : ¬ (x = z) := by
              intro h
              subst h
              have := char_toNat_sub_ne x y hxy
              omega
            simp only [strcmp, if_neg hxz]
            omega

theorem chain_pairwise_strcmp (l : List bg_job)
    (h : l.Chain' (fun a b => cmp_bg_job a b ≤ 0)) :
    l.Pairwise (fun a b => cmp_bg_job a b ≤ 0) := by
  have : IsTrans bg_job (fun a b => cmp_bg_job a b ≤ 0) :=
    ⟨fun a b c hab hbc => strcmp_trans _ _ _ hab hbc⟩
  exact List.chain'_iff_pairwise.mp h

/-- C17: `qsort` being a sort (its result on the array of the jobs that remain after
reaping is a permutation of the array in which each element compares `≤ 0` with the
next), `print_activities` prints exactly one line `[pid] : command - Running` or
`[pid] : command - Stopped` for each job that remains, `Stopped` exactly for the jobs
whose flag is set, in non-decreasing `strcmp` order of the commands; the job list after
the call is the list of the remaining jobs in their old order. -/
theorem print_activities_spec
    (qsort : (bg_job → bg_job → Int) → List bg_job → List bg_job) (poll : Nat → WaitResult)
    (σ : JobState)
    (hperm : (qsort cmp_bg_job (print_activities_reap poll 0 σ.job_list)).Perm
      (print_activities_reap poll 0 σ.job_list))
    (hsort : (qsort cmp_bg_job (print_activities_reap poll 0 σ.job_list)).Chain'
      (fun a b => cmp_bg_job a b ≤ 0)) :
    ∃ printed : List bg_job,
      (print_activities qsort poll σ).out = σ.out ++ (printed.map activity_line).flatten ∧
      printed.Perm (print_activities qsort poll σ).job_list ∧
      printed.Pairwise (fun a b => strcmp a.command b.command ≤ 0) ∧
      (∀ j, activity_line j = '[' :: fmt_d j.pid ++ "] : ".toList ++ j.command ++
        (if j.stopped = true then " - Stopped\n".toList else " - Running\n".toList)) ∧
      (print_activities qsort poll σ).job_list = print_activities_reap poll 0 σ.job_list ∧
      (print_activities qsort poll σ).job_list.Sublist σ.job_list ∧
      (print_activities qsort poll σ).next_job_id = σ.next_job_id := by
  refine ⟨qsort cmp_bg_job (print_activities_reap poll 0 σ.job_list), rfl, hperm,
    chain_pairwise_strcmp _ hsort, ?_, rfl, print_activities_reap_sublist poll 0 _, rfl⟩
  intro j
  unfold activity_line
  cases j.stopped <;> simp

/-- The table `[3: vim (stopped), 2: sleep 5, 1: cat]` when `sleep 5` has exited: the
lines for `cat` and `vim` are printed in this order and the table is `[3, 1]`. -/
theorem print_activities_spec_witness :
    (∃ printed : List bg_job,
      (print_activities insertion_qsort
        (fun i => if i = 1 then WaitResult.changed (WaitStatus.exited 0) else WaitResult.none)
        ⟨[⟨103, 3, "vim".toList, true⟩, ⟨102, 2, "sleep 5".toList, false⟩,
          ⟨101, 1, "cat".toList, false⟩], 4, 0, []⟩).out =
        [] ++ (printed.map activity_line).flatten ∧
      printed.Perm [⟨103, 3, "vim".toList, true⟩, ⟨101, 1, "cat".toList, false⟩] ∧
      printed.Pairwise (fun a b => strcmp a.command b.command ≤ 0)) ∧
    print_activities insertion_qsort
        (fun i => if i = 1 then WaitResult.changed (WaitStatus.exited 0) else WaitResult.none)
        ⟨[⟨103, 3, "vim".toList, true⟩, ⟨102, 2, "sleep 5".toList, false⟩,
          ⟨101, 1, "cat".toList, false⟩], 4, 0, []⟩ =
      ⟨[⟨103, 3, "vim".toList, true⟩, ⟨101, 1, "cat".toList, false⟩], 4, 0,
        "[101] : cat - Running\n[103] : vim - Stopped\n".toList⟩ :=
  ⟨(print_activities_spec insertion_qsort
      (fun i => if i = 1 then WaitResult.changed (WaitStatus.exited 0) else WaitResult.none)
      ⟨[⟨103, 3, "vim".toList, true⟩, ⟨102, 2, "sleep 5".toList, false⟩,
        ⟨101, 1, "cat".toList, false⟩], 4, 0, []⟩ (by decide)
      (List.Pairwise.chain' (by decide))).imp
      (fun _ h => ⟨h.1, h.2.1, h.2.2.1⟩),
   by decide⟩

/-! ### `hop` -/

theorem getcwd_buf_length (env : DirEnv) (cwd : CStr) :
    (getcwd_buf env cwd).length ≤ PATH_MAX := by
  unfold getcwd_buf getcwd_path
  split
  · simp
  · split_ifs with h
    · exact h
    · simp

theorem do_chdir_failed (env : DirEnv) (s : HopState) (t : CStr)
    (h : env.chdir s.cwd t = none) :
    (do_chdir_and_update_prev env s t).2 =
      { s with out := s.out ++ "No such directory!\n".toList } := by
  unfold do_chdir_and_update_prev
  simp only [h]

theorem do_chdir_done (env : DirEnv) (s : HopState) (t d : CStr)
    (h : env.chdir s.cwd t = some d) (hobs : getcwd_buf env s.cwd ≠ []) :
    (do_chdir_and_update_prev env s t).2 = ⟨d, getcwd_buf env s.cwd, true, s.out⟩ := by
  unfold do_chdir_and_update_prev
  simp only [h, if_pos hobs, List.take_of_length_le (getcwd_buf_length env s.cwd)]

/-- The loop body written with `hop_target`. -/
theorem hop_step_eq (env : DirEnv) (s : HopState) (a : CStr) :
    hop_step env s a =
      if a = ".".toList then s
      else
        match hop_target env s a with
        | none => { s with out := s.out ++ "No such directory!\n".toList }
        | some t => (do_chdir_and_update_prev env s t).2 := by
  unfold hop_step hop_target
  by_cases h1 : a = "~".toList
  · subst h1
    rw [if_pos rfl, if_neg (by decide), if_pos rfl]
  · by_cases h2 : a = ".".toList
    · rw [if_neg h1, if_pos h2, if_pos h2]
    · by_cases h3 : a = "..".toList
      · simp only [if_neg h1, if_neg h2, if_pos h3]
      · by_cases h4 : a = "-".toList
        · simp only [if_neg h1, if_neg h2, if_neg h3, if_pos h4]
          cases s.prev_cwd_set <;> simp
        · simp only [if_neg h1, if_neg h2, if_neg h3, if_neg h4]

theorem hop_step_failed (env : DirEnv) (s : HopState) (a : CStr) (hne : a ≠ ".".toList)
    (hfail : hop_changes env s a = false) :
    hop_step env s a = { s with out := s.out ++ "No such directory!\n".toList } := by
  rw [hop_step_eq, if_neg hne]
  unfold hop_changes at hfail
  cases ht : hop_target env s a with
  | none => rfl
  | some t =>
    simp only [ht, Bool.and_eq_false_imp, decide_eq_true_eq] at hfail
    have hc := hfail hne
    have hn : env.chdir s.cwd t = none := by
      cases hq : env.chdir s.cwd t with
      | none => rfl
      | some d => rw [hq] at hc; exact absurd hc (by simp)
    exact do_chdir_failed env s t hn

theorem hop_step_dot (env : DirEnv) (s : HopState) : hop_step env s ".".toList = s := by
  rw [hop_step_eq, if_pos rfl]

theorem handle_hop_args_loop_append (env : DirEnv) (s : HopState) (pre : List CStr) (a : CStr)
    (rest : List CStr) :
    handle_hop_args_loop env s (pre ++ a :: rest) =
      handle_hop_args_loop env (hop_step env (handle_hop_args_loop env s pre) a) rest := by
  unfold handle_hop_args_loop
  rw [List.foldl_append, List.foldl_cons]

theorem handle_hop_args_nonempty (env : DirEnv) (s : HopState) (pre : List CStr) (a : CStr)
    (rest : List CStr) :
    (handle_hop_args env s (pre ++ a :: rest)).2 =
      handle_hop_args_loop env (hop_step env (handle_hop_args_loop env s pre) a) rest := by
  rw [← handle_hop_args_loop_append]
  cases pre <;> rfl

/-- C19: an argument `a` of `hop`, met after the arguments `pre`, whose change fails (`~`
while `HOME` is unset, `-` while no previous directory is set, or a `chdir` that fails):
the loop body prints `No such directory!` and changes nothing else, neither the working
directory nor `prev_cwd` nor `prev_cwd_set`, and the call goes on with the arguments that
follow. The argument `.` changes nothing at all and prints nothing. -/
theorem hop_failed_argument (env : DirEnv) (s : HopState) (pre : List CStr) (a : CStr)
    (rest : List CStr)
    (hfail : (a = "~".toList ∧ env.home = none) ∨
      (a = "-".toList ∧ (handle_hop_args_loop env s pre).prev_cwd_set = false) ∨
      (a ≠ ".".toList ∧ ∃ t, hop_target env (handle_hop_args_loop env s pre) a = some t ∧
        env.chdir (handle_hop_args_loop env s pre).cwd t = none)) :
    hop_step env (handle_hop_args_loop env s pre) a =
      ⟨(handle_hop_args_loop env s pre).cwd, (handle_hop_args_loop env s pre).prev_cwd,
        (handle_hop_args_loop env s pre).prev_cwd_set,
        (handle_hop_args_loop env s pre).out ++ "No such directory!\n".toList⟩ ∧
    (handle_hop_args env s (pre ++ a :: rest)).2 =
      handle_hop_args_loop env
        ⟨(handle_hop_args_loop env s pre).cwd, (handle_hop_args_loop env s pre).prev_cwd,
          (handle_hop_args_loop env s pre).prev_cwd_set,
          (handle_hop_args_loop env s pre).out ++ "No such directory!\n".toList⟩ rest ∧
    (∀ s1 : HopState, hop_step env s1 ".".toList = s1) ∧
    (handle_hop_args env s (pre ++ ".".toList :: rest)).2 =
      handle_hop_args_loop env (handle_hop_args_loop env s pre) rest := by
  have hstep : hop_step env (handle_hop_args_loop env s pre) a =
      { handle_hop_args_loop env s pre with
        out := (handle_hop_args_loop env s pre).out ++ "No such directory!\n".toList } := by
    rcases hfail with ⟨ha, hh⟩ | ⟨ha, hp⟩ | ⟨hne, t, ht, hc⟩
    · subst ha
      apply hop_step_failed _ _ _ (by decide)
      simp [hop_changes, hop_target, hh]
    · subst ha
      apply hop_step_failed _ _ _ (by decide)
      unfold hop_changes hop_target
      rw [if_neg (by decide), if_neg (by decide), if_pos rfl, hp]
      simp
    · apply hop_step_failed _ _ _ hne
      simp [hop_changes, ht, hc]
  refine ⟨hstep, ?_, hop_step_dot env, ?_⟩
  · rw [handle_hop_args_nonempty, hstep]
  · rw [handle_hop_args_nonempty, hop_step_dot]

/-- In `/r`, with no previous directory: `hop - xx . a` prints `No such directory!` for
`-` and for `xx` (which `chdir` refuses), does nothing for `.` and then enters `a`. -/
theorem hop_failed_argument_witness :
    (handle_hop_args example_env ⟨"/r".toList, [], false, []⟩
      (["-".toList] ++ "xx".toList :: [".".toList, "a".toList])).2 =
      handle_hop_args_loop example_env
        ⟨"/r".toList, [], false, "No such directory!\nNo such directory!\n".toList⟩
        [".".toList, "a".toList] ∧
    (handle_hop_args example_env ⟨"/r".toList, [], false, []⟩
      ["-".toList, "xx".toList, ".".toList, "a".toList]).2 =
      ⟨"/r/a".toList, "/r".toList, true, "No such directory!\nNo such directory!\n".toList⟩ :=
  ⟨(hop_failed_argument example_env ⟨"/r".toList, [], false, []⟩ ["-".toList] "xx".toList
      [".".toList, "a".toList] (Or.inr (Or.inr ⟨by decide, "xx".toList, by decide, by decide⟩))).2.1,
   by decide⟩

theorem hop_step_changed (env : DirEnv) (s : HopState) (a : CStr)
    (hsucc : hop_changes env s a = true) (hobs : getcwd_buf env s.cwd ≠ []) :
    (hop_step env s a).prev_cwd = getcwd_buf env s.cwd ∧
    (hop_step env s a).prev_cwd_set = true := by
  unfold hop_changes at hsucc
  simp only [Bool.and_eq_true, decide_eq_true_eq] at hsucc
  obtain ⟨hne, hm⟩ := hsucc
  rw [hop_step_eq, if_neg hne]
  cases ht : hop_target env s a with
  | none => rw [ht] at hm; exact absurd hm (by simp)
  | some t =>
    rw [ht] at hm
    dsimp only at hm ⊢
    cases hc : env.chdir s.cwd t with
    | none => rw [hc] at hm; exact absurd hm (by simp)
    | some d =>
      rw [do_chdir_done env s t d hc hobs]
      exact ⟨rfl, rfl⟩

/-- A step that changes no directory leaves everything but the output as it was. -/
theorem hop_step_unchanged (env : DirEnv) (s : HopState) (a : CStr)
    (h : hop_changes env s a = false) :
    ∃ o, hop_step env s a = { s with out := o } := by
  by_cases hdot : a = ".".toList
  · subst hdot
    exact ⟨s.out, hop_step_dot env s⟩
  · exact ⟨_, hop_step_failed env s a hdot h⟩

theorem handle_hop_args_loop_unchanged (env : DirEnv) (post : List CStr) (s : HopState)
    (h : ∀ b ∈ post, hop_changes env s b = false) :
    ∃ o, handle_hop_args_loop env s post = { s with out := o } := by
  induction post generalizing s with
  | nil => exact ⟨s.out, rfl⟩
  | cons b post ih =>
    obtain ⟨o, ho⟩ := hop_step_unchanged env s b (h b (List.mem_cons_self _ _))
    have hloop : handle_hop_args_loop env s (b :: post) =
        handle_hop_args_loop env (hop_step env s b) post := rfl
    rw [hloop, ho]
    obtain ⟨o2, ho2⟩ := ih { s with out := o }
      (fun c hc => h c (List.mem_cons_of_mem _ hc))
    exact ⟨o2, ho2⟩

/-- C18, amended: in a `hop` call let `a` be the last argument whose directory change
succeeds (it comes after `pre`, and no argument of `post` changes the directory), and let
`getcwd` have succeeded just before that change. After the call `prev_cwd` is set and
holds the working directory `getcwd` reported just before that last change. When no
argument before `a` changed the directory, this is the working directory in which the
call started, so that `prev_cwd` is what `getcwd` reports there. The same holds for `hop`
without argument when `HOME` is set and can be entered. -/
theorem hop_prev_cwd (env : DirEnv) (s : HopState) (pre : List CStr) (a : CStr)
    (post : List CStr)
    (hsucc : hop_changes env (handle_hop_args_loop env s pre) a = true)
    (hlast : ∀ b ∈ post, hop_changes env (hop_step env (handle_hop_args_loop env s pre) a) b =
      false)
    (hobs : getcwd_buf env (handle_hop_args_loop env s pre).cwd ≠ []) :
    (handle_hop_args env s (pre ++ a :: post)).2.prev_cwd =
      getcwd_buf env (handle_hop_args_loop env s pre).cwd ∧
    (handle_hop_args env s (pre ++ a :: post)).2.prev_cwd_set = true ∧
    ((∀ b ∈ pre, hop_changes env s b = false) →
      (handle_hop_args env s (pre ++ a :: post)).2.prev_cwd = getcwd_buf env s.cwd) ∧
    (∀ hm d, env.home = some hm → env.chdir s.cwd hm = some d → getcwd_buf env s.cwd ≠ [] →
      (handle_hop_args env s []).2.prev_cwd = getcwd_buf env s.cwd ∧
      (handle_hop_args env s []).2.prev_cwd_set = true) := by
  have hstep := hop_step_changed env _ a hsucc hobs
  obtain ⟨o, ho⟩ := handle_hop_args_loop_unchanged env post _ hlast
  have hprev : (handle_hop_args env s (pre ++ a :: post)).2.prev_cwd =
      getcwd_buf env (handle_hop_args_loop env s pre).cwd := by
    rw [handle_hop_args_nonempty, ho]
    exact hstep.1
  refine ⟨hprev, ?_, ?_, ?_⟩
  · rw [handle_hop_args_nonempty, ho]
    exact hstep.2
  · intro hpre
    obtain ⟨o1, ho1⟩ := handle_hop_args_loop_unchanged env pre s hpre
    rw [hprev, ho1]
  · intro hm d hh hc hg
    unfold handle_hop_args
    simp only [hh]
    rw [do_chdir_done env s hm d hc hg]
    exact ⟨rfl, rfl⟩

/-- From `/r`, `hop xx a xy`: only `a` changes the directory, and the previous directory
afterwards is `/r`, where the call started. -/
theorem hop_prev_cwd_witness :
    (handle_hop_args example_env ⟨"/r".toList, [], false, []⟩
      (["xx".toList] ++ "a".toList :: ["xy".toList])).2.prev_cwd = "/r".toList :=
  (hop_prev_cwd example_env ⟨"/r".toList, [], false, []⟩ ["xx".toList] "a".toList
    ["xy".toList] (by decide) (by decide) (by decide)).2.2.1 (by decide)

/-- C18, as stated, fails: from `/r`, `hop a b` changes the directory twice, and the
previous directory afterwards is `/r/a`, the directory before the last change, and not
`/r`, the directory observed before the call. -/
theorem hop_prev_cwd_counterexample :
    getcwd_buf example_env "/r".toList = "/r".toList ∧
    hop_changes example_env ⟨"/r".toList, [], false, []⟩ "a".toList = true ∧
    (handle_hop_args example_env ⟨"/r".toList, [], false, []⟩
      ["a".toList, "b".toList]).2 = ⟨"/r/a/b".toList, "/r/a".toList, true, []⟩ ∧
    (handle_hop_args example_env ⟨"/r".toList, [], false, []⟩
      ["a".toList, "b".toList]).2.prev_cwd ≠ "/r".toList := by
  decide

/-! ### `reveal`: flags and directory indicator -/

theorem reveal_cluster_spec (cs : CStr) (a l : Bool) :
    reveal_cluster a l cs =
      if cs.any (fun c => c != 'a' && c != 'l') = true then none
      else some (a || cs.contains 'a', l || cs.contains 'l') := by
  induction cs generalizing a l with
  | nil => simp [reveal_cluster]
  | cons c cs ih =>
    rw [reveal_cluster]
    by_cases ha : c = 'a'
    · subst ha
      rw [if_pos rfl, ih]
      simp
    · by_cases hl : c = 'l'
      · subst hl
        rw [if_neg (by decide), if_pos rfl, ih]
        simp
      · rw [if_neg ha, if_neg hl]
        simp [ha, hl]

theorem is_flag_cluster_iff (t : CStr) :
    is_flag_cluster t = true ↔ (t.head? = some '-' ∧ t.tail ≠ []) := by
  unfold is_flag_cluster
  cases t with
  | nil => simp
  | cons c cs =>
    cases cs with
    | nil => simp
    | cons d ds => simp

theorem list_directory_ret (env : DirEnv) (qsort : (CStr → CStr → Int) → List CStr → List CStr)
    (cwd dirpath : CStr) (show_all line_by_line : Bool) :
    (list_directory env qsort cwd dirpath show_all line_by_line).1 = 1 := by
  unfold list_directory
  split
  · rfl
  · dsimp only
    split_ifs <;> rfl

/-- What the argument loop of `handle_reveal_args` computes, entered with at most one
directory indicator seen. -/
theorem reveal_args_loop_spec (args : List CStr) (r : RevealArgs) (hr : r.nonflag_count ≤ 1) :
    reveal_args_loop r args =
      if args.any bad_cluster = true ∨
          2 ≤ r.nonflag_count + (args.filter (fun t => !is_flag_cluster t)).length then none
      else some ⟨r.show_all || args.any (has_flag 'a'), r.line_by_line || args.any (has_flag 'l'),
        (match (args.filter (fun t => !is_flag_cluster t)).head? with
          | some d => some d
          | none => r.dir_arg),
        r.nonflag_count + (args.filter (fun t => !is_flag_cluster t)).length⟩ := by
  induction args generalizing r with
  | nil =>
    have h2 : ¬ (2 ≤ r.nonflag_count) := by omega
    simp [reveal_args_loop, h2]
  | cons t rest ih =>
    rw [reveal_args_loop]
    by_cases hf : t.head? = some '-' ∧ t.tail ≠ []
    · have hflag : is_flag_cluster t = true := (is_flag_cluster_iff t).mpr hf
      rw [if_pos hf, reveal_cluster_spec]
      by_cases hbad : t.tail.any (fun c => c != 'a' && c != 'l') = true
      · have hb : bad_cluster t = true := by simp only [bad_cluster, hflag, hbad, Bool.and_self]
        rw [if_pos hbad, if_pos]
        left
        simp only [List.any_cons, hb, Bool.true_or]
      · have hb : bad_cluster t = false := by
          simp only [bad_cluster, hflag, Bool.true_and]
          simpa using hbad
        rw [if_neg hbad]
        dsimp only
        rw [ih ⟨r.show_all || t.tail.contains 'a', r.line_by_line || t.tail.contains 'l',
          r.dir_arg, r.nonflag_count⟩ hr]
        simp only [List.any_cons, hb, Bool.false_or, List.filter_cons, hflag, Bool.not_true,
          Bool.false_eq_true, if_false, has_flag, Bool.true_and, Bool.or_assoc]
    · have hflag : is_flag_cluster t = false := by
        cases h : is_flag_cluster t with
        | false => rfl
        | true => exact absurd ((is_flag_cluster_iff t).mp h) hf
      have hb : bad_cluster t = false := by simp only [bad_cluster, hflag, Bool.false_and]
      have hfilter : (t :: rest).filter (fun t => !is_flag_cluster t) =
          t :: rest.filter (fun t => !is_flag_cluster t) := by
        simp only [List.filter_cons, hflag, Bool.not_false, if_true]
      rw [if_neg hf, hfilter]
      by_cases hc : r.nonflag_count + 1 > 1
      · rw [if_pos hc, if_pos]
        right
        simp only [List.length_cons]
        omega
      · rw [if_neg hc, ih ⟨r.show_all, r.line_by_line, some t, r.nonflag_count + 1⟩
          (by show r.nonflag_count + 1 ≤ 1; omega)]
        have hzero : r.nonflag_count = 0 := by omega
        simp only [List.any_cons, hb, Bool.false_or, has_flag, hflag, Bool.false_and,
          List.length_cons, List.head?_cons, hzero]
        by_cases hcond : rest.any bad_cluster = true ∨
            2 ≤ 0 + 1 + (rest.filter (fun t => !is_flag_cluster t)).length
        · rw [if_pos hcond, if_pos]
          rcases hcond with h | h
          · exact Or.inl h
          · right; omega
        · have hcond2 : ¬ (rest.any bad_cluster = true ∨
              2 ≤ 0 + ((rest.filter (fun t => !is_flag_cluster t)).length + 1)) := by
            intro h
            apply hcond
            rcases h with h | h
            · exact Or.inl h
            · right; omega
          rw [if_neg hcond, if_neg hcond2]
          have hlen : (rest.filter (fun t => !is_flag_cluster t)).length = 0 := by
            by_contra hne
            apply hcond
            right
            omega
          have hnil := List.length_eq_zero.mp hlen
          simp only [hnil, List.head?_nil, List.length_nil]

theorem any_bad_cluster_iff (args : List CStr) :
    args.any bad_cluster = true ↔
      ∃ t ∈ args, 2 ≤ t.length ∧ t.head? = some '-' ∧ ∃ c ∈ t.tail, c ≠ 'a' ∧ c ≠ 'l' := by
  simp only [List.any_eq_true, bad_cluster, is_flag_cluster, Bool.and_eq_true,
    decide_eq_true_eq, beq_iff_eq, bne_iff_ne, ne_eq]
  constructor
  · rintro ⟨t, ht, ⟨h2, hh⟩, c, hc, hca, hcl⟩
    exact ⟨t, ht, h2, hh, c, hc, hca, hcl⟩
  · rintro ⟨t, ht, h2, hh, c, hc, hca, hcl⟩
    exact ⟨t, ht, ⟨h2, hh⟩, c, hc, hca, hcl⟩

/-- C20: `handle_reveal_args` returns 0 exactly when some argument of at least two
characters that starts with a dash has a character other than `a` and `l` after the dash,
or at least two arguments are not flag clusters (a lone `-` is none); it then prints
`reveal: Invalid Syntax!` and nothing else. Otherwise it lists the directory its only
directory indicator stands for (the working directory without one), showing hidden
entries exactly when some flag cluster contains `a` and printing one entry per line
exactly when some flag cluster contains `l`: the outcome depends on the flag clusters only
through these two facts. -/
theorem handle_reveal_args_flags (env : DirEnv)
    (qsort : (CStr → CStr → Int) → List CStr → List CStr) (s : HopState) (args : List CStr) :
    ((handle_reveal_args env qsort s args).1 = 0 ↔
      ((∃ t ∈ args, 2 ≤ t.length ∧ t.head? = some '-' ∧ ∃ c ∈ t.tail, c ≠ 'a' ∧ c ≠ 'l') ∨
        2 ≤ (args.filter (fun t => !is_flag_cluster t)).length)) ∧
    ((handle_reveal_args env qsort s args).1 = 0 →
      handle_reveal_args env qsort s args = (0, "reveal: Invalid Syntax!\n".toList)) ∧
    ((handle_reveal_args env qsort s args).1 ≠ 0 →
      handle_reveal_args env qsort s args =
        match reveal_target env s (args.filter (fun t => !is_flag_cluster t)).head? with
        | none => (1, "No such directory!\n".toList)
        | some target =>
          list_directory env qsort s.cwd target (args.any (has_flag 'a'))
            (args.any (has_flag 'l'))) := by
  have hspec := reveal_args_loop_spec args ⟨false, false, none, 0⟩ (Nat.zero_le 1)
  simp only [Nat.zero_add, Bool.false_or] at hspec
  by_cases hinv : args.any bad_cluster = true ∨
      2 ≤ (args.filter (fun t => !is_flag_cluster t)).length
  · rw [if_pos hinv] at hspec
    have hres : handle_reveal_args env qsort s args =
        (0, "reveal: Invalid Syntax!\n".toList) := by
      unfold handle_reveal_args
      rw [hspec]
    refine ⟨⟨fun _ => ?_, fun _ => by rw [hres]⟩, fun _ => hres, fun h => ?_⟩
    · rcases hinv with h | h
      · exact Or.inl ((any_bad_cluster_iff args).mp h)
      · exact Or.inr h
    · rw [hres] at h
      exact absurd rfl h
  · rw [if_neg hinv] at hspec
    have hres : handle_reveal_args env qsort s args =
        match reveal_target env s (args.filter (fun t => !is_flag_cluster t)).head? with
        | none => (1, "No such directory!\n".toList)
        | some target =>
          list_directory env qsort s.cwd target (args.any (has_flag 'a'))
            (args.any (has_flag 'l')) := by
      unfold handle_reveal_args
      rw [hspec]
      dsimp only
      cases (args.filter (fun t => !is_flag_cluster t)).head? <;> rfl
    have hret : (handle_reveal_args env qsort s args).1 = 1 := by
      rw [hres]
      split
      · rfl
      · exact list_directory_ret _ _ _ _ _ _
    refine ⟨⟨fun h => ?_, fun h => ?_⟩, fun h => ?_, fun _ => hres⟩
    · rw [hret] at h
      exact absurd h (by decide)
    · exfalso
      apply hinv
      rcases h with h | h
      · exact Or.inl ((any_bad_cluster_iff args).mpr h)
      · exact Or.inr h
    · rw [hret] at h
      exact absurd h (by decide)

/-- The directory `/r` holds `b`, `.git` and `a`: `reveal -la`, `-al`, `-l -a` and
`-aaaa -l` all print the three names one per line; `reveal -lx` and `reveal a -` are
refused. -/
theorem handle_reveal_args_flags_witness :
    handle_reveal_args example_dir insertion_qsort_names ⟨"/r".toList, [], false, []⟩
      ["-la".toList] = (1, ".git\na\nb\n".toList) ∧
    handle_reveal_args example_dir insertion_qsort_names ⟨"/r".toList, [], false, []⟩
      ["-al".toList] = (1, ".git\na\nb\n".toList) ∧
    handle_reveal_args example_dir insertion_qsort_names ⟨"/r".toList, [], false, []⟩
      ["-l".toList, "-a".toList] = (1, ".git\na\nb\n".toList) ∧
    handle_reveal_args example_dir insertion_qsort_names ⟨"/r".toList, [], false, []⟩
      ["-aaaa".toList, "-l".toList] = (1, ".git\na\nb\n".toList) ∧
    handle_reveal_args example_dir insertion_qsort_names ⟨"/r".toList, [], false, []⟩
      ["-lx".toList] = (0, "reveal: Invalid Syntax!\n".toList) ∧
    handle_reveal_args example_dir insertion_qsort_names ⟨"/r".toList, [], false, []⟩
      ["a".toList, "-".toList] = (0, "reveal: Invalid Syntax!\n".toList) :=
  ⟨by decide, by decide, by decide, by decide,
   (handle_reveal_args_flags example_dir insertion_qsort_names ⟨"/r".toList, [], false, []⟩
      ["-lx".toList]).2.1 (by decide),
   (handle_reveal_args_flags example_dir insertion_qsort_names ⟨"/r".toList, [], false, []⟩
      ["a".toList, "-".toList]).2.1 (by decide)⟩

/-! ### `list_directory` -/

theorem chain_pairwise_names (l : List CStr) (h : l.Chain' (fun a b => strcmp a b ≤ 0)) :
    l.Pairwise (fun a b => strcmp a b ≤ 0) := by
  have : IsTrans CStr (fun a b => strcmp a b ≤ 0) :=
    ⟨fun a b c hab hbc => strcmp_trans _ _ _ hab hbc⟩
  exact List.chain'_iff_pairwise.mp h

/-- The entries `list_directory` keeps, in the words of the specification. -/
theorem list_directory_filter (show_all : Bool) (ents : List CStr) :
    ents.filter (fun name =>
      (show_all || !(name.head? == some '.')) && !(name == ".".toList) &&
        !(name == "..".toList)) =
    ents.filter (fun name => decide (name ≠ ".".toList ∧ name ≠ "..".toList ∧
      (show_all = true ∨ name.head? ≠ some '.'))) := by
  apply List.filter_congr
  intro name _
  rw [Bool.eq_iff_iff]
  simp only [Bool.and_eq_true, Bool.or_eq_true, Bool.not_eq_true', beq_eq_false_iff_ne,
    decide_eq_true_eq, ne_eq]
  tauto

/-- C21: `readdir` yields the names `ents` of an existing directory and `qsort` is a sort
(on the array of the names kept its result is a permutation in which each element
compares `≤ 0` with the next). `list_directory` returns 1 and prints the names other than
`.` and `..` and, unless `show_all` is set, other than those beginning with a dot, in
non-decreasing `strcmp` order: each followed by a newline with `line_by_line`, else joined
by single blanks and followed by one newline; when no name is kept, one newline. -/
theorem list_directory_spec (env : DirEnv)
    (qsort : (CStr → CStr → Int) → List CStr → List CStr) (cwd dirpath : CStr)
    (show_all line_by_line : Bool) (ents : List CStr)
    (hdir : env.readdir cwd dirpath = some ents)
    (hperm : (qsort strcmp (ents.filter (fun name => decide (name ≠ ".".toList ∧
      name ≠ "..".toList ∧ (show_all = true ∨ name.head? ≠ some '.'))))).Perm
      (ents.filter (fun name => decide (name ≠ ".".toList ∧ name ≠ "..".toList ∧
        (show_all = true ∨ name.head? ≠ some '.')))))
    (hsort : (qsort strcmp (ents.filter (fun name => decide (name ≠ ".".toList ∧
      name ≠ "..".toList ∧ (show_all = true ∨ name.head? ≠ some '.'))))).Chain'
      (fun a b => strcmp a b ≤ 0)) :
    ∃ sorted : List CStr,
      sorted.Perm (ents.filter (fun name => decide (name ≠ ".".toList ∧
        name ≠ "..".toList ∧ (show_all = true ∨ name.head? ≠ some '.')))) ∧
      sorted.Pairwise (fun a b => strcmp a b ≤ 0) ∧
      list_directory env qsort cwd dirpath show_all line_by_line =
        (1, if sorted = [] then ['\n']
          else if line_by_line = true then (sorted.map (fun n => n ++ ['\n'])).flatten
          else [' '].intercalate sorted ++ ['\n']) := by
  refine ⟨_, hperm, chain_pairwise_names _ hsort, ?_⟩
  unfold list_directory
  simp only [hdir]
  rw [list_directory_filter]
  by_cases hnil : ents.filter (fun name => decide (name ≠ ".".toList ∧ name ≠ "..".toList ∧
      (show_all = true ∨ name.head? ≠ some '.'))) = []
  · have hq : qsort strcmp (ents.filter (fun name => decide (name ≠ ".".toList ∧
        name ≠ "..".toList ∧ (show_all = true ∨ name.head? ≠ some '.')))) = [] := by
      have := hperm
      rw [hnil] at this
      rw [hnil]
      exact List.Perm.eq_nil this
    rw [if_pos hnil, if_pos hq]
  · have hq : ¬ (qsort strcmp (ents.filter (fun name => decide (name ≠ ".".toList ∧
        name ≠ "..".toList ∧ (show_all = true ∨ name.head? ≠ some '.')))) = []) := by
      intro h
      rw [h] at hperm
      exact hnil (List.Perm.nil_eq hperm).symm
    rw [if_neg hnil, if_neg hq]
    cases line_by_line <;> simp

/-- The directory `/r` holds `.`, `..`, `b`, `.git` and `a`: without flags `a b` is
printed on one line, with both flags `.git`, `a`, `b` on a line each. -/
theorem list_directory_spec_witness :
    (∃ sorted : List CStr,
      sorted.Perm ["b".toList, "a".toList] ∧
      sorted.Pairwise (fun a b => strcmp a b ≤ 0) ∧
      list_directory example_dir insertion_qsort_names [] "/r".toList false false =
        (1, if sorted = [] then ['\n']
          else if false = true then (sorted.map (fun n => n ++ ['\n'])).flatten
          else [' '].intercalate sorted ++ ['\n'])) ∧
    list_directory example_dir insertion_qsort_names [] "/r".toList false false =
      (1, "a b\n".toList) ∧
    list_directory example_dir insertion_qsort_names [] "/r".toList true true =
      (1, ".git\na\nb\n".toList) :=
  ⟨list_directory_spec example_dir insertion_qsort_names [] "/r".toList false false
      [".".toList, "..".toList, "b".toList, ".git".toList, "a".toList] (by decide) (by decide)
      (List.Pairwise.chain' (by decide)),
   by decide, by decide⟩

/-! ### `ping` -/

theorem tmod_32_bounds (a : Int) : -32 < Int.tmod a 32 ∧ Int.tmod a 32 < 32 := by
  refine ⟨?_, Int.tmod_lt_of_pos a (by decide)⟩
  cases a with
  | ofNat n =>
    have h : 0 ≤ Int.tmod (Int.ofNat n) 32 := Int.tmod_nonneg 32 (Int.ofNat_nonneg n)
    omega
  | negSucc m =>
    have h : Int.tmod (Int.negSucc m) 32 = -(((m + 1) % 32 : Nat) : Int) := rfl
    have hlt : (m + 1) % 32 < 32 := Nat.mod_lt _ (by decide)
    omega

/-- C22: for every value `sig` the signal number computed by `ping` lies between 1 and 32
and is congruent to `sig` modulo 32; 0, 32 and 64 give 32. Both the `ping` of
`exec_run_line` and the `ping` run as a pipeline stage pass this number to `kill` for a
signal argument that `strtol` reads as `sig`. -/
theorem ping_signal_spec (sig : Int) :
    1 ≤ ping_signal sig ∧ ping_signal sig ≤ 32 ∧ (ping_signal sig - sig) % 32 = 0 ∧
    ping_signal 0 = 32 ∧ ping_signal 32 = 32 ∧ ping_signal 64 = 32 ∧
    ∀ (kill : Int → Int → KillResult) (name p s : CStr), (strtol p).endptr = [] →
      (strtol s).endptr = [] → (strtol s).val = sig →
      (exec_run_line_ping kill [name, p, s]).killed =
        some (to_int (strtol p).val, ping_signal sig) ∧
      (run_cmd_pipeline_ping kill [name, p, s]).killed =
        some (to_int (strtol p).val, ping_signal sig) := by
  have hb := tmod_32_bounds sig
  have hdef := Int.tmod_def sig 32
  have hto : to_int (Int.tmod sig 32) = Int.tmod sig 32 :=
    to_int_of_range _ (by unfold INT_MIN; omega) (by unfold INT_MAX; omega)
  refine ⟨?_, ?_, ?_, by decide, by decide, by decide, ?_⟩
  · unfold ping_signal
    simp only [hto]
    split_ifs <;> omega
  · unfold ping_signal
    simp only [hto]
    split_ifs <;> omega
  · unfold ping_signal
    simp only [hto]
    split_ifs <;> omega
  · intro kill name p s hp hs hv
    unfold exec_run_line_ping run_cmd_pipeline_ping
    simp only [hp, hs, hv, ne_eq, not_true_eq_false, if_false]
    constructor <;> cases kill (to_int (strtol p).val) (ping_signal sig) <;> rfl

/-- The calls `ping 4242 64` and `ping 4242 -1`: signals 32 and 31 go to process 4242. -/
theorem ping_signal_spec_witness :
    (exec_run_line_ping (fun _ _ => KillResult.ok)
      ["ping".toList, "4242".toList, "64".toList]).killed = some (4242, 32) ∧
    (run_cmd_pipeline_ping (fun _ _ => KillResult.ok)
      ["ping".toList, "4242".toList, "-1".toList]).killed = some (4242, 31) :=
  ⟨((ping_signal_spec 64).2.2.2.2.2.2 (fun _ _ => KillResult.ok) "ping".toList "4242".toList
      "64".toList (by decide) (by decide) (by decide)).1.trans (by decide),
   ((ping_signal_spec (-1)).2.2.2.2.2.2 (fun _ _ => KillResult.ok) "ping".toList
      "4242".toList "-1".toList (by decide) (by decide) (by decide)).2.trans (by decide)⟩

/-- C23 fails on the code: `ping 4294967295 9` calls `kill(-1, 9)`, the cast to `pid_t`
having cut the value to 32 bits, and then reports signal 9 as sent to process 4294967295.
For a pid argument inside the range of `int` the pid passed is the value of the
argument. -/
theorem ping_pid_truncated :
    exec_run_line_ping (fun _ _ => KillResult.ok)
      ["ping".toList, "4294967295".toList, "9".toList] =
      ⟨some (-1, 9), "Sent signal 9 to process with pid 4294967295\n".toList, 0⟩ ∧
    decimal_integer "4294967295".toList = some 4294967295 ∧
    (∀ (kill : Int → Int → KillResult) (name p s : CStr) (v : Int),
      decimal_integer (p.dropWhile isspace) = some v → INT_MIN ≤ v → v ≤ INT_MAX →
      (strtol s).endptr = [] →
      (exec_run_line_ping kill [name, p, s]).killed = some (v, ping_signal (strtol s).val)) := by
  refine ⟨by decide, by decide, ?_⟩
  intro kill name p s v hv hlo hhi hs
  have hp := strtol_decimal p v hv
  have hclamp : max LONG_MIN (min LONG_MAX v) = v := by
    unfold INT_MIN at hlo
    unfold INT_MAX at hhi
    unfold LONG_MIN LONG_MAX
    omega
  rw [hclamp] at hp
  unfold exec_run_line_ping
  simp only [hp, hs, ne_eq, not_true_eq_false, if_false, to_int_of_range v hlo hhi]
  cases kill v (ping_signal (strtol s).val) <;> rfl

/-- C24 fails on the code: the table holds one job, with id 1, and none with id
4294967297. `fg 4294967297` is read as job number 1, the cast to `int` having cut the
value to 32 bits: job 1 is brought to the foreground and leaves the table, and
`bg 4294967297` resumes the stopped job 1. For an argument inside the range of `int` that
is the id of no job, `No such job` is printed and nothing else changes. -/
theorem fg_bg_job_num_truncated :
    decimal_integer "4294967297".toList = some 4294967297 ∧
    find_job_by_id [⟨100, 1, "sleep 5".toList, true⟩] 4294967297 = none ∧
    fg_bg_job_num ["fg".toList, "4294967297".toList]
      ⟨[⟨100, 1, "sleep 5".toList, true⟩], 2, 0, []⟩ = Except.ok 1 ∧
    exec_run_line_fg_bg KillResult.ok (WaitResult.changed (WaitStatus.exited 0))
      ["fg".toList, "4294967297".toList] ⟨[⟨100, 1, "sleep 5".toList, true⟩], 2, 0, []⟩ =
      ⟨[], 2, 0, "sleep 5\n".toList⟩ ∧
    exec_run_line_fg_bg KillResult.ok WaitResult.none
      ["bg".toList, "4294967297".toList] ⟨[⟨100, 1, "sleep 5".toList, true⟩], 2, 0, []⟩ =
      ⟨[⟨100, 1, "sleep 5".toList, false⟩], 2, 0, "[1] sleep 5 &\n".toList⟩ ∧
    (∀ (kill : KillResult) (wait : WaitResult) (name k : CStr) (n : Int) (σ : JobState),
      decimal_integer (k.dropWhile isspace) = some n → INT_MIN ≤ n → n ≤ INT_MAX →
      (∀ j ∈ σ.job_list, j.job_id ≠ n) →
      exec_run_line_fg_bg kill wait [name, k] σ =
        { σ with out := σ.out ++ "No such job\n".toList }) := by
  refine ⟨by decide, by decide, by rfl, by decide, by decide, ?_⟩
  intro kill wait name k n σ hk hlo hhi hno
  have hnum := fg_bg_job_num_decimal name k n σ ⟨hlo, hhi⟩ hk
  have hfind : ∀ l : List bg_job, (∀ j ∈ l, j.job_id ≠ n) → find_job_by_id l n = none := by
    intro l
    induction l with
    | nil => intro _; rfl
    | cons a l ih =>
      intro h
      rw [find_job_by_id, if_neg (h a (List.mem_cons_self _ _)),
        ih (fun j hj => h j (List.mem_cons_of_mem _ hj))]
      rfl
  unfold exec_run_line_fg_bg
  rw [hnum]
  unfold fg_bg_on_job
  simp only [hfind σ.job_list hno]

/-! ### The history file: loading, and saving then loading -/

/-- C25 fails on the code: `load_history_from_file` keeps the lines of the file as they
are. A history file that holds the line `ls` twice gives a buffer with two equal entries,
and one that holds the line `log` a buffer whose entry is an atomic named `log`. Only the
bound holds for every content: the buffer `intrinsics_init` establishes has at most
`HIST_MAX` entries. -/
theorem intrinsics_init_unchecked :
    (∀ (home : Option CStr) (fs : FileSys) (h : List CStr),
      (intrinsics_init home fs h).length ≤ HIST_MAX) ∧
    intrinsics_init (some "/root".toList) (read_only_history "ls\nls\n".toList) [] =
      ["ls".toList, "ls".toList] ∧
    ¬ HistoryInv (intrinsics_init (some "/root".toList)
      (read_only_history "ls\nls\n".toList) []) ∧
    intrinsics_init (some "/root".toList) (read_only_history "log\n".toList) [] =
      ["log".toList] ∧
    tokens "log".toList = [TOK_NAME "log".toList] ∧
    line_contains_atomic_log "log".toList = true := by
  refine ⟨?_, by decide, ?_, by decide, by decide, by decide⟩
  · intro home fs h
    unfold intrinsics_init load_history_from_file free_history_in_memory
    cases join_path_home home HIST_FILENAME with
    | none => simp
    | some path =>
      dsimp only
      cases fs.content path with
      | none => simp
      | some text =>
        simp only [List.nil_append, List.length_drop]
        omega
  · have h : intrinsics_init (some "/root".toList) (read_only_history "ls\nls\n".toList) [] =
        ["ls".toList, "ls".toList] := by decide
    rw [h]
    unfold HistoryInv
    intro hinv
    exact absurd hinv.2 (by decide)

theorem getline_line (e r : CStr) (he : ∀ c ∈ e, c ≠ '\n') :
    getline (e ++ '\n' :: r) = some (e ++ ['\n'], r) := by
  have hne : ¬ (e ++ '\n' :: r = []) := by simp
  have hp : ∀ c ∈ e, (fun c => c != '\n') c = true := by
    intro c hc
    simpa using he c hc
  have hr : ∀ c, ('\n' :: r).head? = some c → (fun c => c != '\n') c = false := by
    intro c hc
    simp only [List.head?_cons, Option.some.injEq] at hc
    subst hc
    rfl
  unfold getline
  rw [if_neg hne, dropWhile_stop _ e _ hp hr, takeWhile_stop _ e _ hp hr]

theorem trim_line_end_line (e : CStr) (he : ∀ c ∈ e, c ≠ '\n' ∧ c ≠ '\r') :
    trim_line_end (e ++ ['\n']) = e := by
  unfold trim_line_end
  rw [List.reverse_append]
  simp only [List.reverse_cons, List.reverse_nil, List.nil_append, List.singleton_append]
  rw [List.dropWhile_cons_of_pos (by decide)]
  cases hrev : e.reverse with
  | nil =>
    have : e = [] := List.reverse_eq_nil_iff.mp hrev
    simp [this]
  | cons c t =>
    have hc : c ∈ e := by
      rw [← List.mem_reverse, hrev]
      exact List.mem_cons_self _ _
    have hd : List.dropWhile (fun c => c == '\n' || c == '\r') (c :: t) = c :: t := by
      simp [List.dropWhile_cons, (he c hc).1, (he c hc).2]
    rw [hd, ← hrev, List.reverse_reverse]

theorem history_lines_length (h : List CStr) : h.length ≤ (history_lines h).length := by
  induction h with
  | nil => simp [history_lines]
  | cons e rest ih =>
    simp only [history_lines, List.length_cons, List.length_append]
    omega

/-- The loading loop on a file that `save_history_to_file` wrote. -/
theorem load_history_loop_lines (h : List CStr) : ∀ (fuel : Nat) (tmp : List CStr),
    (history_lines h).length < fuel → (∀ e ∈ h, e ≠ [] ∧ ∀ c ∈ e, c ≠ '\n' ∧ c ≠ '\r') →
    tmp.length + h.length < HIST_MAX * 2 →
    load_history_loop fuel (history_lines h) tmp = tmp ++ h := by
  induction h with
  | nil =>
    intro fuel tmp hf _ _
    cases fuel with
    | zero => simp [load_history_loop]
    | succ f => simp [load_history_loop, history_lines, getline]
  | cons e rest ih =>
    intro fuel tmp hf hent hlen
    have he := hent e (List.mem_cons_self _ _)
    cases fuel with
    | zero => exact absurd hf (Nat.not_lt_zero _)
    | succ f =>
      have hf2 : (history_lines rest).length < f := by
        simp only [history_lines, List.length_append, List.length_cons] at hf
        omega
      have hfull : ¬ ((tmp ++ [e]).length ≥ HIST_MAX * 2) := by
        simp only [List.length_append, List.length_cons, List.length_nil] at hlen ⊢
        omega
      rw [history_lines, load_history_loop, getline_line e _ (fun c hc => (he.2 c hc).1)]
      dsimp only
      rw [trim_line_end_line e he.2, if_neg he.1, if_neg hfull,
        ih f (tmp ++ [e]) hf2 (fun x hx => hent x (List.mem_cons_of_mem _ hx))
          (by simp only [List.length_append, List.length_cons, List.length_nil] at hlen ⊢
              omega)]
      simp

theorem history_lines_flatten (h : List CStr) :
    history_lines h = (h.map (fun e => e ++ ['\n'])).flatten := by
  induction h with
  | nil => rfl
  | cons e rest ih => simp [history_lines, ih]

theorem load_history_lines (h : List CStr) (hlen : h.length ≤ HIST_MAX)
    (hent : ∀ e ∈ h, e ≠ [] ∧ ∀ c ∈ e, c ≠ '\n' ∧ c ≠ '\r')
    (hm : CStr) (fs : FileSys)
    (hcontent : fs.content (hm ++ '/' :: HIST_FILENAME) = some (history_lines h)) :
    load_history_from_file (some hm) fs [] = (0, h) := by
  unfold load_history_from_file join_path_home
  simp only [hcontent]
  rw [load_history_loop_lines h _ [] (Nat.lt_succ_self _) hent
    (by unfold HIST_MAX at hlen ⊢; simp only [List.length_nil]; omega)]
  have hz : ([] ++ h).length - HIST_MAX = 0 := by
    simp only [List.nil_append]
    omega
  rw [hz]
  rfl

theorem save_history_ok_iff (home : Option CStr) (fs : FileSys) (h : List CStr) :
    (save_history_to_file home fs h).1 = 0 ↔
      ∃ hm, home = some hm ∧ fs.writable (hm ++ '/' :: HIST_FILENAME) = true := by
  cases home with
  | none => simp [save_history_to_file, join_path_home]
  | some hm =>
    unfold save_history_to_file join_path_home
    dsimp only
    by_cases hw : fs.writable (hm ++ '/' :: HIST_FILENAME) = true
    · rw [if_pos hw]
      simp [hw]
    · rw [if_neg hw]
      simp [hw]

/-- C29: a buffer `h` of at most `HIST_MAX` entries, each non-empty and without CR and LF,
with `HOME` set to `hm` and the history file `hm/.osh_history` open to writing.
`save_history_to_file` returns 0 and leaves as the content of the history file exactly the
entries of `h`, oldest first, each followed by a newline, every other file being as
before; `load_history_from_file`, called with the empty buffer on the files that the save
left, returns 0 and the buffer is then exactly `h`.  The save returns 0 in no other case
than this one, and the load gives `h` on every file with this content. -/
theorem save_load_roundtrip (h : List CStr) (hlen : h.length ≤ HIST_MAX)
    (hent : ∀ e ∈ h, e ≠ [] ∧ ∀ c ∈ e, c ≠ '\n' ∧ c ≠ '\r')
    (hm : CStr) (fs : FileSys) (hw : fs.writable (hm ++ '/' :: HIST_FILENAME) = true) :
    (save_history_to_file (some hm) fs h).1 = 0 ∧
    (save_history_to_file (some hm) fs h).2.content (hm ++ '/' :: HIST_FILENAME) =
      some ((h.map (fun e => e ++ ['\n'])).flatten) ∧
    (∀ p, p ≠ hm ++ '/' :: HIST_FILENAME →
      (save_history_to_file (some hm) fs h).2.content p = fs.content p) ∧
    load_history_from_file (some hm) (save_history_to_file (some hm) fs h).2 [] = (0, h) ∧
    (∀ (home : Option CStr) (fs2 : FileSys),
      ((save_history_to_file home fs2 h).1 = 0 ↔
        ∃ hm2, home = some hm2 ∧ fs2.writable (hm2 ++ '/' :: HIST_FILENAME) = true) ∧
      ((save_history_to_file home fs2 h).1 = 0 →
        load_history_from_file home (save_history_to_file home fs2 h).2 [] = (0, h))) ∧
    (∀ (fs2 : FileSys) (hm2 : CStr),
      fs2.content (hm2 ++ '/' :: HIST_FILENAME) = some (history_lines h) →
      load_history_from_file (some hm2) fs2 [] = (0, h)) := by
  have hsaved : ∀ (hm2 : CStr) (fs2 : FileSys),
      fs2.writable (hm2 ++ '/' :: HIST_FILENAME) = true →
      save_history_to_file (some hm2) fs2 h =
        (0, { fs2 with content := fun p =>
          if p = hm2 ++ '/' :: HIST_FILENAME then some (history_lines h)
          else fs2.content p }) := by
    intro hm2 fs2 hw2
    unfold save_history_to_file join_path_home
    dsimp only
    rw [if_pos hw2]
  refine ⟨?_, ?_, ?_, ?_, ?_, ?_⟩
  · rw [hsaved hm fs hw]
  · rw [hsaved hm fs hw, ← history_lines_flatten]
    simp
  · intro p hp
    rw [hsaved hm fs hw]
    simp [hp]
  · apply load_history_lines h hlen hent
    rw [hsaved hm fs hw]
    simp
  · intro home fs2
    refine ⟨save_history_ok_iff home fs2 h, ?_⟩
    intro hok
    obtain ⟨hm2, rfl, hw2⟩ := (save_history_ok_iff home fs2 h).mp hok
    apply load_history_lines h hlen hent
    rw [hsaved hm2 fs2 hw2]
    simp
  · intro fs2 hm2 hc
    exact load_history_lines h hlen hent hm2 fs2 hc

/-- With `HOME=/root` and no file yet, saving the buffer `[pwd, ls -l]` returns 0 and
writes `pwd\nls -l\n` to `/root/.osh_history`; loading from the files left gives
`[pwd, ls -l]` again. -/
theorem save_load_roundtrip_witness :
    writable_files.content "/root/.osh_history".toList = none ∧
    (save_history_to_file (some "/root".toList) writable_files
      ["pwd".toList, "ls -l".toList]).1 = 0 ∧
    (save_history_to_file (some "/root".toList) writable_files
      ["pwd".toList, "ls -l".toList]).2.content "/root/.osh_history".toList =
      some "pwd\nls -l\n".toList ∧
    load_history_from_file (some "/root".toList)
      (save_history_to_file (some "/root".toList) writable_files
        ["pwd".toList, "ls -l".toList]).2 [] = (0, ["pwd".toList, "ls -l".toList]) :=
  ⟨rfl,
   (save_load_roundtrip ["pwd".toList, "ls -l".toList] (by decide) (by decide)
     "/root".toList writable_files rfl).1,
   by decide,
   (save_load_roundtrip ["pwd".toList, "ls -l".toList] (by decide) (by decide)
     "/root".toList writable_files rfl).2.2.2.1⟩

/-! ### The exit hook in a forked child -/

/-- C26 fails on the code: `cleanup_on_exit` tests `getpid() == shell_pid` only before it
prints `logout`; the loop that sends `SIGKILL` runs in every process that calls `exit`.
The wrapper child of a background group, whose pid differs from that of the shell, sends
`SIGKILL` to every job of the list it inherited. With the job `sleep 100` (pid 100) in the
table, the wrapper child 101 of a later background group calls `kill(100, SIGKILL)` when
it exits, and prints no `logout`. -/
theorem exit_hook_in_child :
    (∀ (p : Proc) (child_pid : Int), child_pid ≠ p.shell_pid →
      (background_child p child_pid none).1 =
        p.jobs.job_list.map (fun j => (j.pid, SIGKILL)) ∧
      (background_child p child_pid none).2.jobs.out = p.jobs.out) ∧
    background_child ⟨50, 50, ⟨[⟨100, 1, "sleep 100".toList, false⟩], 2, 0, []⟩⟩ 101 none =
      ([(100, 9)], ⟨101, 50, ⟨[], 2, 0, []⟩⟩) ∧
    cleanup_on_exit ⟨50, 50, ⟨[⟨100, 1, "sleep 100".toList, false⟩], 2, 0, []⟩⟩ =
      ([(100, 9)], ⟨50, 50, ⟨[], 2, 0, "\nlogout\n".toList⟩⟩) := by
  refine ⟨?_, by decide, by decide⟩
  intro p child_pid hne
  unfold background_child cleanup_on_exit fork_child
  simp [hne]

/-! ### The tokenizers of exec.c and parser.c and the lexer -/

theorem not_blank_special_eq_not_delim :
    (fun x => !is_blank x && !is_special_char x) = (fun x => !is_delim_char x) := by
  funext c
  unfold is_blank is_special_char is_delim_char
  cases (c == '|') <;> cases (c == '&') <;> cases (c == '>') <;> cases (c == '<') <;>
    cases (c == ';') <;> cases (c == ' ') <;> cases (c == '\t') <;> cases (c == '\r') <;>
    cases (c == '\n') <;> rfl

theorem parser_tokenize_special_loop_eq (fuel : Nat) : ∀ s : CStr,
    parser_tokenize_special_loop fuel s = tokenize_special_loop fuel s := by
  induction fuel with
  | zero => intro s; rfl
  | succ f ih =>
    intro s
    simp only [parser_tokenize_special_loop, tokenize_special_loop,
      not_blank_special_eq_not_delim]
    split
    · rfl
    · rename_i c tl heq
      by_cases h1 : c = '|'
      · subst h1; simp [ih]
      by_cases h2 : c = '<'
      · subst h2; simp [ih]
      by_cases h3 : c = ';'
      · subst h3; simp [ih]
      by_cases h4 : c = '&'
      · subst h4; simp [ih]
      by_cases h5 : c = '>'
      · subst h5
        simp only [Char.reduceEq, if_false, if_true, or_self]
        split <;> simp [ih]
      · simp [h1, h2, h3, h4, h5, ih]

theorem token_of_text_name {n : CStr} (h : IsName n) : token_of_text n = TOK_NAME n := by
  obtain ⟨h1, h2, h3, h4, h5, h6⟩ := name_not_operator h
  unfold token_of_text
  rw [if_neg h1, if_neg h2, if_neg h3, if_neg h4, if_neg h5, if_neg h6]

theorem token_of_text_tokenises {s : CStr} {ts : List Token} (h : Tokenises s ts) :
    ts.map (fun t => token_of_text (token_text t)) = ts := by
  induction h with
  | done => rfl
  | blank _ _ ih => exact ih
  | pipe _ ih => rw [List.map_cons, ih]; rfl
  | semi _ ih => rw [List.map_cons, ih]; rfl
  | amp _ ih => rw [List.map_cons, ih]; rfl
  | lt _ ih => rw [List.map_cons, ih]; rfl
  | gtgt _ ih => rw [List.map_cons, ih]; rfl
  | gt _ _ ih => rw [List.map_cons, ih]; rfl
  | name hn _ _ ih =>
    rw [List.map_cons, ih]
    simp only [token_text, token_of_text_name hn]

/-- C27: for every line the token array of the `tokenize_special` of exec.c, and that of
the `tokenize_special` of parser.c, hold the texts of the tokens that repeated calls of
`lexer_next` deliver up to `TOK_EOF`, in the same order; and reading the texts back as
exec.c does (operators by `strcmp`, all else a name) gives exactly the lexer's tokens,
kinds and name texts. So `validate_syntax` decides on the token sequence `exec_run_line`
works with. -/
theorem tokenizers_agree (line : CStr) :
    tokenize_special line = (tokens line).map token_text ∧
    parser_tokenize_special line = (tokens line).map token_text ∧
    (tokenize_special line).map token_of_text = tokens line ∧
    (parser_tokenize_special line).map token_of_text = tokens line ∧
    validate_syntax line = accepts GState.needName ((tokenize_special line).map token_of_text) := by
  have h1 := tokenize_special_eq line
  have h2 : parser_tokenize_special line = (tokens line).map token_text := by
    unfold parser_tokenize_special
    rw [parser_tokenize_special_loop_eq]
    exact h1
  have h3 : ((tokens line).map token_text).map token_of_text = tokens line := by
    rw [List.map_map]
    exact token_of_text_tokenises ((tokenises_iff line _).mpr rfl)
  refine ⟨h1, h2, ?_, ?_, ?_⟩
  · rw [h1, h3]
  · rw [h2, h3]
  · rw [h1, h3]
    exact validate_syntax_eq_accepts line

/-! ### The display text of a command group -/

/-- C28 fails on the code: the line `a|b` is accepted, its only command group has the
tokens `a`, `|`, `b`, and the display text built for it is `a | b`, five characters,
while the line has three: the text does not fit the `strlen(line) + 1` bytes allocated
for it. -/
theorem display_text_longer_than_line :
    validate_syntax "a|b".toList = true ∧
    exec_run_line_groups "a|b".toList =
      [⟨["a".toList, "|".toList, "b".toList], false, "a | b".toList⟩] ∧
    (∀ g ∈ exec_run_line_groups "a|b".toList, g.cmd.length = 5) ∧
    "a|b".toList.length = 3 := by
  decide

/-! ### The replay chain of `log execute` -/

theorem tokenize_whitespace_head (s : CStr) :
    (tokenize_whitespace s).head? =
      match s.dropWhile isspace with
      | [] => none
      | c :: tl => some ((c :: tl).takeWhile (fun x => !isspace x)) := by
  unfold tokenize_whitespace
  rw [tokenize_whitespace_loop]
  split <;> rfl

theorem dropWhile_append_of_ne_nil (p : Char → Bool) (S r : CStr)
    (h : S.dropWhile p ≠ []) : (S ++ r).dropWhile p = S.dropWhile p ++ r := by
  induction S with
  | nil => exact absurd rfl h
  | cons a S ih =>
    by_cases ha : p a = true
    · rw [List.cons_append, List.dropWhile_cons_of_pos ha, List.dropWhile_cons_of_pos ha]
      rw [List.dropWhile_cons_of_pos ha] at h
      exact ih h
    · rw [List.cons_append, List.dropWhile_cons_of_neg ha, List.dropWhile_cons_of_neg ha]
      rfl

theorem takeWhile_append_stop (p : Char → Bool) (A r : CStr)
    (hr : ∀ c, r.head? = some c → p c = false) : (A ++ r).takeWhile p = A.takeWhile p := by
  induction A with
  | nil =>
    cases r with
    | nil => rfl
    | cons c tl =>
      have hc : ¬ (p c = true) := by rw [hr c rfl]; decide
      rw [List.nil_append, List.takeWhile_cons_of_neg hc]
      rfl
  | cons a A ih =>
    by_cases ha : p a = true
    · rw [List.cons_append, List.takeWhile_cons_of_pos ha, List.takeWhile_cons_of_pos ha, ih]
    · rw [List.cons_append, List.takeWhile_cons_of_neg ha, List.takeWhile_cons_of_neg ha]

/-- The first word of a string that has one does not change when something that starts
with a white-space character is appended. -/
theorem first_word_append (S r : CStr) (hS : S.dropWhile isspace ≠ [])
    (hr : ∀ c, r.head? = some c → isspace c = true) :
    (tokenize_whitespace (S ++ r)).head? = (tokenize_whitespace S).head? := by
  rw [tokenize_whitespace_head, tokenize_whitespace_head,
    dropWhile_append_of_ne_nil isspace S r hS]
  cases hd : S.dropWhile isspace with
  | nil => exact absurd hd hS
  | cons c tl =>
    have ht := takeWhile_append_stop (fun x => !isspace x) (c :: tl) r
      (fun x hx => by simp only [hr x hx, Bool.not_true])
    simp only [List.cons_append] at ht ⊢
    rw [ht]

theorem first_word_append_tokens (S : CStr) (extra : List CStr)
    (hS : S.dropWhile isspace ≠ []) :
    (tokenize_whitespace (append_tokens S extra)).head? = (tokenize_whitespace S).head? := by
  rw [append_tokens_eq]
  apply first_word_append S _ hS
  intro c hc
  cases extra with
  | nil => simp at hc
  | cons t ts =>
    simp only [List.map_cons, List.flatten_cons, List.cons_append, List.head?_cons,
      Option.some.injEq] at hc
    subst hc
    rfl

theorem has_word_dropWhile (e w : CStr) (ws : List CStr)
    (h : tokenize_whitespace e = w :: ws) : e.dropWhile isspace ≠ [] := by
  intro hnil
  have hh := tokenize_whitespace_head e
  rw [h, hnil] at hh
  simp at hh

theorem handle_log_args_ret_two (h : List CStr) (args : List CStr)
    (h2 : (handle_log_args h args).ret = 2) :
    ∃ stored extra, stored ∈ h ∧
      (handle_log_args h args).reexec = some (append_tokens stored extra) ∧
      (handle_log_args h args).history = h := by
  unfold handle_log_args at h2 ⊢
  have hinv : (log_invalid h).ret ≠ 2 := by simp [log_invalid]
  match args with
  | [] => simp at h2
  | [a] =>
    dsimp only at h2
    split_ifs at h2
    · simp at h2
    · exact absurd h2 hinv
  | a :: k :: extra =>
    dsimp only at h2 ⊢
    split_ifs at h2 ⊢ with ha hb hc hd
    · exact absurd h2 hinv
    · exact absurd h2 hinv
    · exact absurd h2 hinv
    · cases hg : h.get? (h.length - (strtol k).val.toNat) with
      | none => rw [hg] at h2; exact absurd h2 hinv
      | some stored =>
        have hmem : stored ∈ h := List.get?_mem hg
        cases extra with
        | nil => exact ⟨stored, [], hmem, rfl, rfl⟩
        | cons t ts => exact ⟨stored, t :: ts, hmem, rfl, rfl⟩
    · exact absurd h2 hinv

theorem intrinsics_handle_ret_two (h : List CStr) (line : CStr)
    (h2 : (intrinsics_handle h line).ret = 2) :
    ∃ args, tokenize_whitespace line = "log".toList :: args ∧
      (handle_log_args h args).ret = 2 ∧
      (intrinsics_handle h line).reexec = (handle_log_args h args).reexec ∧
      (intrinsics_handle h line).history = (handle_log_args h args).history := by
  unfold intrinsics_handle at h2 ⊢
  cases hw : tokenize_whitespace line with
  | nil => rw [hw] at h2; simp at h2
  | cons cmd args =>
    rw [hw] at h2
    dsimp only at h2 ⊢
    split_ifs at h2 ⊢ with h1 h3 h4
    · simp at h2
    · simp at h2
    · exact ⟨args, by rw [h4], h2, rfl, rfl⟩
    · simp at h2

theorem takeWhile_eq_log (p : Char → Bool) (X : CStr)
    (h : X.takeWhile p = ['l', 'o', 'g']) :
    ∃ rest, X = 'l' :: 'o' :: 'g' :: rest ∧ ∀ c, rest.head? = some c → p c = false := by
  have step : ∀ (Y : CStr) (a : Char) (t : CStr), Y.takeWhile p = a :: t →
      ∃ Y1, Y = a :: Y1 ∧ Y1.takeWhile p = t := by
    intro Y a t hY
    cases Y with
    | nil => simp at hY
    | cons y Y1 =>
      by_cases hy : p y = true
      · rw [List.takeWhile_cons_of_pos hy] at hY
        obtain ⟨h1, h2⟩ := List.cons.inj hY
        exact ⟨Y1, by rw [h1], h2⟩
      · rw [List.takeWhile_cons_of_neg hy] at hY
        exact absurd hY (by simp)
  obtain ⟨X1, hX, h1⟩ := step X _ _ h
  obtain ⟨X2, hX1, h2⟩ := step X1 _ _ h1
  obtain ⟨X3, hX2, h3⟩ := step X2 _ _ h2
  refine ⟨X3, by rw [hX, hX1, hX2], ?_⟩
  intro c hc
  cases X3 with
  | nil => simp at hc
  | cons y Y =>
    simp only [List.head?_cons, Option.some.injEq] at hc
    subst hc
    by_cases hy : p y = true
    · rw [List.takeWhile_cons_of_pos hy] at h3
      exact absurd h3 (by simp)
    · simpa using hy

/-- A line whose first white-space-delimited word is `log` is one in which
`line_contains_atomic_log` finds `log`. -/
theorem scan_first_word_log (line : CStr) (args : List CStr)
    (h : tokenize_whitespace line = "log".toList :: args) :
    line_contains_atomic_log line = true := by
  have hh := tokenize_whitespace_head line
  rw [h] at hh
  cases hd : line.dropWhile isspace with
  | nil => rw [hd] at hh; simp at hh
  | cons c tl =>
    rw [hd] at hh
    simp only [List.head?_cons, Option.some.injEq] at hh
    obtain ⟨rest, hX, hrest⟩ := takeWhile_eq_log _ _ hh.symm
    have hc : c = 'l' := (List.cons.inj hX).1
    have htl : tl = 'o' :: 'g' :: rest := (List.cons.inj hX).2
    subst hc
    have hstop : ∀ x, rest.head? = some x → (fun x => !ends_log_name x) x = false := by
      intro x hx
      have := hrest x hx
      simp only [Bool.not_eq_false'] at this
      simp [ends_log_name, this]
    have htake : ('l' :: tl).takeWhile (fun x => !ends_log_name x) = ['l', 'o', 'g'] := by
      rw [htl]
      exact takeWhile_stop (fun x => !ends_log_name x) ['l', 'o', 'g'] rest
        (by decide) hstop
    unfold line_contains_atomic_log
    rw [line_contains_atomic_log_loop, hd]
    dsimp only
    rw [if_neg (by decide), if_pos htake]

theorem intrinsics_handle_not_two (h : List CStr) (c w : CStr)
    (hw : (tokenize_whitespace c).head? = some w) (hne : w ≠ "log".toList) :
    (intrinsics_handle h c).ret ≠ 2 := by
  intro h2
  obtain ⟨args, ha, _⟩ := intrinsics_handle_ret_two h c h2
  rw [ha] at hw
  simp only [List.head?_cons, Option.some.injEq] at hw
  exact hne hw.symm

/-- A replay command on which `intrinsics_handle` does not return 2 ends the loop: one
step is all the loop takes. -/
theorem replay_loop_one (f : Nat) (cmd : CStr) (acc : Outcome)
    (hne : (intrinsics_handle acc.history cmd).ret ≠ 2) :
    replay_loop (f + 1) cmd acc = replay_loop 1 cmd acc ∧
    (replay_loop (f + 1) cmd acc).replayed = acc.replayed ++ [cmd] := by
  rw [replay_loop, replay_loop]
  dsimp only
  split_ifs with hv h1
  · exact ⟨rfl, rfl⟩
  · exact ⟨rfl, rfl⟩
  · exact ⟨rfl, rfl⟩
  · exact ⟨rfl, rfl⟩

/-- C30, amended: every entry of the history buffer has a first white-space-delimited
word, and it is not `log`. Then for every line the replay loop of `main` examines at most
one replay command, on which `intrinsics_handle` does not return 2: one step of the loop
is enough, whatever the budget. For an accepted line on which `intrinsics_handle` returns
2 (a valid `log execute K ...`) the loop examines exactly the replay command returned.
`intrinsics_record_command` keeps the condition on the entries for every line that holds
a character other than white space. -/
theorem replay_single_hop (h : List CStr) (line : CStr) (fuel : Nat)
    (hP : ∀ e ∈ h, ∃ w ws, tokenize_whitespace e = w :: ws ∧ w ≠ "log".toList)
    (hfuel : 1 ≤ fuel) :
    main_turn fuel h line = main_turn 1 h line ∧
    (main_turn fuel h line).replayed.length ≤ 1 ∧
    (∀ c ∈ (main_turn fuel h line).replayed, (intrinsics_handle h c).ret ≠ 2) ∧
    ( validate_syntax line = true → (intrinsics_handle h line).ret = 2 →
      ∃ c, (intrinsics_handle h line).reexec = some c ∧
        (main_turn fuel h line).replayed = [c]) ∧
    (∀ l2 : CStr, (∃ w ws, tokenize_whitespace l2 = w :: ws) →
      ∀ e ∈ (intrinsics_record_command h l2).2,
        ∃ w ws, tokenize_whitespace e = w :: ws ∧ w ≠ "log".toList) := by
  obtain ⟨f, rfl⟩ : ∃ f, fuel = f + 1 := ⟨fuel - 1, by omega⟩
  have hlast : ∀ l2 : CStr, (∃ w ws, tokenize_whitespace l2 = w :: ws) →
      ∀ e ∈ (intrinsics_record_command h l2).2,
        ∃ w ws, tokenize_whitespace e = w :: ws ∧ w ≠ "log".toList := by
    intro l2 ⟨w, ws, hw⟩ e he
    unfold intrinsics_record_command at he
    by_cases hlog : line_contains_atomic_log l2 = true
    · rw [if_pos hlog] at he
      exact hP e he
    · rw [if_neg hlog] at he
      have hl2 : ∃ w ws, tokenize_whitespace l2 = w :: ws ∧ w ≠ "log".toList := by
        refine ⟨w, ws, hw, ?_⟩
        intro hwl
        rw [hwl] at hw
        exact hlog (scan_first_word_log l2 ws hw)
      dsimp only at he
      split_ifs at he with h1 h3
      · exact hP e he
      · rcases List.mem_append.mp he with hm | hm
        · exact hP e (List.mem_of_mem_erase (List.mem_of_mem_tail hm))
        · rw [List.mem_singleton.mp hm]; exact hl2
      · rcases List.mem_append.mp he with hm | hm
        · exact hP e (List.mem_of_mem_erase hm)
        · rw [List.mem_singleton.mp hm]; exact hl2
  have key : validate_syntax line = true → (intrinsics_handle h line).ret = 2 →
      ∃ c, (intrinsics_handle h line).reexec = some c ∧
        (∀ g : Nat, main_turn (g + 1) h line =
          replay_loop 1 c ⟨h, [line], (intrinsics_handle h line).call.toList, [], []⟩) ∧
        (replay_loop 1 c ⟨h, [line], (intrinsics_handle h line).call.toList, [], []⟩).replayed =
          [c] ∧
        (intrinsics_handle h c).ret ≠ 2 := by
    intro hv h2
    obtain ⟨args, hw, hr2, hre, hhist⟩ := intrinsics_handle_ret_two h line h2
    obtain ⟨stored, extra, hmem, hreexec, hh⟩ := handle_log_args_ret_two h args hr2
    obtain ⟨w, ws, hsw, hwne⟩ := hP stored hmem
    have hfirst : (tokenize_whitespace (append_tokens stored extra)).head? = some w := by
      rw [first_word_append_tokens stored extra (has_word_dropWhile stored w ws hsw), hsw]
      rfl
    have hne2 : (intrinsics_handle h (append_tokens stored extra)).ret ≠ 2 :=
      intrinsics_handle_not_two h _ w hfirst hwne
    have hrec : intrinsics_record_command h line = (0, h) :=
      record_skip_log h line (scan_first_word_log line args hw)
    have hblank : line.all is_blank = false := accepted_not_blank line hv
    refine ⟨append_tokens stored extra, by rw [hre, hreexec], ?_, ?_, hne2⟩
    · intro g
      have hone := (replay_loop_one g (append_tokens stored extra)
        ⟨h, [line], (intrinsics_handle h line).call.toList, [], []⟩ hne2).1
      unfold main_turn
      rw [hrec]
      simp only [hblank, hv, h2, hre, hreexec, hhist, hh, Bool.false_eq_true, if_false,
        Bool.true_eq_false]
      simp only [show ((2 : Int) = 0) = False from by simp,
        show ((2 : Int) = 1) = False from by simp, if_false, if_true]
      exact hone
    · exact (replay_loop_one 0 (append_tokens stored extra)
        ⟨h, [line], (intrinsics_handle h line).call.toList, [], []⟩ hne2).2
  have other : ( validate_syntax line = true → (intrinsics_handle h line).ret = 2 → False) →
      ∀ g : Nat, main_turn (g + 1) h line = main_turn 1 h line ∧
        (main_turn (g + 1) h line).replayed = [] := by
    intro hno g
    unfold main_turn
    by_cases hb : line.all is_blank = true
    · simp [hb]
    · by_cases hv : validate_syntax line = false
      · simp [hb, hv]
      · have hv1 : validate_syntax line = true := by simpa using hv
        simp only [hb, hv, if_false]
        have hret : ∀ h1 : List CStr, h1 = h → (intrinsics_handle h1 line).ret ≠ 2 := by
          intro h1 he
          rw [he]
          exact fun h2 => hno hv1 h2
        by_cases hlog : line_contains_atomic_log line = true
        · rw [record_skip_log h line hlog]
          dsimp only
          have hn := hret h rfl
          split_ifs <;> exact ⟨rfl, rfl⟩
        · have hn : (intrinsics_handle (intrinsics_record_command h line).2 line).ret ≠ 2 := by
            intro h2
            obtain ⟨args, hw, _⟩ := intrinsics_handle_ret_two _ line h2
            exact hlog (scan_first_word_log line args hw)
          split_ifs <;> exact ⟨rfl, rfl⟩
  by_cases hcase : validate_syntax line = true ∧ (intrinsics_handle h line).ret = 2
  · obtain ⟨c, hc, hturn, hrep, hne2⟩ := key hcase.1 hcase.2
    have hrepl : (main_turn (f + 1) h line).replayed = [c] := by rw [hturn f, hrep]
    refine ⟨by rw [hturn f, hturn 0], by rw [hrepl]; simp, ?_, fun _ _ => ⟨c, hc, hrepl⟩,
      hlast⟩
    intro x hx
    rw [hrepl, List.mem_singleton] at hx
    rw [hx]
    exact hne2
  · have ho := other (fun hv h2 => hcase ⟨hv, h2⟩) f
    refine ⟨ho.1, by rw [ho.2]; simp, ?_, fun hv h2 => absurd ⟨hv, h2⟩ hcase, hlast⟩
    intro x hx
    rw [ho.2] at hx
    simp at hx

/-- The buffer `[ls]` and the line `log execute 1 log execute 1`: the only replay command
is `ls log execute 1`, which is passed to `exec_run_line`. -/
theorem replay_single_hop_witness :
    main_turn 7 ["ls".toList] "log execute 1 log execute 1".toList =
      main_turn 1 ["ls".toList] "log execute 1 log execute 1".toList ∧
    (main_turn 7 ["ls".toList] "log execute 1 log execute 1".toList).replayed =
      ["ls log execute 1".toList] ∧
    (main_turn 7 ["ls".toList] "log execute 1 log execute 1".toList).executed =
      ["ls log execute 1".toList] :=
  ⟨(replay_single_hop ["ls".toList] "log execute 1 log execute 1".toList 7
      (fun e he => by
        rw [List.mem_singleton.mp he]
        exact ⟨"ls".toList, [], by decide, by decide⟩)
      (by decide)).1, by decide, by decide⟩

/-- C30, as stated, fails: no entry of the buffer has `log` as its first word when the
buffer holds one entry without any word, a vertical tab (a line the shell accepts and
records) or a blank (which `intrinsics_record_command` stores). On the line
`log execute 1 log execute 1` the first replay command is then the entry followed by
` log execute 1`; `intrinsics_handle` returns 2 on it and the loop goes on to a second
replay command, the entry itself. -/
theorem replay_single_hop_counterexample :
    (main_turn 1 [] "\x0b".toList).history = ["\x0b".toList] ∧
    tokenize_whitespace "\x0b".toList = [] ∧
    (main_turn 5 ["\x0b".toList] "log execute 1 log execute 1".toList).replayed =
      ["\x0b log execute 1".toList, "\x0b".toList] ∧
    (intrinsics_handle ["\x0b".toList] "\x0b log execute 1".toList).ret = 2 ∧
    intrinsics_record_command [] " ".toList = (1, [" ".toList]) ∧
    tokenize_whitespace " ".toList = [] ∧
    (main_turn 5 [" ".toList] "log execute 1 log execute 1".toList).replayed =
      ["  log execute 1".toList, " ".toList] ∧
    (intrinsics_handle [" ".toList] "  log execute 1".toList).ret = 2 := by
  decide
end CShell
